import Mathlib

/-!
# oneflow: `Compiler::GenNetTopo`, `Compiler::Compile` and the scatter-nd index helpers

A shallow embedding of `oneflow/core/job/compiler.cpp` and of
`oneflow/core/kernel/nd_indices_util.h`.

* Protobuf messages are structures holding the fields the code reads.
  A `repeated` field is a `List`; a protobuf `map` field is a list of
  key/value entries.
* `int64_t` identifiers are `Int`: the code only compares and stores them.
* `HashMap` (an `std::unordered_map`) is an association list with `find`
  and `emplace`; `std::set<int64_t>` is an ascending list; `std::map` is an
  association list ascending in its keys.
* `CHECK(c)` aborts the process when `c` is false: functions that contain a
  `CHECK` return `Except CheckFailure`.
-/

namespace oneflow

/-! ## Data model -/

/-- The fields of `RegstDescProto` read by `GenNetTopo`. -/
structure RegstDescProto where
  regst_desc_id : Int
  consumer_task_id : List Int
deriving DecidableEq, Repr

/-- The fields of `TaskProto` read by `GenNetTopo`; `produced_regst_desc` is
a protobuf `map<string, RegstDescProto>`, kept as its list of entries in
iteration order. -/
structure TaskProto where
  task_id : Int
  machine_id : Int
  produced_regst_desc : List (String × RegstDescProto)
deriving DecidableEq, Repr

/-- The message `MachineIds`: a repeated `machine_id`. -/
structure MachineIds where
  machine_id : List Int
deriving DecidableEq, Repr

/-- The message `NetTopo`: `peer_machine_ids` is a protobuf
`map<int64, MachineIds>`, kept as its list of entries. -/
structure NetTopo where
  peer_machine_ids : List (Int × MachineIds)
deriving DecidableEq, Repr

/-- The message `Plan`. `JobConf` is the type of a job configuration, which the
compiler stores and never inspects. -/
structure Plan (JobConf : Type) where
  task : List TaskProto
  job_id2job_conf : List (Int × JobConf)
  net_topo : NetTopo

/-- Which `CHECK` of `GenNetTopo` aborted. -/
inductive CheckFailure where
  /-- Line 28: `CHECK(tid2mid.emplace(...).second)`. -/
  | tid2mid_emplace
  /-- Line 35: `CHECK(rid2mid_it != rid2mid.end())`. -/
  | rid2mid_find
  /-- Line 39: `CHECK(tid2mid_it != tid2mid.end())`. -/
  | tid2mid_find
  /-- Line 55: `CHECK(std_net_topo.emplace(...).second)`. -/
  | std_net_topo_emplace
deriving DecidableEq, Repr

/-! ## Containers -/

/-- The type `HashMap<K, V>` with integer keys, as an association list
with at most one entry per key. -/
abbrev HashMap (V : Type) := List (Int × V)

/-- The call `m.find(k)`: the value stored under `k`, `none` for `m.end()`. -/
def HashMap.find {V : Type} : HashMap V → Int → Option V
  | [], _ => none
  | (k', v) :: rest, k => if k = k' then some v else HashMap.find rest k

/-- The call `m.emplace(k, v)`: when `k` has no entry one is added and `.second` is
`true`; otherwise the map is left as it is and `.second` is `false`. -/
def HashMap.emplace {V : Type} (m : HashMap V) (k : Int) (v : V) : HashMap V × Bool :=
  match HashMap.find m k with
  | some _ => (m, false)
  | none => (m ++ [(k, v)], true)

/-- The call `s.insert(v)` on an `std::set<int64_t>`, kept ascending. -/
def StdSet.insert (v : Int) : List Int → List Int
  | [] => [v]
  | x :: xs =>
    if v < x then v :: x :: xs
    else if v = x then x :: xs
    else x :: StdSet.insert v xs

/-- The statement `m[k].insert(v)` on an `std::map<int64_t, std::set<int64_t>>` kept
ascending in its keys: `m[k]` default-constructs an empty set when `k` has
no entry. -/
def StdMap.insertAt (k v : Int) : List (Int × List Int) → List (Int × List Int)
  | [] => [(k, StdSet.insert v [])]
  | (k', s) :: rest =>
    if k < k' then (k, StdSet.insert v []) :: (k', s) :: rest
    else if k = k' then (k', StdSet.insert v s) :: rest
    else (k', s) :: StdMap.insertAt k v rest

/-- Modelled from the spec: `StdVec2PbRf` is declared outside the sources at
hand; it copies a `std::vector` into a protobuf repeated field, element by
element in order. -/
def StdVec2PbRf (v : List Int) : List Int := v

/-- Modelled from the spec: `HashMap2PbMap` is declared outside the sources at
hand; it copies the entries of a `HashMap` into a protobuf map. -/
def HashMap2PbMap (m : HashMap MachineIds) : List (Int × MachineIds) := m

/-! ## `Compiler::GenNetTopo` -/

/-- Lines 25-27: the inner loop of the first pass, `rid2mid.emplace(rid, machine_id)`
for every produced register of one task. -/
def GenNetTopo.emplaceRegsts (machine_id : Int) :
    List (String × RegstDescProto) → HashMap Int → HashMap Int
  | [], rid2mid => rid2mid
  | regst_desc_it :: rest, rid2mid =>
    GenNetTopo.emplaceRegsts machine_id rest
      (HashMap.emplace rid2mid regst_desc_it.2.regst_desc_id machine_id).1

/-- Lines 24-29: the first pass over `plan->task()`. -/
def GenNetTopo.collectIds :
    List TaskProto → HashMap Int × HashMap Int → Except CheckFailure (HashMap Int × HashMap Int)
  | [], maps => .ok maps
  | task_proto :: rest, (rid2mid, tid2mid) =>
    let rid2mid1 :=
      GenNetTopo.emplaceRegsts task_proto.machine_id task_proto.produced_regst_desc rid2mid
    let r := HashMap.emplace tid2mid task_proto.task_id task_proto.machine_id
    if r.2 then GenNetTopo.collectIds rest (rid2mid1, r.1)
    else .error CheckFailure.tid2mid_emplace

/-- Lines 37-43: the loop over the consumers of one register. -/
def GenNetTopo.linkConsumers (tid2mid : HashMap Int) (producer_mid : Int) :
    List Int → List (Int × List Int) → Except CheckFailure (List (Int × List Int))
  | [], net_topo => .ok net_topo
  | consumer_task_id :: rest, net_topo =>
    match HashMap.find tid2mid consumer_task_id with
    | none => .error CheckFailure.tid2mid_find
    | some consumer_mid =>
      GenNetTopo.linkConsumers tid2mid producer_mid rest
        (StdMap.insertAt consumer_mid producer_mid
          (StdMap.insertAt producer_mid consumer_mid net_topo))

/-- Lines 32-44: the loop over the produced registers of one task. -/
def GenNetTopo.linkRegsts (rid2mid tid2mid : HashMap Int) :
    List (String × RegstDescProto) → List (Int × List Int) →
      Except CheckFailure (List (Int × List Int))
  | [], net_topo => .ok net_topo
  | regst_desc_it :: rest, net_topo =>
    match HashMap.find rid2mid regst_desc_it.2.regst_desc_id with
    | none => .error CheckFailure.rid2mid_find
    | some producer_mid =>
      match GenNetTopo.linkConsumers tid2mid producer_mid
          regst_desc_it.2.consumer_task_id net_topo with
      | .error e => .error e
      | .ok net_topo1 => GenNetTopo.linkRegsts rid2mid tid2mid rest net_topo1

/-- Lines 31-45: the second pass over `plan->task()`. -/
def GenNetTopo.linkTasks (rid2mid tid2mid : HashMap Int) :
    List TaskProto → List (Int × List Int) → Except CheckFailure (List (Int × List Int))
  | [], net_topo => .ok net_topo
  | task_proto :: rest, net_topo =>
    match GenNetTopo.linkRegsts rid2mid tid2mid task_proto.produced_regst_desc net_topo with
    | .error e => .error e
    | .ok net_topo1 => GenNetTopo.linkTasks rid2mid tid2mid rest net_topo1

/-- Lines 49-56: the loop over `net_topo` that drops each machine from its own
set and fills `std_net_topo`. -/
def GenNetTopo.fillStdNetTopo :
    List (Int × List Int) → HashMap MachineIds → Except CheckFailure (HashMap MachineIds)
  | [], std_net_topo => .ok std_net_topo
  | pair :: rest, std_net_topo =>
    let src_mid := pair.1
    let second := if src_mid ∈ pair.2 then pair.2.erase src_mid else pair.2
    let peer_mids := second
    let pb_mids : MachineIds := { machine_id := StdVec2PbRf peer_mids }
    let r := HashMap.emplace std_net_topo src_mid pb_mids
    if r.2 then GenNetTopo.fillStdNetTopo rest r.1
    else .error CheckFailure.std_net_topo_emplace

/-- The method `Compiler::GenNetTopo(Plan* plan)`: the plan after the call, or the `CHECK`
that aborted. -/
def GenNetTopo {JobConf : Type} (plan : Plan JobConf) : Except CheckFailure (Plan JobConf) :=
  match GenNetTopo.collectIds plan.task ([], []) with
  | .error e => .error e
  | .ok (rid2mid, tid2mid) =>
    match GenNetTopo.linkTasks rid2mid tid2mid plan.task [] with
    | .error e => .error e
    | .ok net_topo =>
      match GenNetTopo.fillStdNetTopo net_topo [] with
      | .error e => .error e
      | .ok std_net_topo =>
        .ok { plan with net_topo := { peer_machine_ids := HashMap2PbMap std_net_topo } }

/-- The topology `GenNetTopo` writes, as the list of `(machine, peers)` entries of
`peer_machine_ids`; `none` when a `CHECK` aborts. -/
def netTopoOf {JobConf : Type} (plan : Plan JobConf) : Option (List (Int × List Int)) :=
  match GenNetTopo plan with
  | .error _ => none
  | .ok plan1 => some (plan1.net_topo.peer_machine_ids.map fun e => (e.1, e.2.machine_id))

/-! ## `Compiler::Compile`

The collaborators of `Compile` (job completer, graphs, XLA passes, log
streams) live outside `compiler.cpp`. They enter the model as a record of
functions over types that stay abstract, and every call `Compile` makes to
one of them is appended to a trace. -/

/-- The types of the values `Compile` passes between its collaborators. -/
structure Types where
  Job : Type
  JobConf : Type
  OpGraph : Type
  XlaGraph : Type
  LogicalGraph : Type
  TaskGraph : Type
  /-- A handle on a `TaskNode` of a `TaskGraph`. -/
  TaskNode : Type
  /-- The result of `MakePredicatorIsLbiAllConsumersReachableToOpName`. -/
  Predicator : Type

/-- The fields of `mola::OptimizeOptions` that `Compile` sets besides `graph`. -/
structure OptimizeOptions where
  minimum_nodes_in_cluster : Int
  maximum_nodes_in_cluster : Int
deriving DecidableEq, Repr

/-- The collaborators of `Compile`. A method that mutates its receiver in place
is a function from the old value to the new one. `ForEachNode` and
`MdUpdtDelayedTopoForEachNode` are given by the order in which they visit the
nodes of a graph. -/
structure Collaborators (T : Types) where
  /-- The call `JobCompleter().Complete(job)`. -/
  Complete : T.Job → T.Job
  /-- The constructor `OpGraph(*job)`. -/
  OpGraph_new : T.Job → T.OpGraph
  /-- The constructor `mola::XlaGraph(op_graph)`. -/
  XlaGraph_new : T.OpGraph → T.XlaGraph
  /-- The call `mola::RunOptimizePass(name, options)` on `options.graph`. -/
  RunOptimizePass : String → OptimizeOptions → T.XlaGraph → T.XlaGraph
  /-- The call `RebuildXlaCompiledJob(graph, job)`. -/
  RebuildXlaCompiledJob : T.XlaGraph → T.Job → T.Job
  /-- The constructor `LogicalGraph(*job)`. -/
  LogicalGraph_new : T.Job → T.LogicalGraph
  /-- The constructor `TaskGraph(std::move(logical_gph))`. -/
  TaskGraph_new : T.LogicalGraph → T.TaskGraph
  /-- The order in which `ForEachNode` visits the nodes. -/
  ForEachNode : T.TaskGraph → List T.TaskNode
  /-- The order in which `MdUpdtDelayedTopoForEachNode` visits the nodes. -/
  MdUpdtDelayedTopoForEachNode : T.TaskGraph → List T.TaskNode
  ProduceAllRegstsAndBindEdges : T.TaskNode → T.TaskGraph → T.TaskGraph
  ConsumeAllRegsts : T.TaskNode → T.TaskGraph → T.TaskGraph
  PinConsumedRegst : T.TaskNode → T.TaskGraph → T.TaskGraph
  Build : T.TaskNode → T.TaskGraph → T.TaskGraph
  RemoveEmptyRegsts : T.TaskGraph → T.TaskGraph
  AddOrderingCtrlEdgeInSameChain : T.TaskGraph → T.TaskGraph
  EnableMemSharingInReduceStruct : T.TaskGraph → T.TaskGraph
  MakePredicatorIsLbiAllConsumersReachableToOpName : T.OpGraph → T.Predicator
  EnableInplaceMemSharing : T.Predicator → T.TaskGraph → T.TaskGraph
  InferTimeShapeIfMeaningful : T.TaskNode → T.TaskGraph → T.TaskGraph
  IsMeaningLess : T.TaskGraph → T.TaskNode → Bool
  ToProto : T.TaskGraph → T.TaskNode → TaskProto

/-- What `Compile` reads from `GlobalJobDesc()`. -/
structure JobDesc (JobConf : Type) where
  job_id : Int
  job_conf : JobConf
  IsTrain : Bool
  enable_inplace : Bool

/-- The build flag `WITH_XLA` and the command-line flag `FLAGS_use_xla_jit`. -/
structure XlaFlags where
  WITH_XLA : Bool
  use_xla_jit : Bool
deriving DecidableEq, Repr

/-- One call made by `Compile`, in the order of the trace. -/
inductive Call (TaskNode : Type) where
  | JobCompleter_Complete
  | TeePersistentLogStream_Write (name : String)
  | OpGraph_New
  | OpGraph_Delete
  | ToDotWithFilePath (path : String)
  | XlaGraph_new
  | RunOptimizePass (name : String)
  | RebuildXlaCompiledJob
  | LogicalGraph_new
  | TaskGraph_new
  | ProduceAllRegstsAndBindEdges (node : TaskNode)
  | ConsumeAllRegsts (node : TaskNode)
  | PinConsumedRegst (node : TaskNode)
  | Build (node : TaskNode)
  | RemoveEmptyRegsts
  | AddOrderingCtrlEdgeInSameChain
  | EnableMemSharingInReduceStruct
  | MakePredicatorIsLbiAllConsumersReachableToOpName
  | EnableInplaceMemSharing
  | InferTimeShapeIfMeaningful (node : TaskNode)
  | ToProto (node : TaskNode)
  /-- Line 128, `GenNetTopo(plan)`: the call is commented out, so no trace holds it. -/
  | GenNetTopo
deriving DecidableEq, Repr

/-- The only way the modelled part of `Compile` can go wrong by itself:
`Global<OpGraph>::Get()` is dereferenced while no `OpGraph` exists. -/
inductive CompileFailure where
  | OpGraph_null
deriving DecidableEq, Repr

/-- What `Compile` leaves behind: the job and the plan it was handed, the global
`OpGraph` slot, the trace of its calls, and (for the statements only) the
task graph as it was when the plan was written. -/
structure Compiled (T : Types) where
  job : T.Job
  plan : Plan T.JobConf
  global_OpGraph : Option T.OpGraph
  calls : List (Call T.TaskNode)
  task_gph : T.TaskGraph

/-- The dereference `Global<OpGraph>::Get()->...`. -/
def Global_Get {OpGraph : Type} (slot : Option OpGraph) : Except CompileFailure OpGraph :=
  match slot with
  | some g => .ok g
  | none => .error CompileFailure.OpGraph_null

/-- The loop `task_gph->ForEachNode(f)` or `task_gph->MdUpdtDelayedTopoForEachNode(f)`
over the nodes in visiting order: `f` is applied to one node after the other
and each application is recorded. -/
def visitNodes {T : Types} (f : T.TaskNode → T.TaskGraph → T.TaskGraph)
    (call : T.TaskNode → Call T.TaskNode) :
    List T.TaskNode → T.TaskGraph × List (Call T.TaskNode) →
      T.TaskGraph × List (Call T.TaskNode)
  | [], s => s
  | node :: rest, (task_gph, calls) =>
    visitNodes f call rest (f node task_gph, calls ++ [call node])

/-- Lines 119-122: the loop that writes the task descriptors, over the nodes in
visiting order. -/
def Compile.writeTasks {T : Types} (c : Collaborators T) (task_gph : T.TaskGraph) :
    List T.TaskNode → Plan T.JobConf × List (Call T.TaskNode) →
      Plan T.JobConf × List (Call T.TaskNode)
  | [], s => s
  | task_node :: rest, (plan, calls) =>
    if c.IsMeaningLess task_gph task_node then Compile.writeTasks c task_gph rest (plan, calls)
    else
      Compile.writeTasks c task_gph rest
        ({ plan with task := plan.task ++ [c.ToProto task_gph task_node] },
          calls ++ [Call.ToProto task_node])

/-- The assignment `(*job_id2job_conf)[job_id] = job_conf` on a protobuf map. -/
def setJobConf {JobConf : Type} (job_id : Int) (job_conf : JobConf) :
    List (Int × JobConf) → List (Int × JobConf)
  | [] => [(job_id, job_conf)]
  | (k, v) :: rest =>
    if k = job_id then (k, job_conf) :: rest else (k, v) :: setJobConf job_id job_conf rest

/-- Lines 68-89, the block under `WITH_XLA`. -/
def Compile.xla {T : Types} (c : Collaborators T) (job_desc : JobDesc T.JobConf)
    (flags : XlaFlags) (job : T.Job) (slot : Option T.OpGraph) (calls : List (Call T.TaskNode)) :
    Except CompileFailure (T.Job × Option T.OpGraph × List (Call T.TaskNode)) :=
  if flags.WITH_XLA then
    let calls := calls ++
      [Call.TeePersistentLogStream_Write ("job_without_xla" ++ toString job_desc.job_id)]
    if flags.use_xla_jit then
      match Global_Get slot with
      | .error e => .error e
      | .ok op_graph =>
        let graph := c.XlaGraph_new op_graph
        let calls := calls ++ [Call.XlaGraph_new]
        let options : OptimizeOptions :=
          { minimum_nodes_in_cluster := 1, maximum_nodes_in_cluster := 50 }
        let graph := c.RunOptimizePass "MarkClusterId" options graph
        let calls := calls ++ [Call.RunOptimizePass "MarkClusterId"]
        let graph := c.RunOptimizePass "BuildSubGraph" options graph
        let calls := calls ++ [Call.RunOptimizePass "BuildSubGraph"]
        let job := c.RebuildXlaCompiledJob graph job
        let calls := calls ++ [Call.RebuildXlaCompiledJob]
        let calls := calls ++
          [Call.TeePersistentLogStream_Write ("job_with_xla" ++ toString job_desc.job_id)]
        let calls := calls ++ [Call.OpGraph_Delete]
        let slot : Option T.OpGraph := some (c.OpGraph_new job)
        let calls := calls ++ [Call.OpGraph_New]
        .ok (job, slot, calls)
    else .ok (job, slot, calls)
  else .ok (job, slot, calls)

/-- Lines 91-117: the task graph is built and taken through its phases. -/
def Compile.taskGraph {T : Types} (c : Collaborators T) (job_desc : JobDesc T.JobConf)
    (job : T.Job) (slot : Option T.OpGraph) (calls : List (Call T.TaskNode)) :
    Except CompileFailure (T.TaskGraph × List (Call T.TaskNode)) :=
  let logical_gph := c.LogicalGraph_new job
  let calls := calls ++ [Call.LogicalGraph_new]
  let task_gph := c.TaskGraph_new logical_gph
  let calls := calls ++ [Call.TaskGraph_new]
  let s := visitNodes c.ProduceAllRegstsAndBindEdges Call.ProduceAllRegstsAndBindEdges
    (c.ForEachNode task_gph) (task_gph, calls)
  let s := visitNodes c.ConsumeAllRegsts Call.ConsumeAllRegsts (c.ForEachNode s.1) s
  let s := visitNodes c.PinConsumedRegst Call.PinConsumedRegst (c.ForEachNode s.1) s
  let s := visitNodes c.Build Call.Build (c.MdUpdtDelayedTopoForEachNode s.1) s
  -- lines 98-101: the body of `if (job_desc.IsTrain())` is commented out
  let s := (c.RemoveEmptyRegsts s.1, s.2 ++ [Call.RemoveEmptyRegsts])
  let s := (c.AddOrderingCtrlEdgeInSameChain s.1, s.2 ++ [Call.AddOrderingCtrlEdgeInSameChain])
  let s := (c.EnableMemSharingInReduceStruct s.1, s.2 ++ [Call.EnableMemSharingInReduceStruct])
  let r : Except CompileFailure (T.TaskGraph × List (Call T.TaskNode)) :=
    if job_desc.enable_inplace then
      match Global_Get slot with
      | .error e => .error e
      | .ok op_graph =>
        let IsReachable := c.MakePredicatorIsLbiAllConsumersReachableToOpName op_graph
        .ok (c.EnableInplaceMemSharing IsReachable s.1,
          s.2 ++ [Call.MakePredicatorIsLbiAllConsumersReachableToOpName,
            Call.EnableInplaceMemSharing])
    else .ok s
  match r with
  | .error e => .error e
  | .ok s =>
    .ok (visitNodes c.InferTimeShapeIfMeaningful Call.InferTimeShapeIfMeaningful
      (c.MdUpdtDelayedTopoForEachNode s.1) s)

/-- The method `Compiler::Compile(Job* job, Plan* plan, bool need_job_complete)`.
The object `cudnn_conv_ctx_cache_scope` lives from the first line to the return
and touches nothing modelled here; `slot` is the global `OpGraph` slot, which
line 65 fills whatever it held on entry. -/
def Compile {T : Types} (c : Collaborators T) (job_desc : JobDesc T.JobConf) (flags : XlaFlags)
    (job : T.Job) (plan : Plan T.JobConf) (need_job_complete : Bool) :
    Except CompileFailure (Compiled T) :=
  let calls : List (Call T.TaskNode) := []
  -- line 63
  let job := if need_job_complete then c.Complete job else job
  let calls := if need_job_complete then calls ++ [Call.JobCompleter_Complete] else calls
  -- line 64
  let calls := calls ++
    [Call.TeePersistentLogStream_Write ("optimized_job" ++ toString job_desc.job_id)]
  -- line 65
  let slot : Option T.OpGraph := some (c.OpGraph_new job)
  let calls := calls ++ [Call.OpGraph_New]
  -- line 66
  match Global_Get slot with
  | .error e => .error e
  | .ok _ =>
    let calls := calls ++ [Call.ToDotWithFilePath "optimized_dlnet_op_graph.dot"]
    match Compile.xla c job_desc flags job slot calls with
    | .error e => .error e
    | .ok (job, slot, calls) =>
      match Compile.taskGraph c job_desc job slot calls with
      | .error e => .error e
      | .ok (task_gph, calls) =>
        -- lines 119-122
        let s := Compile.writeTasks c task_gph (c.ForEachNode task_gph) (plan, calls)
        -- lines 123-126
        let plan : Plan T.JobConf :=
          { s.1 with
            job_id2job_conf := setJobConf job_desc.job_id job_desc.job_conf s.1.job_id2job_conf }
        -- line 129
        let calls := s.2 ++ [Call.OpGraph_Delete]
        .ok { job := job, plan := plan, global_OpGraph := none, calls := calls,
              task_gph := task_gph }


/-- The graph after `f` has been applied to the given nodes, one after the other. -/
def applyToNodes {T : Types} (f : T.TaskNode → T.TaskGraph → T.TaskGraph) :
    List T.TaskNode → T.TaskGraph → T.TaskGraph
  | [], task_gph => task_gph
  | node :: rest, task_gph => applyToNodes f rest (f node task_gph)

/-- The calls that make up the phases of the task graph and the writing of the
plan. -/
def Call.isPhase {TaskNode : Type} : Call TaskNode → Bool
  | .ProduceAllRegstsAndBindEdges _ => true
  | .ConsumeAllRegsts _ => true
  | .PinConsumedRegst _ => true
  | .Build _ => true
  | .RemoveEmptyRegsts => true
  | .AddOrderingCtrlEdgeInSameChain => true
  | .EnableMemSharingInReduceStruct => true
  | .EnableInplaceMemSharing => true
  | .InferTimeShapeIfMeaningful _ => true
  | .ToProto _ => true
  | _ => false

/-- The two calls of the in-place phase, lines 110 and 111. -/
def Call.isInplace {TaskNode : Type} : Call TaskNode → Bool
  | .MakePredicatorIsLbiAllConsumersReachableToOpName => true
  | .EnableInplaceMemSharing => true
  | _ => false

/-- The calls that build a graph from the job. -/
def Call.buildsGraph {TaskNode : Type} : Call TaskNode → Bool
  | .OpGraph_New => true
  | .LogicalGraph_new => true
  | .TaskGraph_new => true
  | _ => false

/-- The job after the XLA block: rewritten when `WITH_XLA` is defined and
`FLAGS_use_xla_jit` is set, untouched otherwise. -/
def jobAfterXla {T : Types} (c : Collaborators T) (flags : XlaFlags) (job : T.Job) : T.Job :=
  if flags.WITH_XLA && flags.use_xla_jit then
    c.RebuildXlaCompiledJob
      (c.RunOptimizePass "BuildSubGraph"
        { minimum_nodes_in_cluster := 1, maximum_nodes_in_cluster := 50 }
        (c.RunOptimizePass "MarkClusterId"
          { minimum_nodes_in_cluster := 1, maximum_nodes_in_cluster := 50 }
          (c.XlaGraph_new (c.OpGraph_new job))))
      job
  else job

/-- The task graph as constructed from the job, before any phase. -/
def graphNew {T : Types} (c : Collaborators T) (job : T.Job) : T.TaskGraph :=
  c.TaskGraph_new (c.LogicalGraph_new job)

/-- The task graph after the produce phase. -/
def graphAfterProduce {T : Types} (c : Collaborators T) (job : T.Job) : T.TaskGraph :=
  applyToNodes c.ProduceAllRegstsAndBindEdges (c.ForEachNode (graphNew c job)) (graphNew c job)

/-- The task graph after the consume phase. -/
def graphAfterConsume {T : Types} (c : Collaborators T) (job : T.Job) : T.TaskGraph :=
  applyToNodes c.ConsumeAllRegsts (c.ForEachNode (graphAfterProduce c job))
    (graphAfterProduce c job)

/-- The task graph after the pin phase. -/
def graphAfterPin {T : Types} (c : Collaborators T) (job : T.Job) : T.TaskGraph :=
  applyToNodes c.PinConsumedRegst (c.ForEachNode (graphAfterConsume c job))
    (graphAfterConsume c job)

/-- The task graph after the build phase. -/
def graphAfterBuild {T : Types} (c : Collaborators T) (job : T.Job) : T.TaskGraph :=
  applyToNodes c.Build (c.MdUpdtDelayedTopoForEachNode (graphAfterPin c job))
    (graphAfterPin c job)

/-- The task graph after `RemoveEmptyRegsts`, `AddOrderingCtrlEdgeInSameChain` and
`EnableMemSharingInReduceStruct`. -/
def graphAfterMemSharing {T : Types} (c : Collaborators T) (job : T.Job) : T.TaskGraph :=
  c.EnableMemSharingInReduceStruct
    (c.AddOrderingCtrlEdgeInSameChain (c.RemoveEmptyRegsts (graphAfterBuild c job)))

/-- The task graph after the in-place phase, which runs with the predicate made by
the `OpGraph` of the job when `enable_inplace` is set. -/
def graphAfterInplace {T : Types} (c : Collaborators T) (enable_inplace : Bool) (job : T.Job) :
    T.TaskGraph :=
  if enable_inplace then
    c.EnableInplaceMemSharing
      (c.MakePredicatorIsLbiAllConsumersReachableToOpName (c.OpGraph_new job))
      (graphAfterMemSharing c job)
  else graphAfterMemSharing c job

/-- The task graph after the time-shape phase: the graph the plan is written from. -/
def graphAfterTimeShape {T : Types} (c : Collaborators T) (enable_inplace : Bool)
    (job : T.Job) : T.TaskGraph :=
  applyToNodes c.InferTimeShapeIfMeaningful
    (c.MdUpdtDelayedTopoForEachNode (graphAfterInplace c enable_inplace job))
    (graphAfterInplace c enable_inplace job)

/-- The nodes that are not flagged meaningless, in visiting order. -/
def meaningfulNodes {T : Types} (c : Collaborators T) (task_gph : T.TaskGraph) :
    List T.TaskNode :=
  (c.ForEachNode task_gph).filter fun n => !c.IsMeaningLess task_gph n

/-- The calls of lines 63-66. -/
def callsBeforeXla {T : Types} (job_desc : JobDesc T.JobConf) (need_job_complete : Bool) :
    List (Call T.TaskNode) :=
  (if need_job_complete then [Call.JobCompleter_Complete] else []) ++
    [Call.TeePersistentLogStream_Write ("optimized_job" ++ toString job_desc.job_id),
     Call.OpGraph_New, Call.ToDotWithFilePath "optimized_dlnet_op_graph.dot"]

/-- The calls of the XLA block, lines 68-89. -/
def callsOfXla {T : Types} (job_desc : JobDesc T.JobConf) (flags : XlaFlags) :
    List (Call T.TaskNode) :=
  if flags.WITH_XLA then
    Call.TeePersistentLogStream_Write ("job_without_xla" ++ toString job_desc.job_id) ::
      (if flags.use_xla_jit then
        [Call.XlaGraph_new, Call.RunOptimizePass "MarkClusterId",
         Call.RunOptimizePass "BuildSubGraph", Call.RebuildXlaCompiledJob,
         Call.TeePersistentLogStream_Write ("job_with_xla" ++ toString job_desc.job_id),
         Call.OpGraph_Delete, Call.OpGraph_New]
      else [])
  else []

/-- The calls of the phases of the task graph, lines 94-115, on the graph built
from `job`. -/
def callsOfPhases {T : Types} (c : Collaborators T) (enable_inplace : Bool) (job : T.Job) :
    List (Call T.TaskNode) :=
  (c.ForEachNode (graphNew c job)).map Call.ProduceAllRegstsAndBindEdges ++
  (c.ForEachNode (graphAfterProduce c job)).map Call.ConsumeAllRegsts ++
  (c.ForEachNode (graphAfterConsume c job)).map Call.PinConsumedRegst ++
  (c.MdUpdtDelayedTopoForEachNode (graphAfterPin c job)).map Call.Build ++
  [Call.RemoveEmptyRegsts, Call.AddOrderingCtrlEdgeInSameChain,
    Call.EnableMemSharingInReduceStruct] ++
  (if enable_inplace then
    [Call.MakePredicatorIsLbiAllConsumersReachableToOpName, Call.EnableInplaceMemSharing]
  else []) ++
  (c.MdUpdtDelayedTopoForEachNode (graphAfterInplace c enable_inplace job)).map
    Call.InferTimeShapeIfMeaningful

/-! ## Vocabulary of the statements -/

/-- Machine `m2` is listed among the peers of machine `m1`. -/
def NetTopo.HasPeer (t : NetTopo) (m1 m2 : Int) : Prop :=
  ∃ ids, (m1, ids) ∈ t.peer_machine_ids ∧ m2 ∈ ids.machine_id

/-- In the working map `net_topo`, the set stored under `a` holds `b`. -/
def Linked (net_topo : List (Int × List Int)) (a b : Int) : Prop :=
  ∃ s, (a, s) ∈ net_topo ∧ b ∈ s

/-- The working map is a well-formed `std::map` of `std::set`s: keys ascending,
every set ascending. -/
def StdMap.WF (net_topo : List (Int × List Int)) : Prop :=
  (net_topo.map Prod.fst).Sorted (· < ·) ∧ ∀ e ∈ net_topo, e.2.Sorted (· < ·)

/-- The `(register id, machine id)` pairs offered to `rid2mid`, in order. -/
def ridEntries : List TaskProto → List (Int × Int)
  | [] => []
  | t :: rest =>
    (t.produced_regst_desc.map fun r => (r.2.regst_desc_id, t.machine_id)) ++ ridEntries rest

/-- The `(task id, machine id)` pairs offered to `tid2mid`, in order. -/
def tidEntries (tasks : List TaskProto) : List (Int × Int) :=
  tasks.map fun t => (t.task_id, t.machine_id)

/-- The pairs `(a, b)` that one producer/consumer link stores: both directions. -/
def Joins (producer_mid consumer_mid a b : Int) : Prop :=
  (a = producer_mid ∧ b = consumer_mid) ∨ (a = consumer_mid ∧ b = producer_mid)

/-- Lines 50-54 for one entry of `net_topo`: the machine is dropped from its own
set and the set is copied into a `MachineIds`. -/
def stripSelf (pair : Int × List Int) : Int × MachineIds :=
  (pair.1, { machine_id := if pair.1 ∈ pair.2 then pair.2.erase pair.1 else pair.2 })

/-- The machine that `rid2mid` holds for a register id after the first pass: the
machine of the first task, in plan order, that produces a register with
this id. -/
def producerMid (tasks : List TaskProto) (rid : Int) : Option Int :=
  HashMap.find (ridEntries tasks) rid

/-- The machine that `tid2mid` holds for a task id after the first pass. -/
def consumerMid (tasks : List TaskProto) (tid : Int) : Option Int :=
  HashMap.find (tidEntries tasks) tid

/-- Some register of the plan, looked up as the second pass does, links machines
`a` and `b`: one is the machine recorded for the register id, the other the
machine recorded for one of its consumer task ids. -/
def Edge (tasks : List TaskProto) (a b : Int) : Prop :=
  ∃ t ∈ tasks, ∃ r ∈ t.produced_regst_desc,
    ∃ pm, producerMid tasks r.2.regst_desc_id = some pm ∧
    ∃ c ∈ r.2.consumer_task_id, ∃ cm, consumerMid tasks c = some cm ∧ Joins pm cm a b

/-- Machine `a` is the recorded producer or a recorded consumer machine of a
register that has a consumer. -/
def Touched (tasks : List TaskProto) (a : Int) : Prop :=
  ∃ t ∈ tasks, ∃ r ∈ t.produced_regst_desc,
    ∃ pm, producerMid tasks r.2.regst_desc_id = some pm ∧
    ∃ c ∈ r.2.consumer_task_id, ∃ cm, consumerMid tasks c = some cm ∧ (a = pm ∨ a = cm)

/-- Every consumer task id listed by a produced register is the id of a task of
the plan. -/
def ConsumersKnown (tasks : List TaskProto) : Prop :=
  ∀ t ∈ tasks, ∀ r ∈ t.produced_regst_desc, ∀ c ∈ r.2.consumer_task_id,
    ∃ t' ∈ tasks, t'.task_id = c

/-- Every register descriptor id is produced by exactly one task of the plan. -/
def UniqueProducers (tasks : List TaskProto) : Prop :=
  ∀ t1 ∈ tasks, ∀ t2 ∈ tasks, ∀ r1 ∈ t1.produced_regst_desc, ∀ r2 ∈ t2.produced_regst_desc,
    r1.2.regst_desc_id = r2.2.regst_desc_id → t1 = t2

/-- Two tasks at different positions of the task list carry the same task id. -/
def SharedTaskId (tasks : List TaskProto) : Prop :=
  ∃ i j : Fin tasks.length, i ≠ j ∧ (tasks.get i).task_id = (tasks.get j).task_id

/-- Some produced register lists a consumer task id that no task of the plan
carries. -/
def UnknownConsumer (tasks : List TaskProto) : Prop :=
  ∃ t ∈ tasks, ∃ r ∈ t.produced_regst_desc, ∃ c ∈ r.2.consumer_task_id,
    ∀ t' ∈ tasks, t'.task_id ≠ c

/-- The shape of the plans of the two-machine scenario: the plan holds the tasks `A`
and `B` and nothing else; when `B` is listed first, no register of `B` carries
the id of a register of `A`. -/
def TwoTaskPlan (tasks : List TaskProto) (A B : TaskProto) : Prop :=
  tasks = [A, B] ∨
    (tasks = [B, A] ∧
      ∀ ra ∈ A.produced_regst_desc, ∀ rb ∈ B.produced_regst_desc,
        ra.2.regst_desc_id ≠ rb.2.regst_desc_id)

/-! ## Concrete plans -/

/-- Task `A` (id 1) on machine 1 produces register 10, consumed by task 2. -/
def exTaskA : TaskProto :=
  { task_id := 1, machine_id := 1,
    produced_regst_desc := [("out", { regst_desc_id := 10, consumer_task_id := [2] })] }

/-- Task `B` (id 2) on machine 2 produces nothing. -/
def exTaskB : TaskProto :=
  { task_id := 2, machine_id := 2, produced_regst_desc := [] }

/-- The plan `A` on machine 1 feeding `B` on machine 2. -/
def exPlanAB : Plan Unit :=
  { task := [exTaskA, exTaskB], job_id2job_conf := [], net_topo := { peer_machine_ids := [] } }

/-- Task `B` (id 2) on machine 2 with an unconsumed register whose id is 10 as well. -/
def exTaskBClash : TaskProto :=
  { task_id := 2, machine_id := 2,
    produced_regst_desc := [("out", { regst_desc_id := 10, consumer_task_id := [] })] }

/-- The plan that lists `B` first and `A` second, both producing a register with
id 10. -/
def exPlanClash : Plan Unit :=
  { task := [exTaskBClash, exTaskA], job_id2job_conf := [],
    net_topo := { peer_machine_ids := [] } }

/-- Three tasks `A -> B -> C` on machine 1, registers 10 (`A -> B`) and 11 (`B -> C`). -/
def exPlanChain : Plan Unit :=
  { task :=
      [ { task_id := 1, machine_id := 1,
          produced_regst_desc := [("out", { regst_desc_id := 10, consumer_task_id := [2] })] },
        { task_id := 2, machine_id := 1,
          produced_regst_desc := [("out", { regst_desc_id := 11, consumer_task_id := [3] })] },
        { task_id := 3, machine_id := 1, produced_regst_desc := [] } ],
    job_id2job_conf := [], net_topo := { peer_machine_ids := [] } }

/-- Task `A` of `exTaskA` with a second register, 11, that lists task id 7. -/
def exTaskAStray : TaskProto :=
  { task_id := 1, machine_id := 1,
    produced_regst_desc :=
      [("out", { regst_desc_id := 10, consumer_task_id := [2] }),
       ("aux", { regst_desc_id := 11, consumer_task_id := [7] })] }

/-- The plan `A`, `B` in which a second register of `A` lists a task id that no task
carries. -/
def exPlanStray : Plan Unit :=
  { task := [exTaskAStray, exTaskB], job_id2job_conf := [],
    net_topo := { peer_machine_ids := [] } }

/-- Concrete types for a run of `Compile`: a job is its list of task descriptors,
a task graph pairs every descriptor with its meaningless flag, a node is a
position in that list. -/
abbrev exTypes : Types :=
  { Job := List (TaskProto × Bool), JobConf := Unit, OpGraph := Unit, XlaGraph := Unit,
    LogicalGraph := List (TaskProto × Bool), TaskGraph := List (TaskProto × Bool),
    TaskNode := Nat, Predicator := Unit }

/-- Concrete collaborators: the graphs copy the job, the phases leave the task graph
alone, the nodes are visited by position. -/
def exCollaborators : Collaborators exTypes :=
  { Complete := fun job => job
    OpGraph_new := fun _ => ()
    XlaGraph_new := fun _ => ()
    RunOptimizePass := fun _ _ g => g
    RebuildXlaCompiledJob := fun _ job => job
    LogicalGraph_new := fun job => job
    TaskGraph_new := fun g => g
    ForEachNode := fun (g : List (TaskProto × Bool)) => List.range g.length
    MdUpdtDelayedTopoForEachNode := fun (g : List (TaskProto × Bool)) => List.range g.length
    ProduceAllRegstsAndBindEdges := fun _ g => g
    ConsumeAllRegsts := fun _ g => g
    PinConsumedRegst := fun _ g => g
    Build := fun _ g => g
    RemoveEmptyRegsts := fun g => g
    AddOrderingCtrlEdgeInSameChain := fun g => g
    EnableMemSharingInReduceStruct := fun g => g
    MakePredicatorIsLbiAllConsumersReachableToOpName := fun _ => ()
    EnableInplaceMemSharing := fun _ g => g
    InferTimeShapeIfMeaningful := fun _ g => g
    IsMeaningLess := fun (g : List (TaskProto × Bool)) n =>
      match g.get? n with
      | some e => e.2
      | none => true
    ToProto := fun (g : List (TaskProto × Bool)) n =>
      match g.get? n with
      | some e => e.1
      | none => { task_id := 0, machine_id := 0, produced_regst_desc := [] } }

/-- The job `A`, a meaningless node, `B`. -/
def exJob : List (TaskProto × Bool) :=
  [(exTaskA, false), ({ task_id := 9, machine_id := 1, produced_regst_desc := [] }, true),
   (exTaskB, false)]

/-- The job description of the concrete run: job 0, in-place sharing enabled. -/
def exJobDesc : JobDesc Unit :=
  { job_id := 0, job_conf := (), IsTrain := false, enable_inplace := true }

/-- The plan of `exPlanAB` after `GenNetTopo`. -/
def exPlanABOut : Plan Unit :=
  { exPlanAB with
    net_topo :=
      { peer_machine_ids := [(1, { machine_id := [2] }), (2, { machine_id := [1] })] } }

/-- The plan `B`, `A`: the tasks of `exPlanAB` listed the other way round. -/
def exPlanBA : Plan Unit :=
  { task := [exTaskB, exTaskA], job_id2job_conf := [], net_topo := { peer_machine_ids := [] } }

/-- The plan of `exPlanChain` after `GenNetTopo`. -/
def exPlanChainOut : Plan Unit :=
  { exPlanChain with net_topo := { peer_machine_ids := [(1, { machine_id := [] })] } }

/-- A task on machine 3 with two registers that both reach machines 2 and 1, and
one of them machine 3 itself; the consumers sit on machines 2, 1 and 3. -/
def exPlanFan : Plan Unit :=
  { task :=
      [ { task_id := 1, machine_id := 3,
          produced_regst_desc :=
            [("a", { regst_desc_id := 10, consumer_task_id := [2, 3, 4] }),
             ("b", { regst_desc_id := 11, consumer_task_id := [3, 2] })] },
        { task_id := 2, machine_id := 2, produced_regst_desc := [] },
        { task_id := 3, machine_id := 1, produced_regst_desc := [] },
        { task_id := 4, machine_id := 3, produced_regst_desc := [] } ],
    job_id2job_conf := [], net_topo := { peer_machine_ids := [] } }

/-- The plan of `exPlanFan` after `GenNetTopo`. -/
def exPlanFanOut : Plan Unit :=
  { exPlanFan with
    net_topo :=
      { peer_machine_ids :=
          [(1, { machine_id := [3] }), (2, { machine_id := [3] }),
           (3, { machine_id := [1, 2] })] } }

/-! ## Vocabulary of the later claims -/

/-- One step of the global `OpGraph` slot along the trace; `present` says whether an
`OpGraph` exists. `none` marks a forbidden step: `New` while one exists,
`Delete` while none exists, or a phase of the task graph while none exists. -/
def OpGraphSlot.step {TaskNode : Type} (present : Bool) : Call TaskNode → Option Bool
  | .OpGraph_New => if present then none else some true
  | .OpGraph_Delete => if present then some false else none
  | call => if call.isPhase && !present then none else some present

/-- The slot after a whole trace, `none` when some step is forbidden. -/
def OpGraphSlot.replay {TaskNode : Type} : List (Call TaskNode) → Bool → Option Bool
  | [], present => some present
  | call :: rest, present =>
    match OpGraphSlot.step present call with
    | none => none
    | some present1 => OpGraphSlot.replay rest present1

/-- The call neither creates nor deletes the global `OpGraph`. -/
def Call.keepsSlot {TaskNode : Type} : Call TaskNode → Bool
  | .OpGraph_New => false
  | .OpGraph_Delete => false
  | _ => true

/-- Registers with equal ids are produced on one machine: what `rid2mid` needs in
order to return the machine of the producing task. It follows from
`UniqueProducers`. -/
def ProducerMachineUnique (tasks : List TaskProto) : Prop :=
  ∀ t1 ∈ tasks, ∀ t2 ∈ tasks, ∀ r1 ∈ t1.produced_regst_desc, ∀ r2 ∈ t2.produced_regst_desc,
    r1.2.regst_desc_id = r2.2.regst_desc_id → t1.machine_id = t2.machine_id

/-- Some register produced by a task on machine `p` lists the id of a task on machine
`q`; `a` and `b` are `p` and `q` in one order or the other. -/
def RegstJoins (tasks : List TaskProto) (a b : Int) : Prop :=
  ∃ t ∈ tasks, ∃ r ∈ t.produced_regst_desc, ∃ c ∈ r.2.consumer_task_id,
    ∃ t' ∈ tasks, t'.task_id = c ∧ Joins t.machine_id t'.machine_id a b

/-- Some task on machine `m` produces a register that has a consumer. -/
def ProducesConsumed (tasks : List TaskProto) (m : Int) : Prop :=
  ∃ t ∈ tasks, t.machine_id = m ∧ ∃ r ∈ t.produced_regst_desc, r.2.consumer_task_id ≠ []

/-- Some task on machine `m` is listed as a consumer of a register of the plan. -/
def ConsumesSome (tasks : List TaskProto) (m : Int) : Prop :=
  ∃ t ∈ tasks, ∃ r ∈ t.produced_regst_desc, ∃ c ∈ r.2.consumer_task_id,
    ∃ t' ∈ tasks, t'.task_id = c ∧ t'.machine_id = m

/-- The two registers agree but for the order of `consumer_task_id`. -/
def RegstDescProto.SameUpToOrder (r1 r2 : RegstDescProto) : Prop :=
  r1.regst_desc_id = r2.regst_desc_id ∧ r1.consumer_task_id.Perm r2.consumer_task_id

/-- The two tasks agree but for the order of the entries of `produced_regst_desc` and the
order of the consumers of each register. -/
def TaskProto.SameUpToOrder (t1 t2 : TaskProto) : Prop :=
  t1.task_id = t2.task_id ∧ t1.machine_id = t2.machine_id ∧
    ∃ l, t1.produced_regst_desc.Perm l ∧
      List.Forall₂ (fun e1 e2 => e1.1 = e2.1 ∧ e1.2.SameUpToOrder e2.2) l
        t2.produced_regst_desc

/-- The two task lists agree but for the order of the tasks, of the register entries
of each task and of the consumers of each register. -/
def SameUpToOrder (tasks1 tasks2 : List TaskProto) : Prop :=
  ∃ l, tasks1.Perm l ∧ List.Forall₂ TaskProto.SameUpToOrder l tasks2

/-- Every task of `tasks1` has a counterpart in `tasks2` with the same task id and
machine id, every register of which has a counterpart with the same id and
the same consumers. -/
def Covers (tasks1 tasks2 : List TaskProto) : Prop :=
  ∀ t1 ∈ tasks1, ∃ t2 ∈ tasks2, t1.task_id = t2.task_id ∧ t1.machine_id = t2.machine_id ∧
    ∀ e1 ∈ t1.produced_regst_desc, ∃ e2 ∈ t2.produced_regst_desc,
      e1.2.regst_desc_id = e2.2.regst_desc_id ∧
        ∀ c, c ∈ e1.2.consumer_task_id ↔ c ∈ e2.2.consumer_task_id

/-! ## `nd_indices_util.h`

A pointer is the function from an offset to the value stored there. A value of
`int64_t` is an integer in `[-2^63, 2^63)`. The result of `*` and of `+` on
`int64_t` is reduced into that range modulo `2^64`: overflow wraps around in
two's complement. `/` and `%` round toward zero, as in C++. -/

/-- The integer is a value of `int64_t`: it lies in `[-2^63, 2^63)`. -/
def IsInt64 (x : Int) : Prop :=
  -9223372036854775808 ≤ x ∧ x < 9223372036854775808

/-- The `int64_t` result of an arithmetic operation whose exact result is `x`: `x` reduced
modulo `2^64` into `[-2^63, 2^63)`. -/
def int64 (x : Int) : Int :=
  (x + 9223372036854775808) % 18446744073709551616 - 9223372036854775808

/-- The iterations of a counting loop: `count` rounds, the counter starting at `i`. -/
def FOR_RANGE.loop {σ : Type} (body : Int → σ → σ) : Nat → Int → σ → σ
  | 0, _, s => s
  | count + 1, i, s => FOR_RANGE.loop body count (i + 1) (body i s)

/-- Modelled from the spec: the macro `FOR_RANGE(type, i, begin, end)` is defined
outside the sources at hand; it is the loop `for (type i = begin; i < end; ++i)`.
The body maps the counter and the state before a round to the state after. -/
def FOR_RANGE {σ : Type} (begin_ end_ : Int) (body : Int → σ → σ) (s : σ) : σ :=
  FOR_RANGE.loop body (end_ - begin_).toNat begin_ s

/-- Modelled from the spec: the macro `XPU_1D_KERNEL_LOOP(i, n)` is defined outside
the sources at hand; it is taken as the sequential loop `i = 0, ..., n - 1`. -/
def XPU_1D_KERNEL_LOOP {σ : Type} (n : Int) (body : Int → σ → σ) (s : σ) : σ :=
  FOR_RANGE 0 n body s

/-- The function `IndicesOffset<I>::Compute`, lines 37-47. Every product and every sum
is an `int64_t` operation: line 40 `(n / segms_size) * segm_dims`, line 43
`stride *= shape[j]`, line 44 `offset += cur_ids_ptr[i] * stride` and line 46
`offset + n % segms_size`. -/
def IndicesOffset.Compute (segms_size segm_dims : Int) (shape : Int → Int)
    (indices : Int → Int) (n : Int) : Int :=
  let offset : Int := 0
  let cur_ids_ptr : Int → Int :=
    fun i => indices (int64 (Int.tdiv n segms_size * segm_dims) + i)
  let offset :=
    FOR_RANGE 0 segm_dims
      (fun i offset =>
        let stride : Int := segms_size
        let stride :=
          FOR_RANGE (i + 1) segm_dims (fun j stride => int64 (stride * shape j)) stride
        int64 (offset + int64 (cur_ids_ptr i * stride)))
      offset
  int64 (offset + Int.tmod n segms_size)

/-- The loops of lines 41-45 with every product and sum taken exactly, over the
tuple that `cur_ids_ptr` points at. -/
def IndicesOffset.exactOffset (segms_size segm_dims : Int) (shape cur_ids_ptr : Int → Int) :
    Int :=
  FOR_RANGE 0 segm_dims
    (fun i offset =>
      offset +
        cur_ids_ptr i *
          FOR_RANGE (i + 1) segm_dims (fun j stride => stride * shape j) segms_size)
    0

/-- The function `ScatterNdUpdate<T>::Invoke`, line 64: `*out = *in`. It maps the value
at `in` and the value at `out` before the call to the value at `out` after. -/
def ScatterNdUpdate.Invoke {T : Type} (in_ : T) (_out : T) : T := in_

/-- The function `ScatterNdFunctor<T, I, func>::Invoke`, lines 52-59: the dense buffer
after the call. -/
def ScatterNdFunctor.Invoke {T : Type} (func : T → T → T) (elem_cnt segms_size segm_dims : Int)
    (indices : Int → Int) (shape : Int → Int) (sparse : Int → T) (dense : Int → T) : Int → T :=
  XPU_1D_KERNEL_LOOP elem_cnt
    (fun i dense =>
      let offset := IndicesOffset.Compute segms_size segm_dims shape indices i
      Function.update dense offset (func (sparse i) (dense offset)))
    dense

/-- The index tuple selected for element `n`: component `i` of segment
`n / segms_size`. -/
def indexTuple (segms_size segm_dims : Int) (indices : Int → Int) (n : Int) (i : Nat) : Int :=
  indices (n / segms_size * segm_dims + i)

/-- The row-major flattening of the tuple `c` over the first `d` dimensions of `shape`,
as a sum: component `i` times the product of the dimensions after `i`. -/
def flattenSum (c : Nat → Int) (shape : Int → Int) (d : Nat) : Int :=
  Finset.sum (Finset.range d) fun i =>
    c i * Finset.prod (Finset.Ico (i + 1) d) fun j => shape j

/-- The row-major flattening by Horner's rule. -/
def flattenHorner (c : Nat → Int) (shape : Int → Int) : Nat → Int
  | 0 => 0
  | d + 1 => flattenHorner c shape d * shape d + c d

/-- Modelled from the spec: the class `Shape` is defined outside the sources at hand;
it holds the vector of dimensions, one per axis. -/
structure Shape where
  dim_vec : List Int
deriving DecidableEq, Repr

/-- Modelled from the spec: `Shape::NumAxes()`, the number of axes. -/
def Shape.NumAxes (shape : Shape) : Int := shape.dim_vec.length

/-- Modelled from the spec: `Shape::At(index)`, the dimension of axis `index`; the valid
axes are `0, ..., NumAxes() - 1`, and `none` stands for an access outside the
vector of dimensions. -/
def Shape.At (shape : Shape) (index : Int) : Option Int :=
  if 0 ≤ index ∧ index < shape.NumAxes then shape.dim_vec.get? index.toNat else none

/-- The axis of the indices shape that `NdIndicesUtil::ScatterNdApply` passes to `At` on
line 29, `indices->shape().At(indices->shape().NumAxes())`. -/
def NdIndicesUtil.ScatterNdApply.segm_dims_axis (indices_shape : Shape) : Int :=
  indices_shape.NumAxes

/-- The value `segm_dims` of `NdIndicesUtil::ScatterNdApply`, line 29. -/
def NdIndicesUtil.ScatterNdApply.segm_dims (indices_shape : Shape) : Option Int :=
  indices_shape.At (NdIndicesUtil.ScatterNdApply.segm_dims_axis indices_shape)

/-! ## Passes of the task graph that live outside `compiler.cpp`

`EnableInplaceMemSharing`, the predicate made by
`MakePredicatorIsLbiAllConsumersReachableToOpName` and `MdUpdtDelayedTopoForEachNode` are
called by `Compile` and defined elsewhere. The definitions below follow the
specification of the in-place phase and of the build phase. Operators and
task nodes are numbered. -/

/-- In the visiting order or schedule `l`, `a` comes strictly before `b`. -/
def Before (l : List Nat) (a b : Nat) : Prop :=
  a ∈ l ∧ b ∈ l ∧ l.indexOf a < l.indexOf b

/-- Modelled from the spec: the `OpGraph` as far as the in-place phase reads it. The
class is defined outside the sources at hand. `edges` are the dependencies
between operators, each as (operator that runs first, operator that runs
later); `consumers` gives the operators that read a logical blob. -/
structure OpGraphModel where
  edges : List (Nat × Nat)
  consumers : Nat → List Nat

/-- Modelled from the spec: reachability over the dependency graph, missing from the
sources at hand: `b` is reached from `a` along at most `fuel` edges. -/
def OpGraphModel.reachable (g : OpGraphModel) : Nat → Nat → Nat → Bool
  | 0, _, _ => false
  | fuel + 1, a, b =>
    g.edges.any fun e => decide (e.1 = a) && (decide (e.2 = b) || g.reachable fuel e.2 b)

/-- Modelled from the spec: `OpGraph::MakePredicatorIsLbiAllConsumersReachableToOpName`,
missing from the sources at hand. The predicate holds of a logical blob and an
operator when every other consumer of the blob reaches the operator in the
dependency graph, that is, is guaranteed to have read the blob before the
operator runs. -/
def OpGraphModel.MakePredicatorIsLbiAllConsumersReachableToOpName (g : OpGraphModel) :
    Nat → Nat → Bool :=
  fun lbi op_name =>
    (g.consumers lbi).all fun consumer =>
      decide (consumer = op_name) || g.reachable g.edges.length consumer op_name

/-- A candidate of the in-place phase: operator `op_name` could write its output over
the buffer of its input blob `lbi`. -/
structure InplaceCandidate where
  op_name : Nat
  lbi : Nat
deriving DecidableEq, Repr

/-- Modelled from the spec: `TaskGraph::EnableInplaceMemSharing`, missing from the sources
at hand. Of the candidates, the rewrites it accepts are those for which the
predicate holds; a candidate for which it does not hold is rejected. -/
def TaskGraphModel.EnableInplaceMemSharing
    (IsLbiAllConsumersReachableToOpName : Nat → Nat → Bool)
    (candidates : List InplaceCandidate) : List InplaceCandidate :=
  candidates.filter fun cand => IsLbiAllConsumersReachableToOpName cand.lbi cand.op_name

/-- Modelled from the spec: the `TaskGraph` as far as the build phase reads it. The class
is defined outside the sources at hand. `edges` are the data edges, each as
(producing task, consuming task); `md_updt` lists the tasks of parameter-update
operators. -/
structure TaskGraphModel where
  nodes : List Nat
  md_updt : List Nat
  edges : List (Nat × Nat)
deriving DecidableEq, Repr

/-- Modelled from the spec: the constraint of the delayed topological order. Task `a`
has to be visited before task `b` when `b` consumes from the ordinary task `a`
(standard topological order), or when `b` is a parameter-update task and `a`
consumes from it (an update task comes after all its data consumers). -/
def TaskGraphModel.mustPrecede (g : TaskGraphModel) (a b : Nat) : Bool :=
  g.edges.any fun e =>
    if e.1 ∈ g.md_updt then decide (e.2 = a) && decide (e.1 = b)
    else decide (e.1 = a) && decide (e.2 = b)

/-- The task `n` has not been visited and every task that has to precede it has. -/
def TaskGraphModel.ready (g : TaskGraphModel) (visited : List Nat) (n : Nat) : Bool :=
  decide (n ∉ visited) && g.nodes.all fun m => !g.mustPrecede m n || decide (m ∈ visited)

/-- The rounds of the traversal: each round visits the first task that is ready. It
ends with the visiting order when every task has been visited, and with `none`
when tasks are left of which none is ready (a cycle, which is fatal). -/
def TaskGraphModel.MdUpdtDelayedTopoForEachNode.loop (g : TaskGraphModel) :
    Nat → List Nat → Option (List Nat)
  | 0, visited => if g.nodes.all fun n => decide (n ∈ visited) then some visited else none
  | fuel + 1, visited =>
    match g.nodes.find? (g.ready visited) with
    | none => if g.nodes.all fun n => decide (n ∈ visited) then some visited else none
    | some n => TaskGraphModel.MdUpdtDelayedTopoForEachNode.loop g fuel (visited ++ [n])

/-- Modelled from the spec: `TaskGraph::MdUpdtDelayedTopoForEachNode`, missing from the
sources at hand: the order in which the handler is applied to the task nodes. -/
def TaskGraphModel.MdUpdtDelayedTopoForEachNode (g : TaskGraphModel) : Option (List Nat) :=
  TaskGraphModel.MdUpdtDelayedTopoForEachNode.loop g g.nodes.length []

/-! ## Concrete inputs of the later claims -/

/-- The plan `exPlanFan` with its tasks, the register entries of its first task and the
consumers of its registers in another order. -/
def exPlanFanShuffled : Plan Unit :=
  { task :=
      [ { task_id := 4, machine_id := 3, produced_regst_desc := [] },
        { task_id := 2, machine_id := 2, produced_regst_desc := [] },
        { task_id := 1, machine_id := 3,
          produced_regst_desc :=
            [("b", { regst_desc_id := 11, consumer_task_id := [2, 3] }),
             ("a", { regst_desc_id := 10, consumer_task_id := [4, 2, 3] })] },
        { task_id := 3, machine_id := 1, produced_regst_desc := [] } ],
    job_id2job_conf := [], net_topo := { peer_machine_ids := [] } }

/-- A dense shape `(3, 4)`. -/
def exShape : Int → Int := fun j => if j = 0 then 3 else 4

/-- Two index tuples, `(1, 2)` and `(0, 3)`. -/
def exIndices : Int → Int := fun k =>
  if k = 0 then 1 else if k = 1 then 2 else if k = 2 then 0 else 3

/-- Every index is 4. -/
def exIndicesFour : Int → Int := fun _ => 4

/-- A dense shape whose dimensions are all `2^32`. -/
def exShapeWide : Int → Int := fun _ => 4294967296

/-- Every index is `2^32 - 1`, the last position of a dimension of `exShapeWide`. -/
def exIndicesLast : Int → Int := fun _ => 4294967295

/-- A dense shape whose dimensions are all 1. -/
def exShapeOne : Int → Int := fun _ => 1

/-- The indices are 0 from the pointer on and `v` before it. -/
def exIndicesBelow (v : Int) : Int → Int := fun k => if k < 0 then v else 0

/-- Task 0 updates a parameter that task 1 reads; task 1 feeds task 2. -/
def exTaskGraph : TaskGraphModel :=
  { nodes := [0, 1, 2], md_updt := [0], edges := [(0, 1), (1, 2)] }

/-! ## Container lemmas -/

theorem StdSet.mem_insert (v x : Int) (s : List Int) :
    x ∈ StdSet.insert v s ↔ x = v ∨ x ∈ s := by
  induction s with
  | nil => simp [StdSet.insert]
  | cons y ys ih =>
    unfold StdSet.insert
    split_ifs with h1 h2
    · simp
    · subst h2; simp
    · simp [ih]; tauto

theorem StdSet.sorted_insert (v : Int) (s : List Int) (hs : s.Sorted (· < ·)) :
    (StdSet.insert v s).Sorted (· < ·) := by
  induction s with
  | nil => simp [StdSet.insert]
  | cons y ys ih =>
    unfold StdSet.insert
    split_ifs with h1 h2
    · refine List.sorted_cons.2 ⟨?_, hs⟩
      intro b hb
      rcases List.mem_cons.1 hb with rfl | hb
      · exact h1
      · exact lt_trans h1 (List.rel_of_sorted_cons hs b hb)
    · exact hs
    · refine List.sorted_cons.2 ⟨?_, ih hs.of_cons⟩
      intro b hb
      rcases (StdSet.mem_insert v b ys).1 hb with rfl | hb
      · omega
      · exact List.rel_of_sorted_cons hs b hb

theorem linked_nil (a b : Int) : ¬ Linked [] a b := by
  simp [Linked]

theorem linked_cons (k : Int) (s : List Int) (rest : List (Int × List Int)) (a b : Int) :
    Linked ((k, s) :: rest) a b ↔ (a = k ∧ b ∈ s) ∨ Linked rest a b := by
  simp only [Linked, List.mem_cons, Prod.mk.injEq]
  constructor
  · rintro ⟨s', ⟨rfl, rfl⟩ | hs', hb⟩
    · exact Or.inl ⟨rfl, hb⟩
    · exact Or.inr ⟨s', hs', hb⟩
  · rintro (⟨rfl, hb⟩ | ⟨s', hs', hb⟩)
    · exact ⟨s, Or.inl ⟨rfl, rfl⟩, hb⟩
    · exact ⟨s', Or.inr hs', hb⟩

theorem StdMap.linked_insertAt (k v a b : Int) (m : List (Int × List Int)) :
    Linked (StdMap.insertAt k v m) a b ↔ (a = k ∧ b = v) ∨ Linked m a b := by
  induction m with
  | nil =>
    have := linked_nil a b
    simp [StdMap.insertAt, linked_cons, StdSet.insert, this]
  | cons e rest ih =>
    obtain ⟨k', s⟩ := e
    unfold StdMap.insertAt
    split_ifs with h1 h2
    · simp [linked_cons, StdSet.insert]
    · subst h2
      simp only [linked_cons, StdSet.mem_insert]
      tauto
    · simp only [linked_cons, ih]
      tauto

theorem StdMap.keys_insertAt (k v a : Int) (m : List (Int × List Int)) :
    a ∈ (StdMap.insertAt k v m).map Prod.fst ↔ a = k ∨ a ∈ m.map Prod.fst := by
  induction m with
  | nil => simp [StdMap.insertAt]
  | cons e rest ih =>
    obtain ⟨k', s⟩ := e
    unfold StdMap.insertAt
    split_ifs with h1 h2
    · simp
    · subst h2; simp
    · simp only [List.map_cons, List.mem_cons, ih]; tauto

theorem StdMap.wf_insertAt (k v : Int) (m : List (Int × List Int)) (hm : StdMap.WF m) :
    StdMap.WF (StdMap.insertAt k v m) := by
  induction m with
  | nil =>
    refine ⟨by simp [StdMap.insertAt], ?_⟩
    intro e he
    simp only [StdMap.insertAt, List.mem_singleton] at he
    subst he
    exact StdSet.sorted_insert v [] List.sorted_nil
  | cons e rest ih =>
    obtain ⟨k', s⟩ := e
    obtain ⟨hk, hs⟩ := hm
    have hrest : StdMap.WF rest :=
      ⟨(List.sorted_cons.1 hk).2, fun e he => hs e (List.mem_cons_of_mem _ he)⟩
    unfold StdMap.insertAt
    split_ifs with h1 h2
    · refine ⟨?_, ?_⟩
      · simp only [List.map_cons]
        refine List.sorted_cons.2 ⟨?_, hk⟩
        intro b hb
        rcases List.mem_cons.1 hb with rfl | hb
        · exact h1
        · exact lt_trans h1 (List.rel_of_sorted_cons hk b hb)
      · intro e he
        rcases List.mem_cons.1 he with rfl | he
        · exact StdSet.sorted_insert v [] List.sorted_nil
        · exact hs e he
    · subst h2
      refine ⟨hk, ?_⟩
      intro e he
      rcases List.mem_cons.1 he with rfl | he
      · exact StdSet.sorted_insert v s (hs _ (List.mem_cons_self _ _))
      · exact hs e (List.mem_cons_of_mem _ he)
    · refine ⟨?_, ?_⟩
      · simp only [List.map_cons]
        refine List.sorted_cons.2 ⟨?_, (ih hrest).1⟩
        intro b hb
        rcases (StdMap.keys_insertAt k v b rest).1 hb with rfl | hb
        · omega
        · exact List.rel_of_sorted_cons hk b hb
      · intro e he
        rcases List.mem_cons.1 he with rfl | he
        · exact hs _ (List.mem_cons_self _ _)
        · exact (ih hrest).2 e he

theorem HashMap.find_eq_none_iff {V : Type} (m : HashMap V) (k : Int) :
    HashMap.find m k = none ↔ k ∉ m.map Prod.fst := by
  induction m with
  | nil => simp [HashMap.find]
  | cons e rest ih =>
    obtain ⟨k', v⟩ := e
    unfold HashMap.find
    split_ifs with h
    · simp [h]
    · simp [ih, h]

theorem HashMap.mem_of_find {V : Type} (m : HashMap V) (k : Int) (v : V)
    (h : HashMap.find m k = some v) : (k, v) ∈ m := by
  induction m with
  | nil => simp [HashMap.find] at h
  | cons e rest ih =>
    obtain ⟨k', v'⟩ := e
    unfold HashMap.find at h
    split_ifs at h with hk
    · simp only [Option.some.injEq] at h
      subst hk; subst h
      exact List.mem_cons_self _ _
    · exact List.mem_cons_of_mem _ (ih h)

theorem HashMap.find_of_mem {V : Type} (m : HashMap V) (k : Int) (v : V)
    (hn : (m.map Prod.fst).Nodup) (h : (k, v) ∈ m) : HashMap.find m k = some v := by
  induction m with
  | nil => simp at h
  | cons e rest ih =>
    obtain ⟨k', v'⟩ := e
    simp only [List.map_cons, List.nodup_cons] at hn
    unfold HashMap.find
    rcases List.mem_cons.1 h with h1 | h2
    · simp only [Prod.mk.injEq] at h1
      simp [h1.1, h1.2]
    · have hk : k ≠ k' := by
        rintro rfl
        exact hn.1 (List.mem_map.2 ⟨(k, v), h2, rfl⟩)
      simp only [hk, if_false]
      exact ih hn.2 h2

theorem HashMap.find_append {V : Type} (m m' : HashMap V) (k : Int) :
    HashMap.find (m ++ m') k = (HashMap.find m k).or (HashMap.find m' k) := by
  induction m with
  | nil => simp [HashMap.find]
  | cons e rest ih =>
    obtain ⟨k', v⟩ := e
    simp only [List.cons_append, HashMap.find]
    split_ifs with h
    · simp
    · exact ih

theorem HashMap.find_emplace {V : Type} (m : HashMap V) (k k' : Int) (v : V) :
    HashMap.find (HashMap.emplace m k v).1 k' =
      (HashMap.find m k').or (HashMap.find [(k, v)] k') := by
  unfold HashMap.emplace
  cases hf : HashMap.find m k with
  | some w =>
    simp only
    by_cases hk : k' = k
    · subst hk; simp [hf]
    · simp [HashMap.find, hk]
  | none => simp only [HashMap.find_append]

theorem HashMap.emplace_snd {V : Type} (m : HashMap V) (k : Int) (v : V) :
    (HashMap.emplace m k v).2 = true ↔ HashMap.find m k = none := by
  unfold HashMap.emplace
  cases hf : HashMap.find m k <;> simp

theorem HashMap.emplace_fst_of_none {V : Type} (m : HashMap V) (k : Int) (v : V)
    (h : HashMap.find m k = none) : (HashMap.emplace m k v).1 = m ++ [(k, v)] := by
  unfold HashMap.emplace
  simp [h]

/-! ## The first pass -/

theorem GenNetTopo.find_emplaceRegsts (mid : Int) (regs : List (String × RegstDescProto))
    (rid2mid : HashMap Int) (k : Int) :
    HashMap.find (GenNetTopo.emplaceRegsts mid regs rid2mid) k =
      (HashMap.find rid2mid k).or
        (HashMap.find (regs.map fun r => (r.2.regst_desc_id, mid)) k) := by
  induction regs generalizing rid2mid with
  | nil => simp [GenNetTopo.emplaceRegsts, HashMap.find]
  | cons r rest ih =>
    simp only [GenNetTopo.emplaceRegsts, ih, HashMap.find_emplace, List.map_cons]
    simp only [HashMap.find]
    split_ifs with h
    · cases HashMap.find rid2mid k <;> simp
    · cases HashMap.find rid2mid k <;> simp

theorem GenNetTopo.collectIds_find {tasks : List TaskProto} {rm tm rm' tm' : HashMap Int}
    (h : GenNetTopo.collectIds tasks (rm, tm) = .ok (rm', tm')) (k : Int) :
    HashMap.find rm' k = (HashMap.find rm k).or (HashMap.find (ridEntries tasks) k) ∧
    HashMap.find tm' k = (HashMap.find tm k).or (HashMap.find (tidEntries tasks) k) := by
  induction tasks generalizing rm tm with
  | nil =>
    simp only [GenNetTopo.collectIds, Except.ok.injEq, Prod.mk.injEq] at h
    obtain ⟨rfl, rfl⟩ := h
    simp [ridEntries, tidEntries, HashMap.find]
  | cons t rest ih =>
    simp only [GenNetTopo.collectIds] at h
    split_ifs at h with hc
    obtain ⟨h1, h2⟩ := ih h
    rw [h1, h2, GenNetTopo.find_emplaceRegsts, HashMap.find_emplace]
    simp only [ridEntries, tidEntries, List.map_cons, HashMap.find_append]
    constructor
    · cases HashMap.find rm k <;> simp
    · simp only [HashMap.find]
      cases HashMap.find tm k <;> split_ifs <;> simp

theorem GenNetTopo.collectIds_error {tasks : List TaskProto} {maps : HashMap Int × HashMap Int}
    {e : CheckFailure} (h : GenNetTopo.collectIds tasks maps = .error e) :
    e = CheckFailure.tid2mid_emplace := by
  induction tasks generalizing maps with
  | nil => simp [GenNetTopo.collectIds] at h
  | cons t rest ih =>
    obtain ⟨rm, tm⟩ := maps
    simp only [GenNetTopo.collectIds] at h
    split_ifs at h with hc
    · exact ih h
    · simp only [Except.error.injEq] at h
      exact h.symm

theorem GenNetTopo.collectIds_ok_iff (tasks : List TaskProto) (rm tm : HashMap Int) :
    (∃ r, GenNetTopo.collectIds tasks (rm, tm) = .ok r) ↔
      (∀ t ∈ tasks, HashMap.find tm t.task_id = none) ∧
        (tasks.map TaskProto.task_id).Nodup := by
  induction tasks generalizing rm tm with
  | nil => simp [GenNetTopo.collectIds]
  | cons t rest ih =>
    simp only [GenNetTopo.collectIds]
    by_cases hc : (HashMap.emplace tm t.task_id t.machine_id).2 = true
    · have hnone := (HashMap.emplace_snd _ _ _).1 hc
      simp only [hc, if_true, ih, List.mem_cons, forall_eq_or_imp, List.map_cons,
        List.nodup_cons, HashMap.find_emplace, HashMap.find, hnone, List.mem_map, not_exists,
        not_and]
      constructor
      · rintro ⟨h1, h2⟩
        refine ⟨⟨trivial, ?_⟩, ?_, h2⟩
        · intro t' ht'
          have := h1 t' ht'
          cases hf : HashMap.find tm t'.task_id with
          | none => rfl
          | some w => simp [hf] at this
        · intro t' ht' heq
          have := h1 t' ht'
          rw [heq] at this
          simp [hnone] at this
      · rintro ⟨⟨-, h1⟩, h3, h2⟩
        refine ⟨?_, h2⟩
        intro t' ht'
        have hne : t'.task_id ≠ t.task_id := fun heq => h3 t' ht' heq
        simp [h1 t' ht', hne]
    · have hsome : HashMap.find tm t.task_id ≠ none := fun hn =>
        hc ((HashMap.emplace_snd _ _ _).2 hn)
      simp only [hc, if_false, List.mem_cons, forall_eq_or_imp]
      constructor
      · rintro ⟨r, hr⟩
        cases hr
      · rintro ⟨⟨h1, -⟩, -⟩
        exact absurd h1 hsome

/-! ## The second pass -/

theorem GenNetTopo.linkConsumers_ok_iff (tm : HashMap Int) (pm : Int) (cs : List Int)
    (nt : List (Int × List Int)) :
    (∃ nt', GenNetTopo.linkConsumers tm pm cs nt = .ok nt') ↔
      ∀ c ∈ cs, HashMap.find tm c ≠ none := by
  induction cs generalizing nt with
  | nil => simp [GenNetTopo.linkConsumers]
  | cons c rest ih =>
    simp only [GenNetTopo.linkConsumers, List.mem_cons, forall_eq_or_imp]
    cases hf : HashMap.find tm c with
    | none => simp
    | some cm => simp [ih]

theorem GenNetTopo.linkConsumers_error {tm : HashMap Int} {pm : Int} {cs : List Int}
    {nt : List (Int × List Int)} {e : CheckFailure}
    (h : GenNetTopo.linkConsumers tm pm cs nt = .error e) : e = CheckFailure.tid2mid_find := by
  induction cs generalizing nt with
  | nil => simp [GenNetTopo.linkConsumers] at h
  | cons c rest ih =>
    simp only [GenNetTopo.linkConsumers] at h
    cases hf : HashMap.find tm c with
    | none =>
      simp only [hf, Except.error.injEq] at h
      exact h.symm
    | some cm =>
      simp only [hf] at h
      exact ih h

theorem GenNetTopo.linkConsumers_spec {tm : HashMap Int} {pm : Int} {cs : List Int}
    {nt nt' : List (Int × List Int)}
    (h : GenNetTopo.linkConsumers tm pm cs nt = .ok nt') :
    (StdMap.WF nt → StdMap.WF nt') ∧
    (∀ a b, Linked nt' a b ↔ Linked nt a b ∨
      ∃ c ∈ cs, ∃ cm, HashMap.find tm c = some cm ∧ Joins pm cm a b) ∧
    (∀ a, a ∈ nt'.map Prod.fst ↔ a ∈ nt.map Prod.fst ∨
      ∃ c ∈ cs, ∃ cm, HashMap.find tm c = some cm ∧ (a = pm ∨ a = cm)) := by
  induction cs generalizing nt with
  | nil =>
    simp only [GenNetTopo.linkConsumers, Except.ok.injEq] at h
    subst h
    simp
  | cons c rest ih =>
    simp only [GenNetTopo.linkConsumers] at h
    cases hf : HashMap.find tm c with
    | none => simp [hf] at h
    | some cm =>
      simp only [hf] at h
      obtain ⟨h1, h2, h3⟩ := ih h
      refine ⟨fun hw => h1 (StdMap.wf_insertAt _ _ _ (StdMap.wf_insertAt _ _ _ hw)), ?_, ?_⟩
      · intro a b
        rw [h2, StdMap.linked_insertAt, StdMap.linked_insertAt]
        simp only [List.mem_cons, exists_eq_or_imp, hf, Option.some.injEq, exists_eq_left']
        have key : ∀ A B L E : Prop, ((A ∨ B ∨ L) ∨ E ↔ L ∨ (B ∨ A) ∨ E) := by
          intros; tauto
        exact key _ _ _ _
      · intro a
        rw [h3, StdMap.keys_insertAt, StdMap.keys_insertAt]
        simp only [List.mem_cons, exists_eq_or_imp, hf, Option.some.injEq, exists_eq_left']
        have key : ∀ A B L E : Prop, ((A ∨ B ∨ L) ∨ E ↔ L ∨ (B ∨ A) ∨ E) := by
          intros; tauto
        exact key _ _ _ _

theorem GenNetTopo.linkRegsts_ok_iff (rm tm : HashMap Int) (regs : List (String × RegstDescProto))
    (nt : List (Int × List Int)) :
    (∃ nt', GenNetTopo.linkRegsts rm tm regs nt = .ok nt') ↔
      ∀ r ∈ regs, HashMap.find rm r.2.regst_desc_id ≠ none ∧
        ∀ c ∈ r.2.consumer_task_id, HashMap.find tm c ≠ none := by
  induction regs generalizing nt with
  | nil => simp [GenNetTopo.linkRegsts]
  | cons r rest ih =>
    simp only [GenNetTopo.linkRegsts, List.mem_cons, forall_eq_or_imp]
    cases hf : HashMap.find rm r.2.regst_desc_id with
    | none => simp
    | some pm =>
      simp only
      cases hc : GenNetTopo.linkConsumers tm pm r.2.consumer_task_id nt with
      | error e =>
        have := (GenNetTopo.linkConsumers_ok_iff tm pm r.2.consumer_task_id nt).not.1
          (by simp [hc])
        constructor
        · rintro ⟨nt', hnt'⟩
          cases hnt'
        · rintro ⟨⟨-, h⟩, -⟩
          exact absurd h this
      | ok nt1 =>
        have := (GenNetTopo.linkConsumers_ok_iff tm pm r.2.consumer_task_id nt).1 ⟨nt1, hc⟩
        rw [ih]
        exact ⟨fun h => ⟨⟨by simp, this⟩, h⟩, fun h => h.2⟩

theorem GenNetTopo.linkRegsts_error {rm tm : HashMap Int} {regs : List (String × RegstDescProto)}
    {nt : List (Int × List Int)} {e : CheckFailure}
    (h : GenNetTopo.linkRegsts rm tm regs nt = .error e) :
    e = CheckFailure.tid2mid_find ∨
      (e = CheckFailure.rid2mid_find ∧ ∃ r ∈ regs, HashMap.find rm r.2.regst_desc_id = none) := by
  induction regs generalizing nt with
  | nil => simp [GenNetTopo.linkRegsts] at h
  | cons r rest ih =>
    simp only [GenNetTopo.linkRegsts] at h
    cases hf : HashMap.find rm r.2.regst_desc_id with
    | none =>
      simp only [hf, Except.error.injEq] at h
      exact Or.inr ⟨h.symm, r, List.mem_cons_self _ _, hf⟩
    | some pm =>
      simp only [hf] at h
      cases hc : GenNetTopo.linkConsumers tm pm r.2.consumer_task_id nt with
      | error e' =>
        simp only [hc, Except.error.injEq] at h
        subst h
        exact Or.inl (GenNetTopo.linkConsumers_error hc)
      | ok nt1 =>
        simp only [hc] at h
        rcases ih h with h1 | ⟨h1, r', hr', h2⟩
        · exact Or.inl h1
        · exact Or.inr ⟨h1, r', List.mem_cons_of_mem _ hr', h2⟩

theorem GenNetTopo.linkRegsts_spec {rm tm : HashMap Int} {regs : List (String × RegstDescProto)}
    {nt nt' : List (Int × List Int)}
    (h : GenNetTopo.linkRegsts rm tm regs nt = .ok nt') :
    (StdMap.WF nt → StdMap.WF nt') ∧
    (∀ a b, Linked nt' a b ↔ Linked nt a b ∨
      ∃ r ∈ regs, ∃ pm, HashMap.find rm r.2.regst_desc_id = some pm ∧
        ∃ c ∈ r.2.consumer_task_id, ∃ cm, HashMap.find tm c = some cm ∧ Joins pm cm a b) ∧
    (∀ a, a ∈ nt'.map Prod.fst ↔ a ∈ nt.map Prod.fst ∨
      ∃ r ∈ regs, ∃ pm, HashMap.find rm r.2.regst_desc_id = some pm ∧
        ∃ c ∈ r.2.consumer_task_id, ∃ cm, HashMap.find tm c = some cm ∧ (a = pm ∨ a = cm)) := by
  induction regs generalizing nt with
  | nil =>
    simp only [GenNetTopo.linkRegsts, Except.ok.injEq] at h
    subst h
    simp
  | cons r rest ih =>
    simp only [GenNetTopo.linkRegsts] at h
    cases hf : HashMap.find rm r.2.regst_desc_id with
    | none => simp [hf] at h
    | some pm =>
      simp only [hf] at h
      cases hc : GenNetTopo.linkConsumers tm pm r.2.consumer_task_id nt with
      | error e' => simp [hc] at h
      | ok nt1 =>
        simp only [hc] at h
        obtain ⟨h1, h2, h3⟩ := ih h
        obtain ⟨g1, g2, g3⟩ := GenNetTopo.linkConsumers_spec hc
        refine ⟨fun hw => h1 (g1 hw), ?_, ?_⟩
        · intro a b
          rw [h2, g2]
          simp only [List.mem_cons, exists_eq_or_imp, hf, Option.some.injEq, exists_eq_left']
          exact or_assoc
        · intro a
          rw [h3, g3]
          simp only [List.mem_cons, exists_eq_or_imp, hf, Option.some.injEq, exists_eq_left']
          exact or_assoc

theorem GenNetTopo.linkTasks_ok_iff (rm tm : HashMap Int) (tasks : List TaskProto)
    (nt : List (Int × List Int)) :
    (∃ nt', GenNetTopo.linkTasks rm tm tasks nt = .ok nt') ↔
      ∀ t ∈ tasks, ∀ r ∈ t.produced_regst_desc, HashMap.find rm r.2.regst_desc_id ≠ none ∧
        ∀ c ∈ r.2.consumer_task_id, HashMap.find tm c ≠ none := by
  induction tasks generalizing nt with
  | nil => simp [GenNetTopo.linkTasks]
  | cons t rest ih =>
    simp only [GenNetTopo.linkTasks, List.mem_cons, forall_eq_or_imp]
    cases hc : GenNetTopo.linkRegsts rm tm t.produced_regst_desc nt with
    | error e =>
      have := (GenNetTopo.linkRegsts_ok_iff rm tm t.produced_regst_desc nt).not.1 (by simp [hc])
      constructor
      · rintro ⟨nt', hnt'⟩
        cases hnt'
      · rintro ⟨h, -⟩
        exact absurd h this
    | ok nt1 =>
      have := (GenNetTopo.linkRegsts_ok_iff rm tm t.produced_regst_desc nt).1 ⟨nt1, hc⟩
      simp only
      rw [ih]
      exact ⟨fun h => ⟨this, h⟩, fun h => h.2⟩

theorem GenNetTopo.linkTasks_error {rm tm : HashMap Int} {tasks : List TaskProto}
    {nt : List (Int × List Int)} {e : CheckFailure}
    (h : GenNetTopo.linkTasks rm tm tasks nt = .error e) :
    e = CheckFailure.tid2mid_find ∨
      (e = CheckFailure.rid2mid_find ∧
        ∃ t ∈ tasks, ∃ r ∈ t.produced_regst_desc, HashMap.find rm r.2.regst_desc_id = none) := by
  induction tasks generalizing nt with
  | nil => simp [GenNetTopo.linkTasks] at h
  | cons t rest ih =>
    simp only [GenNetTopo.linkTasks] at h
    cases hc : GenNetTopo.linkRegsts rm tm t.produced_regst_desc nt with
    | error e' =>
      simp only [hc, Except.error.injEq] at h
      subst h
      rcases GenNetTopo.linkRegsts_error hc with h1 | ⟨h1, r, hr, h2⟩
      · exact Or.inl h1
      · exact Or.inr ⟨h1, t, List.mem_cons_self _ _, r, hr, h2⟩
    | ok nt1 =>
      simp only [hc] at h
      rcases ih h with h1 | ⟨h1, t', ht', h2⟩
      · exact Or.inl h1
      · exact Or.inr ⟨h1, t', List.mem_cons_of_mem _ ht', h2⟩

theorem GenNetTopo.linkTasks_spec {rm tm : HashMap Int} {tasks : List TaskProto}
    {nt nt' : List (Int × List Int)}
    (h : GenNetTopo.linkTasks rm tm tasks nt = .ok nt') :
    (StdMap.WF nt → StdMap.WF nt') ∧
    (∀ a b, Linked nt' a b ↔ Linked nt a b ∨
      ∃ t ∈ tasks, ∃ r ∈ t.produced_regst_desc,
        ∃ pm, HashMap.find rm r.2.regst_desc_id = some pm ∧
        ∃ c ∈ r.2.consumer_task_id, ∃ cm, HashMap.find tm c = some cm ∧ Joins pm cm a b) ∧
    (∀ a, a ∈ nt'.map Prod.fst ↔ a ∈ nt.map Prod.fst ∨
      ∃ t ∈ tasks, ∃ r ∈ t.produced_regst_desc,
        ∃ pm, HashMap.find rm r.2.regst_desc_id = some pm ∧
        ∃ c ∈ r.2.consumer_task_id, ∃ cm, HashMap.find tm c = some cm ∧ (a = pm ∨ a = cm)) := by
  induction tasks generalizing nt with
  | nil =>
    simp only [GenNetTopo.linkTasks, Except.ok.injEq] at h
    subst h
    simp
  | cons t rest ih =>
    simp only [GenNetTopo.linkTasks] at h
    cases hc : GenNetTopo.linkRegsts rm tm t.produced_regst_desc nt with
    | error e' => simp [hc] at h
    | ok nt1 =>
      simp only [hc] at h
      obtain ⟨h1, h2, h3⟩ := ih h
      obtain ⟨g1, g2, g3⟩ := GenNetTopo.linkRegsts_spec hc
      refine ⟨fun hw => h1 (g1 hw), ?_, ?_⟩
      · intro a b
        rw [h2, g2]
        simp only [List.mem_cons, exists_eq_or_imp]
        exact or_assoc
      · intro a
        rw [h3, g3]
        simp only [List.mem_cons, exists_eq_or_imp]
        exact or_assoc

/-! ## The third pass -/

theorem GenNetTopo.fillStdNetTopo_eq (nt : List (Int × List Int)) (std : HashMap MachineIds)
    (hn : (std.map Prod.fst ++ nt.map Prod.fst).Nodup) :
    GenNetTopo.fillStdNetTopo nt std = .ok (std ++ nt.map stripSelf) := by
  induction nt generalizing std with
  | nil => simp [GenNetTopo.fillStdNetTopo]
  | cons pair rest ih =>
    have hnone : HashMap.find std pair.1 = none := by
      rw [HashMap.find_eq_none_iff]
      intro hmem
      have := List.disjoint_of_nodup_append hn hmem
      exact this (by simp)
    simp only [GenNetTopo.fillStdNetTopo, StdVec2PbRf]
    rw [if_pos ((HashMap.emplace_snd _ _ _).2 hnone), HashMap.emplace_fst_of_none _ _ _ hnone,
      ih]
    · simp [stripSelf]
    · simpa [List.map_append, List.append_assoc] using hn

theorem mem_stripSelf_of_sorted (pair : Int × List Int) (hs : pair.2.Sorted (· < ·)) (b : Int) :
    b ∈ (stripSelf pair).2.machine_id ↔ b ∈ pair.2 ∧ b ≠ pair.1 := by
  have hnd : pair.2.Nodup := hs.nodup
  unfold stripSelf
  simp only
  split_ifs with h
  · rw [hnd.mem_erase_iff]
    tauto
  · constructor
    · intro hb
      exact ⟨hb, fun heq => h (heq ▸ hb)⟩
    · exact fun hb => hb.1

theorem sorted_stripSelf (pair : Int × List Int) (hs : pair.2.Sorted (· < ·)) :
    (stripSelf pair).2.machine_id.Sorted (· < ·) := by
  unfold stripSelf
  simp only
  split_ifs with h
  · exact hs.sublist (List.erase_sublist _ _)
  · exact hs

/-! ## `GenNetTopo` as a whole -/

theorem producerMid_ne_none (tasks : List TaskProto) (t : TaskProto) (ht : t ∈ tasks)
    (r : String × RegstDescProto) (hr : r ∈ t.produced_regst_desc) :
    producerMid tasks r.2.regst_desc_id ≠ none := by
  unfold producerMid
  rw [Ne, HashMap.find_eq_none_iff, not_not]
  induction tasks with
  | nil => simp at ht
  | cons t' rest ih =>
    simp only [ridEntries, List.map_append, List.mem_append]
    rcases List.mem_cons.1 ht with rfl | ht
    · left
      simp only [List.map_map, List.mem_map, Function.comp]
      exact ⟨r, hr, rfl⟩
    · exact Or.inr (ih ht)

theorem consumerMid_ne_none_iff (tasks : List TaskProto) (c : Int) :
    consumerMid tasks c ≠ none ↔ ∃ t ∈ tasks, t.task_id = c := by
  unfold consumerMid
  rw [Ne, HashMap.find_eq_none_iff, not_not]
  simp [tidEntries, List.mem_map]

theorem GenNetTopo_ok_iff {JobConf : Type} (plan : Plan JobConf) :
    (∃ plan', GenNetTopo plan = .ok plan') ↔
      (plan.task.map TaskProto.task_id).Nodup ∧ ConsumersKnown plan.task := by
  unfold GenNetTopo
  cases h1 : GenNetTopo.collectIds plan.task ([], []) with
  | error e =>
    have := (GenNetTopo.collectIds_ok_iff plan.task [] []).not.1 (by simp [h1])
    constructor
    · rintro ⟨p, hp⟩
      cases hp
    · rintro ⟨hn, -⟩
      exact absurd ⟨by simp [HashMap.find], hn⟩ this
  | ok maps =>
    obtain ⟨rm, tm⟩ := maps
    have hnd := ((GenNetTopo.collectIds_ok_iff plan.task [] []).1 ⟨_, h1⟩).2
    have hrm : ∀ k, HashMap.find rm k = producerMid plan.task k := fun k => by
      simpa [HashMap.find, producerMid] using (GenNetTopo.collectIds_find h1 k).1
    have htm : ∀ k, HashMap.find tm k = consumerMid plan.task k := fun k => by
      simpa [HashMap.find, consumerMid] using (GenNetTopo.collectIds_find h1 k).2
    simp only
    cases h2 : GenNetTopo.linkTasks rm tm plan.task [] with
    | error e =>
      have := (GenNetTopo.linkTasks_ok_iff rm tm plan.task []).not.1 (by simp [h2])
      constructor
      · rintro ⟨p, hp⟩
        cases hp
      · rintro ⟨-, hk⟩
        refine absurd ?_ this
        intro t ht r hr
        refine ⟨by rw [hrm]; exact producerMid_ne_none _ t ht r hr, ?_⟩
        intro c hc
        rw [htm, consumerMid_ne_none_iff]
        exact hk t ht r hr c hc
    | ok nt =>
      have hk := (GenNetTopo.linkTasks_ok_iff rm tm plan.task []).1 ⟨nt, h2⟩
      have hw : StdMap.WF nt :=
        (GenNetTopo.linkTasks_spec h2).1 ⟨by simp, by simp⟩
      simp only
      rw [GenNetTopo.fillStdNetTopo_eq nt [] (by simpa using hw.1.nodup)]
      refine ⟨fun _ => ⟨hnd, ?_⟩, fun _ => ⟨_, rfl⟩⟩
      intro t ht r hr c hc
      have := (hk t ht r hr).2 c hc
      rwa [htm, consumerMid_ne_none_iff] at this

theorem GenNetTopo_error {JobConf : Type} {plan : Plan JobConf} {e : CheckFailure}
    (h : GenNetTopo plan = .error e) :
    e = CheckFailure.tid2mid_emplace ∨ e = CheckFailure.tid2mid_find := by
  unfold GenNetTopo at h
  cases h1 : GenNetTopo.collectIds plan.task ([], []) with
  | error e1 =>
    simp only [h1, Except.error.injEq] at h
    subst h
    exact Or.inl (GenNetTopo.collectIds_error h1)
  | ok maps =>
    obtain ⟨rm, tm⟩ := maps
    have hrm : ∀ k, HashMap.find rm k = producerMid plan.task k := fun k => by
      simpa [HashMap.find, producerMid] using (GenNetTopo.collectIds_find h1 k).1
    simp only [h1] at h
    cases h2 : GenNetTopo.linkTasks rm tm plan.task [] with
    | error e2 =>
      simp only [h2, Except.error.injEq] at h
      subst h
      rcases GenNetTopo.linkTasks_error h2 with h3 | ⟨-, t, ht, r, hr, h3⟩
      · exact Or.inr h3
      · rw [hrm] at h3
        exact absurd h3 (producerMid_ne_none _ t ht r hr)
    | ok nt =>
      have hw : StdMap.WF nt :=
        (GenNetTopo.linkTasks_spec h2).1 ⟨by simp, by simp⟩
      simp only [h2] at h
      rw [GenNetTopo.fillStdNetTopo_eq nt [] (by simpa using hw.1.nodup)] at h
      simp at h

theorem GenNetTopo_spec {JobConf : Type} {plan plan' : Plan JobConf}
    (h : GenNetTopo plan = .ok plan') :
    ∃ nt, StdMap.WF nt ∧
      plan' = { plan with net_topo := { peer_machine_ids := nt.map stripSelf } } ∧
      (∀ a b, Linked nt a b ↔ Edge plan.task a b) ∧
      (∀ a, a ∈ nt.map Prod.fst ↔ Touched plan.task a) := by
  unfold GenNetTopo at h
  cases h1 : GenNetTopo.collectIds plan.task ([], []) with
  | error e1 => simp [h1] at h
  | ok maps =>
    obtain ⟨rm, tm⟩ := maps
    have hrm : ∀ k, HashMap.find rm k = producerMid plan.task k := fun k => by
      simpa [HashMap.find, producerMid] using (GenNetTopo.collectIds_find h1 k).1
    have htm : ∀ k, HashMap.find tm k = consumerMid plan.task k := fun k => by
      simpa [HashMap.find, consumerMid] using (GenNetTopo.collectIds_find h1 k).2
    simp only [h1] at h
    cases h2 : GenNetTopo.linkTasks rm tm plan.task [] with
    | error e2 => simp [h2] at h
    | ok nt =>
      obtain ⟨g1, g2, g3⟩ := GenNetTopo.linkTasks_spec h2
      have hw : StdMap.WF nt := g1 ⟨by simp, by simp⟩
      simp only [h2] at h
      rw [GenNetTopo.fillStdNetTopo_eq nt [] (by simpa using hw.1.nodup)] at h
      simp only [List.nil_append, Except.ok.injEq, HashMap2PbMap] at h
      refine ⟨nt, hw, h.symm, ?_, ?_⟩
      · intro a b
        rw [g2]
        simp only [hrm, htm, Edge]
        have := linked_nil a b
        tauto
      · intro a
        rw [g3]
        simp only [hrm, htm, Touched]
        simp

theorem hasPeer_strip (nt : List (Int × List Int)) (hw : StdMap.WF nt) (m1 m2 : Int) :
    NetTopo.HasPeer { peer_machine_ids := nt.map stripSelf } m1 m2 ↔
      Linked nt m1 m2 ∧ m2 ≠ m1 := by
  unfold NetTopo.HasPeer Linked
  simp only [List.mem_map]
  constructor
  · rintro ⟨ids, ⟨pair, hp, heq⟩, hm⟩
    have h1 : pair.1 = m1 := by
      have := congrArg Prod.fst heq
      simpa [stripSelf] using this
    have h2 : (stripSelf pair).2 = ids := congrArg Prod.snd heq
    rw [← h2, mem_stripSelf_of_sorted pair (hw.2 pair hp)] at hm
    subst h1
    exact ⟨⟨pair.2, hp, hm.1⟩, hm.2⟩
  · rintro ⟨⟨s, hs, hb⟩, hne⟩
    refine ⟨(stripSelf (m1, s)).2, ⟨(m1, s), hs, rfl⟩, ?_⟩
    rw [mem_stripSelf_of_sorted (m1, s) (hw.2 _ hs)]
    exact ⟨hb, hne⟩

/-! ## What the lookups return -/

theorem mem_ridEntries (tasks : List TaskProto) (k v : Int) :
    (k, v) ∈ ridEntries tasks ↔
      ∃ t ∈ tasks, ∃ r ∈ t.produced_regst_desc, r.2.regst_desc_id = k ∧ t.machine_id = v := by
  induction tasks with
  | nil => simp [ridEntries]
  | cons t rest ih =>
    simp only [ridEntries, List.mem_append, List.mem_map, Prod.mk.injEq, ih, List.mem_cons,
      exists_eq_or_imp]

theorem mem_tidEntries (tasks : List TaskProto) (k v : Int) :
    (k, v) ∈ tidEntries tasks ↔ ∃ t ∈ tasks, t.task_id = k ∧ t.machine_id = v := by
  simp [tidEntries, List.mem_map]

theorem consumerMid_eq_some_iff (tasks : List TaskProto)
    (hn : (tasks.map TaskProto.task_id).Nodup) (c cm : Int) :
    consumerMid tasks c = some cm ↔ ∃ t ∈ tasks, t.task_id = c ∧ t.machine_id = cm := by
  rw [← mem_tidEntries]
  constructor
  · exact HashMap.mem_of_find _ _ _
  · refine HashMap.find_of_mem _ _ _ ?_
    simpa [tidEntries, List.map_map, Function.comp] using hn

theorem producerMid_of_unique (tasks : List TaskProto) (hu : UniqueProducers tasks)
    (t : TaskProto) (ht : t ∈ tasks) (r : String × RegstDescProto)
    (hr : r ∈ t.produced_regst_desc) :
    producerMid tasks r.2.regst_desc_id = some t.machine_id := by
  cases hf : producerMid tasks r.2.regst_desc_id with
  | none => exact absurd hf (producerMid_ne_none tasks t ht r hr)
  | some pm =>
    obtain ⟨t2, ht2, r2, hr2, hrid, hmid⟩ :=
      (mem_ridEntries tasks _ _).1 (HashMap.mem_of_find _ _ _ hf)
    have := hu t2 ht2 t ht r2 hr2 r hr hrid
    subst this
    rw [hmid]

theorem joins_symm (p c a b : Int) : Joins p c a b ↔ Joins p c b a := by
  unfold Joins
  tauto

theorem edge_symm (tasks : List TaskProto) (a b : Int) : Edge tasks a b ↔ Edge tasks b a := by
  unfold Edge
  simp only [joins_symm _ _ a b]

theorem sharedTaskId_iff (tasks : List TaskProto) :
    SharedTaskId tasks ↔ ¬ (tasks.map TaskProto.task_id).Nodup := by
  rw [List.Nodup, List.pairwise_map, List.pairwise_iff_get]
  unfold SharedTaskId
  constructor
  · rintro ⟨i, j, hij, heq⟩ hall
    rcases lt_or_gt_of_ne hij with h | h
    · exact hall i j h heq
    · exact hall j i h heq.symm
  · intro h
    push_neg at h
    obtain ⟨i, j, hij, heq⟩ := h
    exact ⟨i, j, ne_of_lt hij, heq⟩

theorem unknownConsumer_iff (tasks : List TaskProto) :
    UnknownConsumer tasks ↔ ¬ ConsumersKnown tasks := by
  unfold UnknownConsumer ConsumersKnown
  push_neg
  rfl

/-! ## Reading a topology off its keys and peers -/

theorem sorted_eq_singleton (l : List Int) (hs : l.Sorted (· < ·)) (y : Int)
    (hm : ∀ b, b ∈ l ↔ b = y) : l = [y] := by
  refine List.eq_of_perm_of_sorted ?_ hs (List.sorted_singleton y)
  exact (List.perm_ext_iff_of_nodup hs.nodup (List.nodup_singleton y)).2
    (fun b => by simp [hm b])

theorem sorted_eq_pair (l : List Int) (hs : l.Sorted (· < ·)) (x y : Int) (hxy : x < y)
    (hm : ∀ b, b ∈ l ↔ b = x ∨ b = y) : l = [x, y] := by
  have hs2 : [x, y].Sorted (· < ·) := by simp [hxy]
  refine List.eq_of_perm_of_sorted ?_ hs hs2
  exact (List.perm_ext_iff_of_nodup hs.nodup hs2.nodup).2 (fun b => by simp [hm b])

theorem topo_eq_pair (L : List (Int × MachineIds)) (hk : (L.map Prod.fst).Sorted (· < ·))
    (hs : ∀ e ∈ L, e.2.machine_id.Sorted (· < ·)) (x y : Int) (hxy : x < y)
    (hkeys : ∀ a, a ∈ L.map Prod.fst ↔ a = x ∨ a = y)
    (hp : ∀ a b, NetTopo.HasPeer { peer_machine_ids := L } a b ↔
      (a = x ∧ b = y) ∨ (a = y ∧ b = x)) :
    L = [(x, { machine_id := [y] }), (y, { machine_id := [x] })] := by
  have hK := sorted_eq_pair _ hk x y hxy hkeys
  match L, hK with
  | [(k1, ⟨p1⟩), (k2, ⟨p2⟩)], hK =>
    simp only [List.map_cons, List.map_nil, List.cons.injEq, and_true] at hK
    obtain ⟨rfl, rfl⟩ := hK
    have hne : k1 ≠ k2 := ne_of_lt hxy
    have h1 : p1 = [k2] := by
      refine sorted_eq_singleton p1 (hs (k1, ⟨p1⟩) (by simp)) k2 (fun b => ?_)
      have := hp k1 b
      simp only [NetTopo.HasPeer, List.mem_cons, Prod.mk.injEq, List.mem_singleton,
        List.not_mem_nil, or_false, true_and, hne, false_and] at this
      rw [← this]
      exact ⟨fun hb => ⟨_, rfl, hb⟩, fun ⟨_, h, hb⟩ => by subst h; exact hb⟩
    have h2 : p2 = [k1] := by
      refine sorted_eq_singleton p2 (hs (k2, ⟨p2⟩) (by simp)) k1 (fun b => ?_)
      have := hp k2 b
      simp only [NetTopo.HasPeer, List.mem_cons, Prod.mk.injEq, List.mem_singleton,
        List.not_mem_nil, or_false, true_and, hne.symm, false_and, false_or] at this
      rw [← this]
      exact ⟨fun hb => ⟨_, rfl, hb⟩, fun ⟨_, h, hb⟩ => by subst h; exact hb⟩
    rw [h1, h2]

theorem topo_eq_single (L : List (Int × MachineIds)) (hk : (L.map Prod.fst).Sorted (· < ·))
    (m : Int) (hkeys : ∀ a ∈ L.map Prod.fst, a = m)
    (hp : ∀ a b, ¬ NetTopo.HasPeer { peer_machine_ids := L } a b) :
    L = [] ∨ L = [(m, { machine_id := [] })] := by
  match L with
  | [] => exact Or.inl rfl
  | [(k, ⟨p⟩)] =>
    right
    have hkm : k = m := hkeys k (by simp)
    subst hkm
    have : p = [] := by
      rw [List.eq_nil_iff_forall_not_mem]
      intro b hb
      exact hp k b ⟨⟨p⟩, by simp, hb⟩
    rw [this]
  | e1 :: e2 :: rest =>
    exfalso
    have h1 : e1.1 = m := hkeys _ (by simp)
    have h2 : e2.1 = m := hkeys _ (by simp)
    simp only [List.map_cons, List.sorted_cons, List.mem_cons, forall_eq_or_imp] at hk
    have := hk.1.1
    omega

theorem keys_map_stripSelf (nt : List (Int × List Int)) :
    (nt.map stripSelf).map Prod.fst = nt.map Prod.fst := by
  simp [List.map_map, Function.comp, stripSelf]

theorem sorted_of_mem_map_stripSelf (nt : List (Int × List Int)) (hw : StdMap.WF nt) :
    ∀ e ∈ nt.map stripSelf, e.2.machine_id.Sorted (· < ·) := by
  intro e he
  obtain ⟨pair, hp, rfl⟩ := List.mem_map.1 he
  exact sorted_stripSelf pair (hw.2 pair hp)

theorem edge_touched {tasks : List TaskProto} {a b : Int} (h : Edge tasks a b) :
    Touched tasks a ∧ Touched tasks b := by
  obtain ⟨t, ht, r, hr, pm, hpm, c, hc, cm, hcm, hj⟩ := h
  rcases hj with ⟨rfl, rfl⟩ | ⟨rfl, rfl⟩
  · exact ⟨⟨t, ht, r, hr, _, hpm, c, hc, _, hcm, Or.inl rfl⟩,
      ⟨t, ht, r, hr, _, hpm, c, hc, _, hcm, Or.inr rfl⟩⟩
  · exact ⟨⟨t, ht, r, hr, _, hpm, c, hc, _, hcm, Or.inr rfl⟩,
      ⟨t, ht, r, hr, _, hpm, c, hc, _, hcm, Or.inl rfl⟩⟩

theorem touched_machine {tasks : List TaskProto} {a : Int} (h : Touched tasks a) :
    ∃ t ∈ tasks, t.machine_id = a := by
  obtain ⟨t, ht, r, hr, pm, hpm, c, hc, cm, hcm, hj⟩ := h
  rcases hj with rfl | rfl
  · obtain ⟨t2, ht2, -, -, -, h2⟩ := (mem_ridEntries tasks _ _).1 (HashMap.mem_of_find _ _ _ hpm)
    exact ⟨t2, ht2, h2⟩
  · obtain ⟨t2, ht2, -, h2⟩ := (mem_tidEntries tasks _ _).1 (HashMap.mem_of_find _ _ _ hcm)
    exact ⟨t2, ht2, h2⟩

theorem find_regstEntries (regs : List (String × RegstDescProto)) (mid : Int)
    (r : String × RegstDescProto) (hr : r ∈ regs) :
    HashMap.find (regs.map fun r => (r.2.regst_desc_id, mid)) r.2.regst_desc_id = some mid := by
  cases hf : HashMap.find (regs.map fun r => (r.2.regst_desc_id, mid)) r.2.regst_desc_id with
  | none =>
    rw [HashMap.find_eq_none_iff] at hf
    exact absurd (by simp only [List.map_map, List.mem_map, Function.comp]; exact ⟨r, hr, rfl⟩) hf
  | some v =>
    obtain ⟨r', -, h⟩ := List.mem_map.1 (HashMap.mem_of_find _ _ _ hf)
    simp only [Prod.mk.injEq] at h
    rw [h.2]

theorem find_regstEntries_none (regs : List (String × RegstDescProto)) (mid k : Int)
    (hk : ∀ r ∈ regs, r.2.regst_desc_id ≠ k) :
    HashMap.find (regs.map fun r => (r.2.regst_desc_id, mid)) k = none := by
  rw [HashMap.find_eq_none_iff]
  simp only [List.map_map, List.mem_map, Function.comp, not_exists, not_and]
  exact hk

theorem TwoTaskPlan.mem_iff {tasks : List TaskProto} {A B : TaskProto}
    (h : TwoTaskPlan tasks A B) (t : TaskProto) : t ∈ tasks ↔ t = A ∨ t = B := by
  rcases h with rfl | ⟨rfl, -⟩
  · simp
  · simp [or_comm]

theorem TwoTaskPlan.producerMid {tasks : List TaskProto} {A B : TaskProto}
    (h : TwoTaskPlan tasks A B) (ra : String × RegstDescProto)
    (hra : ra ∈ A.produced_regst_desc) :
    producerMid tasks ra.2.regst_desc_id = some A.machine_id := by
  unfold oneflow.producerMid
  rcases h with rfl | ⟨rfl, hrid⟩
  · simp only [ridEntries, HashMap.find_append, find_regstEntries _ _ ra hra, Option.or_some]
  · simp only [ridEntries, HashMap.find_append, find_regstEntries _ _ ra hra,
      find_regstEntries_none _ _ _ (fun rb hrb => (hrid ra hra rb hrb).symm), Option.or_some,
      Option.none_or]

theorem TwoTaskPlan.nodup {tasks : List TaskProto} {A B : TaskProto}
    (h : TwoTaskPlan tasks A B) (ht : A.task_id ≠ B.task_id) :
    (tasks.map TaskProto.task_id).Nodup := by
  rcases h with rfl | ⟨rfl, -⟩
  · simpa using ht
  · simpa using ht.symm

/-! ## `Compile` in closed form -/

theorem visitNodes_eq {T : Types} (f : T.TaskNode → T.TaskGraph → T.TaskGraph)
    (call : T.TaskNode → Call T.TaskNode) (nodes : List T.TaskNode) (task_gph : T.TaskGraph)
    (calls : List (Call T.TaskNode)) :
    visitNodes f call nodes (task_gph, calls) =
      (applyToNodes f nodes task_gph, calls ++ nodes.map call) := by
  induction nodes generalizing task_gph calls with
  | nil => simp [visitNodes, applyToNodes]
  | cons n rest ih => simp [visitNodes, applyToNodes, ih]

theorem Compile.writeTasks_eq {T : Types} (c : Collaborators T) (task_gph : T.TaskGraph)
    (nodes : List T.TaskNode) (plan : Plan T.JobConf) (calls : List (Call T.TaskNode)) :
    Compile.writeTasks c task_gph nodes (plan, calls) =
      ({ plan with
          task := plan.task ++
            (nodes.filter fun n => !c.IsMeaningLess task_gph n).map (c.ToProto task_gph) },
        calls ++ (nodes.filter fun n => !c.IsMeaningLess task_gph n).map Call.ToProto) := by
  induction nodes generalizing plan calls with
  | nil => simp [Compile.writeTasks]
  | cons n rest ih =>
    unfold Compile.writeTasks
    by_cases h : c.IsMeaningLess task_gph n = true
    · simp [h, ih]
    · simp [h, ih]

theorem Compile.xla_eq {T : Types} (c : Collaborators T) (job_desc : JobDesc T.JobConf)
    (flags : XlaFlags) (job : T.Job) (calls : List (Call T.TaskNode)) :
    Compile.xla c job_desc flags job (some (c.OpGraph_new job)) calls =
      .ok (jobAfterXla c flags job, some (c.OpGraph_new (jobAfterXla c flags job)),
        calls ++ callsOfXla job_desc flags) := by
  unfold Compile.xla jobAfterXla callsOfXla
  cases flags.WITH_XLA <;> cases flags.use_xla_jit <;> simp [Global_Get]

theorem Compile.taskGraph_eq {T : Types} (c : Collaborators T) (job_desc : JobDesc T.JobConf)
    (job : T.Job) (calls : List (Call T.TaskNode)) :
    Compile.taskGraph c job_desc job (some (c.OpGraph_new job)) calls =
      .ok (graphAfterTimeShape c job_desc.enable_inplace job,
        calls ++ [Call.LogicalGraph_new, Call.TaskGraph_new] ++
          callsOfPhases c job_desc.enable_inplace job) := by
  unfold Compile.taskGraph
  simp only [visitNodes_eq]
  cases h : job_desc.enable_inplace <;>
    simp [Global_Get, visitNodes_eq, callsOfPhases, graphAfterTimeShape, graphAfterInplace,
      graphAfterMemSharing, graphAfterBuild, graphAfterPin, graphAfterConsume,
      graphAfterProduce, graphNew]

/-- The whole of `Compile` in closed form: it always returns, with the job
completed and rewritten as the flags say, the plan extended by the
descriptors of the meaningful nodes and the job configuration, an empty
`OpGraph` slot and the calls in program order. -/
theorem Compile_eq {T : Types} (c : Collaborators T) (job_desc : JobDesc T.JobConf)
    (flags : XlaFlags) (job : T.Job) (plan : Plan T.JobConf) (need_job_complete : Bool) :
    Compile c job_desc flags job plan need_job_complete =
      .ok
        { job := jobAfterXla c flags (if need_job_complete then c.Complete job else job)
          plan :=
            { task := plan.task ++
                (meaningfulNodes c (graphAfterTimeShape c job_desc.enable_inplace
                  (jobAfterXla c flags (if need_job_complete then c.Complete job else job)))).map
                  (c.ToProto (graphAfterTimeShape c job_desc.enable_inplace
                    (jobAfterXla c flags (if need_job_complete then c.Complete job else job))))
              job_id2job_conf :=
                setJobConf job_desc.job_id job_desc.job_conf plan.job_id2job_conf
              net_topo := plan.net_topo }
          global_OpGraph := none
          calls :=
            callsBeforeXla job_desc need_job_complete ++ callsOfXla job_desc flags ++
              [Call.LogicalGraph_new, Call.TaskGraph_new] ++
              callsOfPhases c job_desc.enable_inplace
                (jobAfterXla c flags (if need_job_complete then c.Complete job else job)) ++
              (meaningfulNodes c (graphAfterTimeShape c job_desc.enable_inplace
                (jobAfterXla c flags (if need_job_complete then c.Complete job else job)))).map
                Call.ToProto ++
              [Call.OpGraph_Delete]
          task_gph := graphAfterTimeShape c job_desc.enable_inplace
            (jobAfterXla c flags (if need_job_complete then c.Complete job else job)) } := by
  unfold Compile
  simp only [Global_Get, Compile.xla_eq, Compile.taskGraph_eq, Compile.writeTasks_eq]
  cases need_job_complete <;> simp [callsBeforeXla, meaningfulNodes]

/-! ## Claims about `GenNetTopo` -/

/-- C1: when `GenNetTopo` succeeds on a plan in which every register descriptor id is
produced by exactly one task, machine `m2` is listed among the peers of `m1`
exactly when `m1 ≠ m2` and some register produced by a task on one of the
two machines lists a consumer task id carried by a task on the other. -/
theorem GenNetTopo_peer_iff {JobConf : Type} (plan plan' : Plan JobConf)
    (hok : GenNetTopo plan = .ok plan') (hu : UniqueProducers plan.task) (m1 m2 : Int) :
    plan'.net_topo.HasPeer m1 m2 ↔
      m1 ≠ m2 ∧ ∃ t ∈ plan.task, ∃ r ∈ t.produced_regst_desc, ∃ c ∈ r.2.consumer_task_id,
        ∃ t' ∈ plan.task, t'.task_id = c ∧
          ((t.machine_id = m1 ∧ t'.machine_id = m2) ∨
            (t.machine_id = m2 ∧ t'.machine_id = m1)) := by
  have hnd := ((GenNetTopo_ok_iff plan).1 ⟨plan', hok⟩).1
  obtain ⟨nt, hw, rfl, hl, -⟩ := GenNetTopo_spec hok
  rw [hasPeer_strip nt hw, hl]
  unfold Edge Joins
  constructor
  · rintro ⟨⟨t, ht, r, hr, pm, hpm, c, hc, cm, hcm, hj⟩, hne⟩
    rw [producerMid_of_unique _ hu t ht r hr, Option.some.injEq] at hpm
    obtain ⟨t', ht', hid, hmid⟩ := (consumerMid_eq_some_iff _ hnd c cm).1 hcm
    refine ⟨fun h => hne h.symm, t, ht, r, hr, c, hc, t', ht', hid, ?_⟩
    subst hpm hmid
    rcases hj with ⟨h1, h2⟩ | ⟨h1, h2⟩
    · exact Or.inl ⟨h1.symm, h2.symm⟩
    · exact Or.inr ⟨h2.symm, h1.symm⟩
  · rintro ⟨hne, t, ht, r, hr, c, hc, t', ht', hid, hj⟩
    refine ⟨⟨t, ht, r, hr, t.machine_id, producerMid_of_unique _ hu t ht r hr, c, hc,
      t'.machine_id, (consumerMid_eq_some_iff _ hnd c _).2 ⟨t', ht', hid, rfl⟩, ?_⟩,
      fun h => hne h.symm⟩
    rcases hj with ⟨h1, h2⟩ | ⟨h1, h2⟩
    · exact Or.inl ⟨h1.symm, h2.symm⟩
    · exact Or.inr ⟨h2.symm, h1.symm⟩

/-- C2: whenever `GenNetTopo` succeeds the topology it writes is symmetric and has no
self-edge. -/
theorem GenNetTopo_symmetric_irreflexive {JobConf : Type} (plan plan' : Plan JobConf)
    (hok : GenNetTopo plan = .ok plan') :
    (∀ m1 m2 : Int, m1 ≠ m2 →
      (plan'.net_topo.HasPeer m1 m2 ↔ plan'.net_topo.HasPeer m2 m1)) ∧
    (∀ m : Int, ¬ plan'.net_topo.HasPeer m m) := by
  obtain ⟨nt, hw, rfl, hl, -⟩ := GenNetTopo_spec hok
  refine ⟨?_, ?_⟩
  · intro m1 m2 _
    rw [hasPeer_strip nt hw, hasPeer_strip nt hw, hl, hl, edge_symm, ne_comm]
  · intro m
    rw [hasPeer_strip nt hw]
    exact fun h => h.2 rfl

/-- C5: whenever `GenNetTopo` succeeds every peer list of the topology is strictly
ascending, hence free of repetitions. -/
theorem GenNetTopo_peers_ascending {JobConf : Type} (plan plan' : Plan JobConf)
    (hok : GenNetTopo plan = .ok plan') :
    ∀ e ∈ plan'.net_topo.peer_machine_ids,
      e.2.machine_id.Sorted (· < ·) ∧ e.2.machine_id.Nodup := by
  obtain ⟨nt, hw, rfl, -, -⟩ := GenNetTopo_spec hok
  intro e he
  obtain ⟨pair, hp, rfl⟩ := List.mem_map.1 he
  have := sorted_stripSelf pair (hw.2 pair hp)
  exact ⟨this, this.nodup⟩

/-- C6: `GenNetTopo` aborts exactly when two tasks share a task id or a produced
register lists a consumer task id that no task carries; otherwise it returns
the plan with a topology written and the task list untouched; neither the
register-id lookup check nor the final `emplace` check ever fails. -/
theorem GenNetTopo_aborts_iff {JobConf : Type} (plan : Plan JobConf) :
    ((∃ e, GenNetTopo plan = .error e) ↔
      (SharedTaskId plan.task ∨ UnknownConsumer plan.task)) ∧
    (¬ (SharedTaskId plan.task ∨ UnknownConsumer plan.task) →
      ∃ plan', GenNetTopo plan = .ok plan' ∧ plan'.task = plan.task) ∧
    GenNetTopo plan ≠ .error CheckFailure.rid2mid_find ∧
    GenNetTopo plan ≠ .error CheckFailure.std_net_topo_emplace := by
  have hiff := GenNetTopo_ok_iff plan
  rw [sharedTaskId_iff, unknownConsumer_iff, ← not_and_or, ← hiff]
  refine ⟨?_, ?_, ?_, ?_⟩
  · cases h : GenNetTopo plan with
    | error e => simp
    | ok p => simp
  · intro h
    rw [not_not] at h
    obtain ⟨plan', hp⟩ := h
    obtain ⟨nt, -, rfl, -, -⟩ := GenNetTopo_spec hp
    exact ⟨_, hp, rfl⟩
  · intro h
    rcases GenNetTopo_error h with h' | h' <;> cases h'
  · intro h
    rcases GenNetTopo_error h with h' | h' <;> cases h'

/-- C3, as amended: for a plan made of task `A` on machine `m1` and task `B` on
machine `m2`, with `m1 ≠ m2` and distinct task ids, where a register of `A`
lists `B` as its only consumer, the registers of `A` list no consumer other
than `A` and `B`, the registers of `B` have no consumers and (when `B` is
listed first) no register of `B` carries the id of a register of `A`,
`GenNetTopo` succeeds and writes exactly the two entries `m1 ↦ [m2]` and
`m2 ↦ [m1]`. -/
theorem GenNetTopo_two_machines {JobConf : Type} (plan : Plan JobConf) (A B : TaskProto)
    (hplan : TwoTaskPlan plan.task A B)
    (hm : A.machine_id ≠ B.machine_id) (ht : A.task_id ≠ B.task_id)
    (hAB : ∃ r ∈ A.produced_regst_desc, r.2.consumer_task_id = [B.task_id])
    (hA : ∀ r ∈ A.produced_regst_desc, ∀ c ∈ r.2.consumer_task_id,
      c = A.task_id ∨ c = B.task_id)
    (hB : ∀ r ∈ B.produced_regst_desc, r.2.consumer_task_id = []) :
    ∃ plan', GenNetTopo plan = .ok plan' ∧ plan'.task = plan.task ∧
      plan'.job_id2job_conf = plan.job_id2job_conf ∧
      plan'.net_topo.peer_machine_ids.Perm
        [(A.machine_id, { machine_id := [B.machine_id] }),
         (B.machine_id, { machine_id := [A.machine_id] })] := by
  have hnd := hplan.nodup ht
  have hmemA : A ∈ plan.task := (hplan.mem_iff A).2 (Or.inl rfl)
  have hmemB : B ∈ plan.task := (hplan.mem_iff B).2 (Or.inr rfl)
  have hknown : ConsumersKnown plan.task := by
    intro t htm r hr c hc
    rcases (hplan.mem_iff t).1 htm with rfl | rfl
    · rcases hA r hr c hc with rfl | rfl
      · exact ⟨_, hmemA, rfl⟩
      · exact ⟨_, hmemB, rfl⟩
    · rw [hB r hr] at hc
      simp at hc
  obtain ⟨plan', hok⟩ := (GenNetTopo_ok_iff plan).2 ⟨hnd, hknown⟩
  obtain ⟨nt, hw, rfl, hl, hkeys⟩ := GenNetTopo_spec hok
  refine ⟨_, hok, rfl, rfl, ?_⟩
  have hcA : consumerMid plan.task A.task_id = some A.machine_id :=
    (consumerMid_eq_some_iff _ hnd _ _).2 ⟨A, hmemA, rfl, rfl⟩
  have hcB : consumerMid plan.task B.task_id = some B.machine_id :=
    (consumerMid_eq_some_iff _ hnd _ _).2 ⟨B, hmemB, rfl, rfl⟩
  obtain ⟨r0, hr0, hc0⟩ := hAB
  have hedge : Edge plan.task A.machine_id B.machine_id :=
    ⟨A, hmemA, r0, hr0, _, hplan.producerMid r0 hr0, B.task_id, by simp [hc0], _, hcB,
      Or.inl ⟨rfl, rfl⟩⟩
  have hpeer : ∀ a b, NetTopo.HasPeer { peer_machine_ids := nt.map stripSelf } a b ↔
      (a = A.machine_id ∧ b = B.machine_id) ∨ (a = B.machine_id ∧ b = A.machine_id) := by
    intro a b
    rw [hasPeer_strip nt hw, hl]
    constructor
    · rintro ⟨⟨t, htm, r, hr, pm, hpm, c, hc, cm, hcm, hj⟩, hne⟩
      rcases (hplan.mem_iff t).1 htm with rfl | rfl
      · rw [hplan.producerMid r hr, Option.some.injEq] at hpm
        subst hpm
        rcases hA r hr c hc with rfl | rfl
        · rw [hcA, Option.some.injEq] at hcm
          subst hcm
          rcases hj with ⟨rfl, rfl⟩ | ⟨rfl, rfl⟩ <;> exact absurd rfl hne
        · rw [hcB, Option.some.injEq] at hcm
          subst hcm
          exact hj
      · rw [hB r hr] at hc
        simp at hc
    · rintro (⟨rfl, rfl⟩ | ⟨rfl, rfl⟩)
      · exact ⟨hedge, hm.symm⟩
      · exact ⟨(edge_symm _ _ _).1 hedge, hm⟩
  have hkeys' : ∀ a, a ∈ (nt.map stripSelf).map Prod.fst ↔
      a = A.machine_id ∨ a = B.machine_id := by
    intro a
    rw [keys_map_stripSelf, hkeys]
    constructor
    · intro h
      obtain ⟨t, htm, rfl⟩ := touched_machine h
      rcases (hplan.mem_iff t).1 htm with rfl | rfl
      · exact Or.inl rfl
      · exact Or.inr rfl
    · rintro (rfl | rfl)
      · exact (edge_touched hedge).1
      · exact (edge_touched hedge).2
  have hk : ((nt.map stripSelf).map Prod.fst).Sorted (· < ·) := by
    rw [keys_map_stripSelf]
    exact hw.1
  have hs := sorted_of_mem_map_stripSelf nt hw
  rcases lt_or_gt_of_ne hm with hlt | hgt
  · rw [topo_eq_pair _ hk hs _ _ hlt hkeys' hpeer]
  · have hkeys2 : ∀ a, a ∈ (nt.map stripSelf).map Prod.fst ↔
        a = B.machine_id ∨ a = A.machine_id := fun a => (hkeys' a).trans or_comm
    have hpeer2 : ∀ a b, NetTopo.HasPeer { peer_machine_ids := nt.map stripSelf } a b ↔
        (a = B.machine_id ∧ b = A.machine_id) ∨ (a = A.machine_id ∧ b = B.machine_id) :=
      fun a b => (hpeer a b).trans or_comm
    show (nt.map stripSelf).Perm _
    rw [topo_eq_pair _ hk hs _ _ hgt hkeys2 hpeer2]
    exact List.Perm.swap _ _ _

/-- C4, as amended: when all tasks of a plan sit on one machine `m` and `GenNetTopo`
succeeds, no machine is listed as a peer of any machine; the map
`peer_machine_ids` is empty when no register has a consumer, and otherwise it
is the single entry `m ↦ []`, an entry with an empty peer list. -/
theorem GenNetTopo_single_machine {JobConf : Type} (plan plan' : Plan JobConf) (m : Int)
    (hm : ∀ t ∈ plan.task, t.machine_id = m) (hok : GenNetTopo plan = .ok plan') :
    (∀ a b, ¬ plan'.net_topo.HasPeer a b) ∧
    ((∃ t ∈ plan.task, ∃ r ∈ t.produced_regst_desc, r.2.consumer_task_id ≠ []) →
      plan'.net_topo.peer_machine_ids = [(m, { machine_id := [] })]) ∧
    ((∀ t ∈ plan.task, ∀ r ∈ t.produced_regst_desc, r.2.consumer_task_id = []) →
      plan'.net_topo.peer_machine_ids = []) := by
  have hknown := ((GenNetTopo_ok_iff plan).1 ⟨plan', hok⟩).2
  obtain ⟨nt, hw, rfl, hl, hkeys⟩ := GenNetTopo_spec hok
  have htouched : ∀ a, Touched plan.task a → a = m := by
    intro a h
    obtain ⟨t, ht, rfl⟩ := touched_machine h
    exact hm t ht
  have hnopeer : ∀ a b, ¬ NetTopo.HasPeer { peer_machine_ids := nt.map stripSelf } a b := by
    intro a b h
    rw [hasPeer_strip nt hw, hl] at h
    have h1 := htouched a (edge_touched h.1).1
    have h2 := htouched b (edge_touched h.1).2
    exact h.2 (h2.trans h1.symm)
  have hk : ((nt.map stripSelf).map Prod.fst).Sorted (· < ·) := by
    rw [keys_map_stripSelf]
    exact hw.1
  have hcases := topo_eq_single (nt.map stripSelf) hk m
    (fun a ha => htouched a ((hkeys a).1 (by rwa [keys_map_stripSelf] at ha))) hnopeer
  refine ⟨hnopeer, ?_, ?_⟩
  · rintro ⟨t, ht, r, hr, hne⟩
    obtain ⟨c, cs, hcs⟩ := List.exists_cons_of_ne_nil hne
    have hc : c ∈ r.2.consumer_task_id := by simp [hcs]
    obtain ⟨pm, hpm⟩ := Option.ne_none_iff_exists'.1 (producerMid_ne_none _ t ht r hr)
    obtain ⟨cm, hcm⟩ := Option.ne_none_iff_exists'.1
      ((consumerMid_ne_none_iff _ c).2 (hknown t ht r hr c hc))
    have htch : Touched plan.task pm := ⟨t, ht, r, hr, pm, hpm, c, hc, cm, hcm, Or.inl rfl⟩
    have hmem : pm ∈ (nt.map stripSelf).map Prod.fst := by
      rw [keys_map_stripSelf]
      exact (hkeys pm).2 htch
    rcases hcases with h | h
    · rw [h] at hmem
      simp at hmem
    · exact h
  · intro hnone
    rcases hcases with h | h
    · exact h
    · have hmem : m ∈ nt.map Prod.fst := by
        rw [← keys_map_stripSelf, h]
        simp
      obtain ⟨t, ht, r, hr, -, -, c, hc, -⟩ := (hkeys m).1 hmem
      rw [hnone t ht r hr] at hc
      simp at hc

/-! ## Claims about `Compile` -/

/-- C7: the task descriptors `Compile` appends to the plan are the descriptors of the
nodes not flagged meaningless, one per node and in visiting order, so their
number is the number of such nodes; the writing loop does so on every task
graph. -/
theorem Compile_appends_meaningful_tasks {T : Types} (c : Collaborators T)
    (job_desc : JobDesc T.JobConf) (flags : XlaFlags) (job : T.Job) (plan : Plan T.JobConf)
    (need_job_complete : Bool) :
    (∃ res, Compile c job_desc flags job plan need_job_complete = .ok res ∧
      res.plan.task = plan.task ++
        ((c.ForEachNode res.task_gph).filter fun n => !c.IsMeaningLess res.task_gph n).map
          (c.ToProto res.task_gph) ∧
      res.plan.task.length = plan.task.length +
        (c.ForEachNode res.task_gph).countP fun n => !c.IsMeaningLess res.task_gph n) ∧
    (∀ (task_gph : T.TaskGraph) (calls : List (Call T.TaskNode)),
      (Compile.writeTasks c task_gph (c.ForEachNode task_gph) (plan, calls)).1.task =
        plan.task ++
          ((c.ForEachNode task_gph).filter fun n => !c.IsMeaningLess task_gph n).map
            (c.ToProto task_gph)) := by
  refine ⟨⟨_, Compile_eq c job_desc flags job plan need_job_complete, rfl, ?_⟩, ?_⟩
  · simp [meaningfulNodes, List.countP_eq_length_filter]
  · intro task_gph calls
    rw [Compile.writeTasks_eq]

/-- C8: `Compile` always returns, and the phase calls of its trace are, in this order:
produce on every node, consume on every node, pin on every node, build in
delayed-topological order, `RemoveEmptyRegsts`, `AddOrderingCtrlEdgeInSameChain`,
`EnableMemSharingInReduceStruct`, `EnableInplaceMemSharing` when enabled,
time shape in delayed-topological order, and then one `ToProto` per node
written to the plan. -/
theorem Compile_phase_order {T : Types} (c : Collaborators T)
    (job_desc : JobDesc T.JobConf) (flags : XlaFlags) (job : T.Job) (plan : Plan T.JobConf)
    (need_job_complete : Bool) :
    ∃ res, Compile c job_desc flags job plan need_job_complete = .ok res ∧
      res.task_gph = graphAfterTimeShape c job_desc.enable_inplace res.job ∧
      res.calls.filter Call.isPhase =
        (c.ForEachNode (graphNew c res.job)).map Call.ProduceAllRegstsAndBindEdges ++
        (c.ForEachNode (graphAfterProduce c res.job)).map Call.ConsumeAllRegsts ++
        (c.ForEachNode (graphAfterConsume c res.job)).map Call.PinConsumedRegst ++
        (c.MdUpdtDelayedTopoForEachNode (graphAfterPin c res.job)).map Call.Build ++
        [Call.RemoveEmptyRegsts, Call.AddOrderingCtrlEdgeInSameChain,
          Call.EnableMemSharingInReduceStruct] ++
        (if job_desc.enable_inplace then [Call.EnableInplaceMemSharing] else []) ++
        (c.MdUpdtDelayedTopoForEachNode
          (graphAfterInplace c job_desc.enable_inplace res.job)).map
          Call.InferTimeShapeIfMeaningful ++
        (meaningfulNodes c res.task_gph).map Call.ToProto := by
  refine ⟨_, Compile_eq c job_desc flags job plan need_job_complete, rfl, ?_⟩
  simp only [callsBeforeXla, callsOfXla, callsOfPhases]
  cases need_job_complete <;> cases flags.WITH_XLA <;> cases flags.use_xla_jit <;>
    cases job_desc.enable_inplace <;>
    simp [List.filter_append, List.filter_map, Function.comp_def, Call.isPhase]

/-- C9: `Compile` always returns; its trace holds `EnableInplaceMemSharing` (and the call
that makes the reachability predicate) exactly when `enable_inplace` is set;
when set, the phase runs with the predicate made by the `OpGraph` of the
job; and a run with the flag off is the run with the flag on and a phase that
leaves the task graph alone, minus the two calls of the phase. -/
theorem Compile_inplace_gate {T : Types} (c : Collaborators T)
    (job_desc : JobDesc T.JobConf) (flags : XlaFlags) (job : T.Job) (plan : Plan T.JobConf)
    (need_job_complete : Bool) :
    (∃ res, Compile c job_desc flags job plan need_job_complete = .ok res ∧
      (Call.EnableInplaceMemSharing ∈ res.calls ↔ job_desc.enable_inplace = true) ∧
      (Call.MakePredicatorIsLbiAllConsumersReachableToOpName ∈ res.calls ↔
        job_desc.enable_inplace = true) ∧
      res.calls.filter Call.isInplace =
        (if job_desc.enable_inplace then
          [Call.MakePredicatorIsLbiAllConsumersReachableToOpName, Call.EnableInplaceMemSharing]
        else []) ∧
      res.task_gph =
        applyToNodes c.InferTimeShapeIfMeaningful
          (c.MdUpdtDelayedTopoForEachNode
            (if job_desc.enable_inplace then
              c.EnableInplaceMemSharing
                (c.MakePredicatorIsLbiAllConsumersReachableToOpName (c.OpGraph_new res.job))
                (graphAfterMemSharing c res.job)
            else graphAfterMemSharing c res.job))
          (if job_desc.enable_inplace then
            c.EnableInplaceMemSharing
              (c.MakePredicatorIsLbiAllConsumersReachableToOpName (c.OpGraph_new res.job))
              (graphAfterMemSharing c res.job)
          else graphAfterMemSharing c res.job)) ∧
    Compile c { job_desc with enable_inplace := false } flags job plan need_job_complete =
      (Compile { c with EnableInplaceMemSharing := fun _ task_gph => task_gph }
        { job_desc with enable_inplace := true } flags job plan need_job_complete).map
        fun res => { res with calls := res.calls.filter fun x => !x.isInplace } := by
  refine ⟨⟨_, Compile_eq c job_desc flags job plan need_job_complete, ?_, ?_, ?_, ?_⟩, ?_⟩
  · simp only [callsBeforeXla, callsOfXla, callsOfPhases]
    cases need_job_complete <;> cases flags.WITH_XLA <;> cases flags.use_xla_jit <;>
      cases job_desc.enable_inplace <;> simp
  · simp only [callsBeforeXla, callsOfXla, callsOfPhases]
    cases need_job_complete <;> cases flags.WITH_XLA <;> cases flags.use_xla_jit <;>
      cases job_desc.enable_inplace <;> simp
  · simp only [callsBeforeXla, callsOfXla, callsOfPhases]
    cases need_job_complete <;> cases flags.WITH_XLA <;> cases flags.use_xla_jit <;>
      cases job_desc.enable_inplace <;>
      simp [List.filter_append, List.filter_map, Function.comp_def, Call.isInplace]
  · simp only [graphAfterTimeShape, graphAfterInplace]
  · rw [Compile_eq, Compile_eq]
    simp only [Except.map, callsBeforeXla, callsOfXla, callsOfPhases]
    cases need_job_complete <;> cases flags.WITH_XLA <;> cases flags.use_xla_jit <;>
      simp [List.filter_append, List.filter_map, Function.comp_def, Call.isInplace,
        graphAfterTimeShape, graphAfterInplace, graphAfterMemSharing, graphAfterBuild,
        graphAfterPin, graphAfterConsume, graphAfterProduce, graphNew, meaningfulNodes,
        jobAfterXla]

/-- C10: `Compile` always returns; the trace starts with the one call of the job
completer when `need_job_complete` is set and holds no such call otherwise;
every call that builds a graph comes later in the trace, and the graphs are
built from the completed job. -/
theorem Compile_job_complete {T : Types} (c : Collaborators T)
    (job_desc : JobDesc T.JobConf) (flags : XlaFlags) (job : T.Job) (plan : Plan T.JobConf)
    (need_job_complete : Bool) :
    ∃ res rest, Compile c job_desc flags job plan need_job_complete = .ok res ∧
      res.calls = (if need_job_complete then [Call.JobCompleter_Complete] else []) ++ rest ∧
      Call.JobCompleter_Complete ∉ rest ∧
      res.calls.filter Call.buildsGraph = rest.filter Call.buildsGraph ∧
      Call.OpGraph_New ∈ rest ∧ Call.LogicalGraph_new ∈ rest ∧ Call.TaskGraph_new ∈ rest ∧
      res.job = jobAfterXla c flags (if need_job_complete then c.Complete job else job) ∧
      res.task_gph = graphAfterTimeShape c job_desc.enable_inplace res.job := by
  refine ⟨_,
    [Call.TeePersistentLogStream_Write ("optimized_job" ++ toString job_desc.job_id),
      Call.OpGraph_New, Call.ToDotWithFilePath "optimized_dlnet_op_graph.dot"] ++
      callsOfXla job_desc flags ++ [Call.LogicalGraph_new, Call.TaskGraph_new] ++
      callsOfPhases c job_desc.enable_inplace
        (jobAfterXla c flags (if need_job_complete then c.Complete job else job)) ++
      (meaningfulNodes c (graphAfterTimeShape c job_desc.enable_inplace
        (jobAfterXla c flags (if need_job_complete then c.Complete job else job)))).map
        Call.ToProto ++
      [Call.OpGraph_Delete],
    Compile_eq c job_desc flags job plan need_job_complete, ?_, ?_, ?_, ?_, ?_, ?_, rfl, rfl⟩
  · simp only [callsBeforeXla, List.append_assoc]
  · simp only [callsOfXla, callsOfPhases]
    cases flags.WITH_XLA <;> cases flags.use_xla_jit <;> cases job_desc.enable_inplace <;> simp
  · cases need_job_complete <;> simp [Call.buildsGraph, callsBeforeXla]
  · simp
  · simp
  · simp

/-! ## The claims at concrete plans -/

/-- The statement of C1 at the plan `A` on machine 1 feeding `B` on machine 2. -/
theorem GenNetTopo_peer_iff_witness :
    GenNetTopo exPlanAB = .ok exPlanABOut ∧ UniqueProducers exPlanAB.task ∧
    (exPlanABOut.net_topo.HasPeer 1 2 ↔
      (1 : Int) ≠ 2 ∧ ∃ t ∈ exPlanAB.task, ∃ r ∈ t.produced_regst_desc,
        ∃ c ∈ r.2.consumer_task_id, ∃ t' ∈ exPlanAB.task, t'.task_id = c ∧
          ((t.machine_id = 1 ∧ t'.machine_id = 2) ∨ (t.machine_id = 2 ∧ t'.machine_id = 1))) :=
  ⟨rfl, by unfold UniqueProducers; decide,
    GenNetTopo_peer_iff exPlanAB exPlanABOut rfl (by unfold UniqueProducers; decide) 1 2⟩

/-- The statement of C2 at a plan that spreads over three machines. -/
theorem GenNetTopo_symmetric_irreflexive_witness :
    GenNetTopo exPlanFan = .ok exPlanFanOut ∧
    ((∀ m1 m2 : Int, m1 ≠ m2 →
      (exPlanFanOut.net_topo.HasPeer m1 m2 ↔ exPlanFanOut.net_topo.HasPeer m2 m1)) ∧
    (∀ m : Int, ¬ exPlanFanOut.net_topo.HasPeer m m)) :=
  ⟨rfl, GenNetTopo_symmetric_irreflexive exPlanFan exPlanFanOut rfl⟩

/-- C3 as stated fails. In the plan `B`, `A`, task `A` on machine 1 has one
register, whose only consumer is `B` on machine 2, and the one register of `B`
has no consumer; both registers carry the id 10, `rid2mid` keeps the machine
of `B` for it, and the topology is `2 ↦ []`. In the plan `A`, `B` where `A` has
a second register that lists the unknown task id 7, `GenNetTopo` aborts. -/
theorem GenNetTopo_two_machines_counterexample :
    (exPlanClash.task = [exTaskBClash, exTaskA] ∧
      exTaskA.machine_id = 1 ∧ exTaskBClash.machine_id = 2 ∧
      exTaskA.task_id ≠ exTaskBClash.task_id ∧
      exTaskA.produced_regst_desc =
        [("out", { regst_desc_id := 10, consumer_task_id := [exTaskBClash.task_id] })] ∧
      (∀ r ∈ exTaskBClash.produced_regst_desc, r.2.consumer_task_id = []) ∧
      netTopoOf exPlanClash = some [(2, [])] ∧
      netTopoOf exPlanClash ≠ some [(1, [2]), (2, [1])]) ∧
    (exPlanStray.task = [exTaskAStray, exTaskB] ∧
      exTaskAStray.machine_id = 1 ∧ exTaskB.machine_id = 2 ∧
      exTaskAStray.task_id ≠ exTaskB.task_id ∧
      (∃ r ∈ exTaskAStray.produced_regst_desc, r.2.consumer_task_id = [exTaskB.task_id]) ∧
      (∀ r ∈ exTaskB.produced_regst_desc, r.2.consumer_task_id = []) ∧
      netTopoOf exPlanStray = none) := by
  decide

/-- The statement of C3, as amended, at the plan `B`, `A` with `A` on machine 1
feeding `B` on machine 2. -/
theorem GenNetTopo_two_machines_witness :
    TwoTaskPlan exPlanBA.task exTaskA exTaskB ∧
    ∃ plan', GenNetTopo exPlanBA = .ok plan' ∧ plan'.task = exPlanBA.task ∧
      plan'.job_id2job_conf = exPlanBA.job_id2job_conf ∧
      plan'.net_topo.peer_machine_ids.Perm
        [(exTaskA.machine_id, { machine_id := [exTaskB.machine_id] }),
         (exTaskB.machine_id, { machine_id := [exTaskA.machine_id] })] :=
  ⟨Or.inr ⟨rfl, by decide⟩,
    GenNetTopo_two_machines exPlanBA exTaskA exTaskB (Or.inr ⟨rfl, by decide⟩)
      (by decide) (by decide) ⟨_, List.mem_cons_self _ _, rfl⟩ (by decide) (by decide)⟩

/-- C4 as stated fails: for the three tasks `A -> B -> C` on machine 1 the map
`peer_machine_ids` holds the entry `1 ↦ []`, so it is not empty. -/
theorem GenNetTopo_single_machine_counterexample :
    (∀ t ∈ exPlanChain.task, t.machine_id = 1) ∧
    netTopoOf exPlanChain = some [(1, [])] ∧
    netTopoOf exPlanChain ≠ some [] := by
  decide

/-- The statement of C4, as amended, at the three tasks `A -> B -> C` on machine 1. -/
theorem GenNetTopo_single_machine_witness :
    (∀ t ∈ exPlanChain.task, t.machine_id = 1) ∧ GenNetTopo exPlanChain = .ok exPlanChainOut ∧
    ((∀ a b, ¬ exPlanChainOut.net_topo.HasPeer a b) ∧
    ((∃ t ∈ exPlanChain.task, ∃ r ∈ t.produced_regst_desc, r.2.consumer_task_id ≠ []) →
      exPlanChainOut.net_topo.peer_machine_ids = [(1, { machine_id := [] })]) ∧
    ((∀ t ∈ exPlanChain.task, ∀ r ∈ t.produced_regst_desc, r.2.consumer_task_id = []) →
      exPlanChainOut.net_topo.peer_machine_ids = [])) :=
  ⟨by decide, rfl, GenNetTopo_single_machine exPlanChain exPlanChainOut 1 (by decide) rfl⟩

/-- The statement of C5 at a plan in which several registers join the same pairs of
machines. -/
theorem GenNetTopo_peers_ascending_witness :
    GenNetTopo exPlanFan = .ok exPlanFanOut ∧
    ∀ e ∈ exPlanFanOut.net_topo.peer_machine_ids,
      e.2.machine_id.Sorted (· < ·) ∧ e.2.machine_id.Nodup :=
  ⟨rfl, GenNetTopo_peers_ascending exPlanFan exPlanFanOut rfl⟩

/-- A run of `Compile` on concrete collaborators: of the three nodes the
meaningless one is skipped, the plan receives the descriptors of `A` and `B`
in this order, and the phase calls come in program order. -/
theorem Compile_concrete_run :
    (Compile exCollaborators exJobDesc { WITH_XLA := false, use_xla_jit := false } exJob
      { task := [], job_id2job_conf := [], net_topo := { peer_machine_ids := [] } } true).map
      (fun res => (res.plan.task, res.calls.filter Call.isPhase)) =
    .ok ([exTaskA, exTaskB],
      [Call.ProduceAllRegstsAndBindEdges 0, Call.ProduceAllRegstsAndBindEdges 1,
       Call.ProduceAllRegstsAndBindEdges 2,
       Call.ConsumeAllRegsts 0, Call.ConsumeAllRegsts 1, Call.ConsumeAllRegsts 2,
       Call.PinConsumedRegst 0, Call.PinConsumedRegst 1, Call.PinConsumedRegst 2,
       Call.Build 0, Call.Build 1, Call.Build 2,
       Call.RemoveEmptyRegsts, Call.AddOrderingCtrlEdgeInSameChain,
       Call.EnableMemSharingInReduceStruct, Call.EnableInplaceMemSharing,
       Call.InferTimeShapeIfMeaningful 0, Call.InferTimeShapeIfMeaningful 1,
       Call.InferTimeShapeIfMeaningful 2,
       Call.ToProto 0, Call.ToProto 2]) := by
  rfl

/-! ## Later claims about `Compile` -/

theorem find_setJobConf {JobConf : Type} (job_id : Int) (job_conf : JobConf)
    (m : List (Int × JobConf)) (k : Int) :
    HashMap.find (setJobConf job_id job_conf m) k =
      if k = job_id then some job_conf else HashMap.find m k := by
  induction m with
  | nil => simp [setJobConf, HashMap.find]
  | cons e rest ih =>
    obtain ⟨k', v⟩ := e
    unfold setJobConf
    by_cases h1 : k' = job_id
    · subst h1
      simp only [if_true, HashMap.find]
      split_ifs <;> rfl
    · simp only [h1, if_false, HashMap.find, ih]
      by_cases h2 : k = k'
      · subst h2
        simp [h1]
      · simp [h2]

theorem OpGraphSlot.replay_append {TaskNode : Type} (l1 l2 : List (Call TaskNode))
    (present : Bool) :
    OpGraphSlot.replay (l1 ++ l2) present =
      (OpGraphSlot.replay l1 present).bind (OpGraphSlot.replay l2) := by
  induction l1 generalizing present with
  | nil => simp [OpGraphSlot.replay]
  | cons c rest ih =>
    simp only [List.cons_append, OpGraphSlot.replay]
    cases OpGraphSlot.step present c with
    | none => simp
    | some p => simp [ih]

theorem OpGraphSlot.replay_keepsSlot {TaskNode : Type} (l : List (Call TaskNode))
    (h : ∀ call ∈ l, call.keepsSlot = true) :
    OpGraphSlot.replay l true = some true := by
  induction l with
  | nil => simp [OpGraphSlot.replay]
  | cons c rest ih =>
    have hc := h c (List.mem_cons_self _ _)
    have hstep : OpGraphSlot.step true c = some true := by
      cases c <;> simp_all [OpGraphSlot.step, Call.keepsSlot]
    simp only [OpGraphSlot.replay, hstep]
    exact ih fun call hcall => h call (List.mem_cons_of_mem _ hcall)

theorem keepsSlot_of_mem_map {TaskNode : Type} (f : TaskNode → Call TaskNode)
    (hf : ∀ n, (f n).keepsSlot = true) (nodes : List TaskNode) :
    ∀ call ∈ nodes.map f, call.keepsSlot = true := by
  intro call hcall
  obtain ⟨n, -, rfl⟩ := List.mem_map.1 hcall
  exact hf n

theorem callsOfPhases_keepsSlot {T : Types} (c : Collaborators T) (enable_inplace : Bool)
    (job : T.Job) : ∀ call ∈ callsOfPhases c enable_inplace job, call.keepsSlot = true := by
  intro call hcall
  unfold callsOfPhases at hcall
  simp only [List.mem_append] at hcall
  rcases hcall with
    (((((hcall | hcall) | hcall) | hcall) | hcall) | hcall) | hcall
  · exact keepsSlot_of_mem_map Call.ProduceAllRegstsAndBindEdges (fun _ => rfl) _ call hcall
  · exact keepsSlot_of_mem_map Call.ConsumeAllRegsts (fun _ => rfl) _ call hcall
  · exact keepsSlot_of_mem_map Call.PinConsumedRegst (fun _ => rfl) _ call hcall
  · exact keepsSlot_of_mem_map Call.Build (fun _ => rfl) _ call hcall
  · simp only [List.mem_cons, List.mem_singleton, List.not_mem_nil, or_false] at hcall
    rcases hcall with rfl | rfl | rfl <;> rfl
  · cases enable_inplace
    · simp at hcall
    · simp only [if_true, List.mem_cons, List.mem_singleton, List.not_mem_nil,
        or_false] at hcall
      rcases hcall with rfl | rfl <;> rfl
  · exact keepsSlot_of_mem_map Call.InferTimeShapeIfMeaningful (fun _ => rfl) _ call hcall

/-- C11: `Compile` always returns, its trace holds no call of `GenNetTopo`, and the plan
it leaves differs from the plan it was handed only by the appended task
descriptors and the configuration stored under the job id: `net_topo` is the
one of the entry plan. -/
theorem Compile_keeps_net_topo {T : Types} (c : Collaborators T)
    (job_desc : JobDesc T.JobConf) (flags : XlaFlags) (job : T.Job) (plan : Plan T.JobConf)
    (need_job_complete : Bool) :
    ∃ res, Compile c job_desc flags job plan need_job_complete = .ok res ∧
      Call.GenNetTopo ∉ res.calls ∧
      res.plan.net_topo = plan.net_topo ∧
      res.plan.task = plan.task ++ (meaningfulNodes c res.task_gph).map (c.ToProto res.task_gph) ∧
      res.plan.job_id2job_conf =
        setJobConf job_desc.job_id job_desc.job_conf plan.job_id2job_conf ∧
      ∀ k, HashMap.find res.plan.job_id2job_conf k =
        if k = job_desc.job_id then some job_desc.job_conf
        else HashMap.find plan.job_id2job_conf k := by
  refine ⟨_, Compile_eq c job_desc flags job plan need_job_complete, ?_, rfl, rfl, rfl, ?_⟩
  · simp only [callsBeforeXla, callsOfXla, callsOfPhases]
    cases need_job_complete <;> cases flags.WITH_XLA <;> cases flags.use_xla_jit <;>
      cases job_desc.enable_inplace <;> simp
  · intro k
    exact find_setJobConf _ _ _ k

/-- C12: with no `OpGraph` on entry, the trace of `Compile` never creates an `OpGraph` while
one exists, never deletes one while none exists, runs every phase of the task
graph while one exists, and ends with none; when the JIT pass rewrites the
job, the first `OpGraph` is deleted and a new one is created right after the
rewrite and right before the `LogicalGraph` is built, and the job the graphs
are built from is the rewritten job. -/
theorem Compile_OpGraph_lifecycle {T : Types} (c : Collaborators T)
    (job_desc : JobDesc T.JobConf) (flags : XlaFlags) (job : T.Job) (plan : Plan T.JobConf)
    (need_job_complete : Bool) :
    (∃ res, Compile c job_desc flags job plan need_job_complete = .ok res ∧
      OpGraphSlot.replay res.calls false = some false ∧ res.global_OpGraph = none) ∧
    (∃ res pre post,
      Compile c job_desc { WITH_XLA := true, use_xla_jit := true } job plan
        need_job_complete = .ok res ∧
      res.calls = pre ++
        [Call.RebuildXlaCompiledJob,
         Call.TeePersistentLogStream_Write ("job_with_xla" ++ toString job_desc.job_id),
         Call.OpGraph_Delete, Call.OpGraph_New, Call.LogicalGraph_new] ++ post ∧
      (∀ call ∈ pre, call ≠ Call.LogicalGraph_new) ∧
      res.job =
        c.RebuildXlaCompiledJob
          (c.RunOptimizePass "BuildSubGraph"
            { minimum_nodes_in_cluster := 1, maximum_nodes_in_cluster := 50 }
            (c.RunOptimizePass "MarkClusterId"
              { minimum_nodes_in_cluster := 1, maximum_nodes_in_cluster := 50 }
              (c.XlaGraph_new
                (c.OpGraph_new (if need_job_complete then c.Complete job else job)))))
          (if need_job_complete then c.Complete job else job) ∧
      res.task_gph = graphAfterTimeShape c job_desc.enable_inplace res.job) := by
  refine ⟨⟨_, Compile_eq c job_desc flags job plan need_job_complete, ?_, rfl⟩, ?_⟩
  · generalize jobAfterXla c flags (if need_job_complete then c.Complete job else job) = J
    have h1 := OpGraphSlot.replay_keepsSlot _
      (callsOfPhases_keepsSlot c job_desc.enable_inplace J)
    have h2 := OpGraphSlot.replay_keepsSlot _
      (keepsSlot_of_mem_map (Call.ToProto) (fun _ => rfl)
        (meaningfulNodes c (graphAfterTimeShape c job_desc.enable_inplace J)))
    simp only [OpGraphSlot.replay_append, callsBeforeXla, callsOfXla]
    cases need_job_complete <;> cases flags.WITH_XLA <;> cases flags.use_xla_jit <;>
      simp [OpGraphSlot.replay, OpGraphSlot.step, Call.isPhase, h1, h2]
  · refine ⟨_,
      callsBeforeXla job_desc need_job_complete ++
        [Call.TeePersistentLogStream_Write ("job_without_xla" ++ toString job_desc.job_id),
         Call.XlaGraph_new, Call.RunOptimizePass "MarkClusterId",
         Call.RunOptimizePass "BuildSubGraph"],
      [Call.TaskGraph_new] ++
        callsOfPhases c job_desc.enable_inplace
          (jobAfterXla c { WITH_XLA := true, use_xla_jit := true }
            (if need_job_complete then c.Complete job else job)) ++
        (meaningfulNodes c (graphAfterTimeShape c job_desc.enable_inplace
          (jobAfterXla c { WITH_XLA := true, use_xla_jit := true }
            (if need_job_complete then c.Complete job else job)))).map Call.ToProto ++
        [Call.OpGraph_Delete],
      Compile_eq c job_desc _ job plan need_job_complete, ?_, ?_, ?_, rfl⟩
    · simp only [callsOfXla, if_true, List.append_assoc, List.cons_append, List.nil_append,
        List.singleton_append]
    · simp only [callsBeforeXla]
      cases need_job_complete <;> simp
    · simp [jobAfterXla]

/-! ## Later claims about `GenNetTopo` -/

theorem producerMachineUnique_of_unique {tasks : List TaskProto} (hu : UniqueProducers tasks) :
    ProducerMachineUnique tasks := by
  intro t1 ht1 t2 ht2 r1 hr1 r2 hr2 hid
  rw [hu t1 ht1 t2 ht2 r1 hr1 r2 hr2 hid]

theorem producerMid_of_machineUnique (tasks : List TaskProto) (hu : ProducerMachineUnique tasks)
    (t : TaskProto) (ht : t ∈ tasks) (r : String × RegstDescProto)
    (hr : r ∈ t.produced_regst_desc) :
    producerMid tasks r.2.regst_desc_id = some t.machine_id := by
  cases hf : producerMid tasks r.2.regst_desc_id with
  | none => exact absurd hf (producerMid_ne_none tasks t ht r hr)
  | some pm =>
    obtain ⟨t2, ht2, r2, hr2, hrid, hmid⟩ :=
      (mem_ridEntries tasks _ _).1 (HashMap.mem_of_find _ _ _ hf)
    rw [← hmid, hu t2 ht2 t ht r2 hr2 r hr hrid]

theorem edge_iff_regstJoins (tasks : List TaskProto)
    (hn : (tasks.map TaskProto.task_id).Nodup) (hu : ProducerMachineUnique tasks) (a b : Int) :
    Edge tasks a b ↔ RegstJoins tasks a b := by
  unfold Edge RegstJoins
  constructor
  · rintro ⟨t, ht, r, hr, pm, hpm, c, hc, cm, hcm, hj⟩
    rw [producerMid_of_machineUnique _ hu t ht r hr, Option.some.injEq] at hpm
    obtain ⟨t', ht', hid, hmid⟩ := (consumerMid_eq_some_iff _ hn c cm).1 hcm
    subst hpm hmid
    exact ⟨t, ht, r, hr, c, hc, t', ht', hid, hj⟩
  · rintro ⟨t, ht, r, hr, c, hc, t', ht', hid, hj⟩
    exact ⟨t, ht, r, hr, _, producerMid_of_machineUnique _ hu t ht r hr, c, hc, _,
      (consumerMid_eq_some_iff _ hn c _).2 ⟨t', ht', hid, rfl⟩, hj⟩

theorem touched_iff (tasks : List TaskProto)
    (hn : (tasks.map TaskProto.task_id).Nodup) (hu : ProducerMachineUnique tasks)
    (hk : ConsumersKnown tasks) (a : Int) :
    Touched tasks a ↔ ProducesConsumed tasks a ∨ ConsumesSome tasks a := by
  unfold Touched ProducesConsumed ConsumesSome
  constructor
  · rintro ⟨t, ht, r, hr, pm, hpm, c, hc, cm, hcm, hj⟩
    rw [producerMid_of_machineUnique _ hu t ht r hr, Option.some.injEq] at hpm
    obtain ⟨t', ht', hid, hmid⟩ := (consumerMid_eq_some_iff _ hn c cm).1 hcm
    rcases hj with rfl | rfl
    · exact Or.inl ⟨t, ht, hpm, r, hr, List.ne_nil_of_mem hc⟩
    · exact Or.inr ⟨t, ht, r, hr, c, hc, t', ht', hid, hmid⟩
  · rintro (⟨t, ht, rfl, r, hr, hne⟩ | ⟨t, ht, r, hr, c, hc, t', ht', hid, rfl⟩)
    · obtain ⟨c, cs, hcs⟩ := List.exists_cons_of_ne_nil hne
      have hc : c ∈ r.2.consumer_task_id := by simp [hcs]
      obtain ⟨t', ht', hid⟩ := hk t ht r hr c hc
      exact ⟨t, ht, r, hr, _, producerMid_of_machineUnique _ hu t ht r hr, c, hc, _,
        (consumerMid_eq_some_iff _ hn c _).2 ⟨t', ht', hid, rfl⟩, Or.inl rfl⟩
    · exact ⟨t, ht, r, hr, _, producerMid_of_machineUnique _ hu t ht r hr, c, hc, _,
        (consumerMid_eq_some_iff _ hn c _).2 ⟨t', ht', hid, rfl⟩, Or.inr rfl⟩

theorem sorted_ext (l1 l2 : List Int) (h1 : l1.Sorted (· < ·)) (h2 : l2.Sorted (· < ·))
    (hm : ∀ x, x ∈ l1 ↔ x ∈ l2) : l1 = l2 :=
  List.eq_of_perm_of_sorted ((List.perm_ext_iff_of_nodup h1.nodup h2.nodup).2 hm) h1 h2

theorem StdMap.ext_of_keys (nt1 nt2 : List (Int × List Int)) (h1 : StdMap.WF nt1)
    (h2 : StdMap.WF nt2) (hk : nt1.map Prod.fst = nt2.map Prod.fst)
    (hl : ∀ a b, Linked nt1 a b ↔ Linked nt2 a b) : nt1 = nt2 := by
  induction nt1 generalizing nt2 with
  | nil =>
    cases nt2 with
    | nil => rfl
    | cons e rest => simp at hk
  | cons e1 r1 ih =>
    cases nt2 with
    | nil => simp at hk
    | cons e2 r2 =>
      obtain ⟨k1, s1⟩ := e1
      obtain ⟨k2, s2⟩ := e2
      simp only [List.map_cons, List.cons.injEq] at hk
      obtain ⟨hk1, hk2⟩ := hk
      subst hk1
      have hw1 : StdMap.WF r1 :=
        ⟨(List.sorted_cons.1 h1.1).2, fun e he => h1.2 e (List.mem_cons_of_mem _ he)⟩
      have hw2 : StdMap.WF r2 :=
        ⟨(List.sorted_cons.1 h2.1).2, fun e he => h2.2 e (List.mem_cons_of_mem _ he)⟩
      have hnot1 : ∀ b, ¬ Linked r1 k1 b := by
        rintro b ⟨s, hs, -⟩
        have := (List.sorted_cons.1 h1.1).1 k1 (List.mem_map.2 ⟨(k1, s), hs, rfl⟩)
        exact lt_irrefl _ this
      have hnot2 : ∀ b, ¬ Linked r2 k1 b := by
        rintro b ⟨s, hs, -⟩
        have := (List.sorted_cons.1 h2.1).1 k1 (List.mem_map.2 ⟨(k1, s), hs, rfl⟩)
        exact lt_irrefl _ this
      have hs : s1 = s2 := by
        refine sorted_ext s1 s2 (h1.2 (k1, s1) (List.mem_cons_self _ _))
          (h2.2 (k1, s2) (List.mem_cons_self _ _)) (fun b => ?_)
        have := hl k1 b
        simp only [linked_cons, true_and, hnot1 b, hnot2 b, or_false] at this
        exact this
      have hr : r1 = r2 := by
        refine ih r2 hw1 hw2 hk2 (fun a b => ?_)
        have := hl a b
        simp only [linked_cons] at this
        by_cases ha : a = k1
        · subst ha
          exact ⟨fun h => absurd h (hnot1 b), fun h => absurd h (hnot2 b)⟩
        · simpa [ha] using this
      rw [hs, hr]

theorem StdMap.ext (nt1 nt2 : List (Int × List Int)) (h1 : StdMap.WF nt1) (h2 : StdMap.WF nt2)
    (hk : ∀ a, a ∈ nt1.map Prod.fst ↔ a ∈ nt2.map Prod.fst)
    (hl : ∀ a b, Linked nt1 a b ↔ Linked nt2 a b) : nt1 = nt2 :=
  StdMap.ext_of_keys nt1 nt2 h1 h2 (sorted_ext _ _ h1.1 h2.1 hk) hl

theorem forall₂_perm_fwd {α β : Type} {R : α → β → Prop} {l1 l : List α} {l2 : List β}
    (hp : l1.Perm l) (hf : List.Forall₂ R l l2) : ∀ x ∈ l1, ∃ y ∈ l2, R x y := by
  intro x hx
  have hx' : x ∈ l := hp.mem_iff.1 hx
  clear hp hx
  induction hf with
  | nil => simp at hx'
  | cons hab _ ih =>
    rcases List.mem_cons.1 hx' with rfl | h
    · exact ⟨_, List.mem_cons_self _ _, hab⟩
    · obtain ⟨y, hy, hr⟩ := ih h
      exact ⟨y, List.mem_cons_of_mem _ hy, hr⟩

theorem forall₂_perm_bwd {α β : Type} {R : α → β → Prop} {l1 l : List α} {l2 : List β}
    (hp : l1.Perm l) (hf : List.Forall₂ R l l2) : ∀ y ∈ l2, ∃ x ∈ l1, R x y := by
  intro y hy
  have key : ∃ x ∈ l, R x y := by
    clear hp
    induction hf with
    | nil => simp at hy
    | cons hab _ ih =>
      rcases List.mem_cons.1 hy with rfl | h
      · exact ⟨_, List.mem_cons_self _ _, hab⟩
      · obtain ⟨x, hx, hr⟩ := ih h
        exact ⟨x, List.mem_cons_of_mem _ hx, hr⟩
  obtain ⟨x, hx, hr⟩ := key
  exact ⟨x, hp.mem_iff.2 hx, hr⟩

theorem SameUpToOrder.covers {tasks1 tasks2 : List TaskProto}
    (h : SameUpToOrder tasks1 tasks2) : Covers tasks1 tasks2 ∧ Covers tasks2 tasks1 := by
  obtain ⟨l, hp, hf⟩ := h
  constructor
  · intro t1 ht1
    obtain ⟨t2, ht2, hid, hmid, lr, hpr, hfr⟩ := forall₂_perm_fwd hp hf t1 ht1
    refine ⟨t2, ht2, hid, hmid, ?_⟩
    intro e1 he1
    obtain ⟨e2, he2, -, hrid, hcs⟩ := forall₂_perm_fwd hpr hfr e1 he1
    exact ⟨e2, he2, hrid, fun c => hcs.mem_iff⟩
  · intro t2 ht2
    obtain ⟨t1, ht1, hid, hmid, lr, hpr, hfr⟩ := forall₂_perm_bwd hp hf t2 ht2
    refine ⟨t1, ht1, hid.symm, hmid.symm, ?_⟩
    intro e2 he2
    obtain ⟨e1, he1, -, hrid, hcs⟩ := forall₂_perm_bwd hpr hfr e2 he2
    exact ⟨e1, he1, hrid.symm, fun c => hcs.mem_iff.symm⟩

theorem SameUpToOrder.task_ids {tasks1 tasks2 : List TaskProto}
    (h : SameUpToOrder tasks1 tasks2) :
    (tasks1.map TaskProto.task_id).Perm (tasks2.map TaskProto.task_id) := by
  obtain ⟨l, hp, hf⟩ := h
  have : l.map TaskProto.task_id = tasks2.map TaskProto.task_id := by
    clear hp
    induction hf with
    | nil => rfl
    | cons hab _ ih => simp [hab.1, ih]
  rw [← this]
  exact hp.map _

theorem Covers.regstJoins {tasks1 tasks2 : List TaskProto} (h : Covers tasks1 tasks2)
    {a b : Int} (hj : RegstJoins tasks1 a b) : RegstJoins tasks2 a b := by
  obtain ⟨t, ht, r, hr, c, hc, t', ht', hid, hj⟩ := hj
  obtain ⟨u, hu, -, hmid, hregs⟩ := h t ht
  obtain ⟨e, he, -, hcs⟩ := hregs r hr
  obtain ⟨u', hu', hid', hmid', -⟩ := h t' ht'
  exact ⟨u, hu, e, he, c, (hcs c).1 hc, u', hu', hid' ▸ hid, hmid ▸ hmid' ▸ hj⟩

theorem Covers.producesConsumed {tasks1 tasks2 : List TaskProto} (h : Covers tasks1 tasks2)
    {m : Int} (hp : ProducesConsumed tasks1 m) : ProducesConsumed tasks2 m := by
  obtain ⟨t, ht, hm, r, hr, hne⟩ := hp
  obtain ⟨u, hu, -, hmid, hregs⟩ := h t ht
  obtain ⟨e, he, -, hcs⟩ := hregs r hr
  obtain ⟨c, cs, hc⟩ := List.exists_cons_of_ne_nil hne
  have hmem : c ∈ e.2.consumer_task_id := (hcs c).1 (by simp [hc])
  exact ⟨u, hu, hmid ▸ hm, e, he, List.ne_nil_of_mem hmem⟩

theorem Covers.consumesSome {tasks1 tasks2 : List TaskProto} (h : Covers tasks1 tasks2)
    {m : Int} (hp : ConsumesSome tasks1 m) : ConsumesSome tasks2 m := by
  obtain ⟨t, ht, r, hr, c, hc, t', ht', hid, hm⟩ := hp
  obtain ⟨u, hu, -, -, hregs⟩ := h t ht
  obtain ⟨e, he, -, hcs⟩ := hregs r hr
  obtain ⟨u', hu', hid', hmid', -⟩ := h t' ht'
  exact ⟨u, hu, e, he, c, (hcs c).1 hc, u', hu', hid' ▸ hid, hmid' ▸ hm⟩

theorem Covers.consumersKnown {tasks1 tasks2 : List TaskProto} (h12 : Covers tasks1 tasks2)
    (h21 : Covers tasks2 tasks1) (hk : ConsumersKnown tasks1) : ConsumersKnown tasks2 := by
  intro t2 ht2 r2 hr2 c hc
  obtain ⟨t1, ht1, -, -, hregs⟩ := h21 t2 ht2
  obtain ⟨r1, hr1, -, hcs⟩ := hregs r2 hr2
  obtain ⟨t', ht', hid⟩ := hk t1 ht1 r1 hr1 c ((hcs c).1 hc)
  obtain ⟨u', hu', hid', -, -⟩ := h12 t' ht'
  exact ⟨u', hu', hid' ▸ hid⟩

theorem Covers.producerMachineUnique {tasks1 tasks2 : List TaskProto}
    (h21 : Covers tasks2 tasks1) (hu : ProducerMachineUnique tasks1) :
    ProducerMachineUnique tasks2 := by
  intro t ht t' ht' r hr r' hr' hid
  obtain ⟨u, hu1, -, hmid, hregs⟩ := h21 t ht
  obtain ⟨e, he, hrid, -⟩ := hregs r hr
  obtain ⟨u', hu1', -, hmid', hregs'⟩ := h21 t' ht'
  obtain ⟨e', he', hrid', -⟩ := hregs' r' hr'
  rw [hmid, hmid']
  exact hu u hu1 u' hu1' e he e' he' (by rw [← hrid, ← hrid', hid])

/-- C13: when `GenNetTopo` succeeds on a plan in which every register descriptor id is
produced by exactly one task, it succeeds on every plan that differs only in
the order of the tasks, of the register entries of a task and of the consumers
of a register, and writes the same topology: the same entries, in the same
order, with the same peer lists. -/
theorem GenNetTopo_order_independent {JobConf : Type} (plan1 plan2 out1 : Plan JobConf)
    (hok : GenNetTopo plan1 = .ok out1) (hu : UniqueProducers plan1.task)
    (hsame : SameUpToOrder plan1.task plan2.task) :
    ∃ out2, GenNetTopo plan2 = .ok out2 ∧ out2.net_topo = out1.net_topo := by
  obtain ⟨hn1, hk1⟩ := (GenNetTopo_ok_iff plan1).1 ⟨out1, hok⟩
  obtain ⟨h12, h21⟩ := hsame.covers
  have hn2 : (plan2.task.map TaskProto.task_id).Nodup := hsame.task_ids.nodup_iff.1 hn1
  have hk2 : ConsumersKnown plan2.task := h12.consumersKnown h21 hk1
  have hu1 := producerMachineUnique_of_unique hu
  have hu2 : ProducerMachineUnique plan2.task := h21.producerMachineUnique hu1
  obtain ⟨out2, hok2⟩ := (GenNetTopo_ok_iff plan2).2 ⟨hn2, hk2⟩
  refine ⟨out2, hok2, ?_⟩
  obtain ⟨nt1, hw1, rfl, hl1, hkeys1⟩ := GenNetTopo_spec hok
  obtain ⟨nt2, hw2, rfl, hl2, hkeys2⟩ := GenNetTopo_spec hok2
  have : nt2 = nt1 := by
    refine StdMap.ext nt2 nt1 hw2 hw1 (fun a => ?_) (fun a b => ?_)
    · rw [hkeys1, hkeys2, touched_iff _ hn1 hu1 hk1, touched_iff _ hn2 hu2 hk2]
      constructor
      · rintro (h | h)
        · exact Or.inl (h21.producesConsumed h)
        · exact Or.inr (h21.consumesSome h)
      · rintro (h | h)
        · exact Or.inl (h12.producesConsumed h)
        · exact Or.inr (h12.consumesSome h)
    · rw [hl1, hl2, edge_iff_regstJoins _ hn1 hu1, edge_iff_regstJoins _ hn2 hu2]
      exact ⟨h21.regstJoins, h12.regstJoins⟩
  rw [this]

/-- C20: when `GenNetTopo` succeeds on a plan in which every register descriptor id is
produced by exactly one task, machine `m` is a key of `peer_machine_ids`
exactly when a task on `m` produces a register that has a consumer or a task
on `m` is listed as a consumer; a key none of whose registers joins it to
another machine has the empty peer list, and a machine whose tasks produce
only unconsumed registers and are listed nowhere is not a key. -/
theorem GenNetTopo_key_iff {JobConf : Type} (plan out : Plan JobConf)
    (hok : GenNetTopo plan = .ok out) (hu : UniqueProducers plan.task) (m : Int) :
    (m ∈ out.net_topo.peer_machine_ids.map Prod.fst ↔
      ProducesConsumed plan.task m ∨ ConsumesSome plan.task m) ∧
    ((ProducesConsumed plan.task m ∨ ConsumesSome plan.task m) →
      (∀ b, b ≠ m → ¬ RegstJoins plan.task m b) →
      (m, { machine_id := [] }) ∈ out.net_topo.peer_machine_ids) ∧
    (¬ ProducesConsumed plan.task m → ¬ ConsumesSome plan.task m →
      m ∉ out.net_topo.peer_machine_ids.map Prod.fst) := by
  obtain ⟨hn, hk⟩ := (GenNetTopo_ok_iff plan).1 ⟨out, hok⟩
  have hu1 := producerMachineUnique_of_unique hu
  obtain ⟨nt, hw, rfl, hl, hkeys⟩ := GenNetTopo_spec hok
  have hiff : m ∈ (nt.map stripSelf).map Prod.fst ↔
      ProducesConsumed plan.task m ∨ ConsumesSome plan.task m := by
    rw [keys_map_stripSelf, hkeys, touched_iff _ hn hu1 hk]
  refine ⟨hiff, ?_, ?_⟩
  · intro hm hstay
    obtain ⟨e, he, hfst⟩ := List.mem_map.1 (hiff.2 hm)
    obtain ⟨k, ids⟩ := e
    simp only at hfst
    subst hfst
    have hnil : ids.machine_id = [] := by
      rw [List.eq_nil_iff_forall_not_mem]
      intro b hb
      have hp : NetTopo.HasPeer { peer_machine_ids := nt.map stripSelf } k b := ⟨ids, he, hb⟩
      rw [hasPeer_strip nt hw, hl, edge_iff_regstJoins _ hn hu1] at hp
      exact hstay b hp.2 hp.1
    have : ids = { machine_id := [] } := by
      cases ids
      simp only at hnil
      rw [hnil]
    rw [← this]
    exact he
  · intro h1 h2 hmem
    rcases hiff.1 hmem with h | h
    · exact h1 h
    · exact h2 h

/-! ## Claims about `nd_indices_util.h` -/

theorem FOR_RANGE.loop_mul (shape : Int → Int) (count : Nat) (i s : Int) :
    FOR_RANGE.loop (fun j stride => stride * shape j) count i s =
      s * Finset.prod (Finset.range count) fun t => shape (i + t) := by
  induction count generalizing i s with
  | zero => simp [FOR_RANGE.loop]
  | succ k ih =>
    rw [FOR_RANGE.loop, ih, Finset.prod_range_succ']
    have : ∀ t : Nat, shape (i + 1 + (t : Int)) = shape (i + ((t + 1 : Nat) : Int)) := by
      intro t
      congr 1
      push_cast
      ring
    simp only [this, Nat.cast_zero, add_zero]
    ring

theorem FOR_RANGE.loop_add (f : Int → Int) (count : Nat) (i s : Int) :
    FOR_RANGE.loop (fun j acc => acc + f j) count i s =
      s + Finset.sum (Finset.range count) fun t => f (i + t) := by
  induction count generalizing i s with
  | zero => simp [FOR_RANGE.loop]
  | succ k ih =>
    rw [FOR_RANGE.loop, ih, Finset.sum_range_succ']
    have : ∀ t : Nat, f (i + 1 + (t : Int)) = f (i + ((t + 1 : Nat) : Int)) := by
      intro t
      congr 1
      push_cast
      ring
    simp only [this, Nat.cast_zero, add_zero]
    ring

theorem flattenSum_eq_horner (c : Nat → Int) (shape : Int → Int) (d : Nat) :
    flattenSum c shape d = flattenHorner c shape d := by
  induction d with
  | zero => simp [flattenSum, flattenHorner]
  | succ d ih =>
    rw [flattenHorner, ← ih]
    unfold flattenSum
    rw [Finset.sum_range_succ, Finset.sum_mul]
    congr 1
    · refine Finset.sum_congr rfl (fun i hi => ?_)
      have hle : i + 1 ≤ d := Finset.mem_range.1 hi
      rw [Finset.prod_Ico_succ_top hle, mul_assoc]
    · simp

theorem int64_of_isInt64 {x : Int} (h : IsInt64 x) : int64 x = x := by
  unfold IsInt64 at h
  unfold int64
  omega

theorem int64_modEq (x : Int) : int64 x ≡ x [ZMOD 18446744073709551616] := by
  unfold int64 Int.ModEq
  omega

theorem int64_congr {a b : Int} (h : a ≡ b [ZMOD 18446744073709551616]) :
    int64 a = int64 b := by
  unfold Int.ModEq at h
  unfold int64
  omega

theorem FOR_RANGE.loop_modEq (m : Int) (body1 body2 : Int → Int → Int)
    (hbody : ∀ i s1 s2, s1 ≡ s2 [ZMOD m] → body1 i s1 ≡ body2 i s2 [ZMOD m])
    (count : Nat) (i s1 s2 : Int) (hs : s1 ≡ s2 [ZMOD m]) :
    FOR_RANGE.loop body1 count i s1 ≡ FOR_RANGE.loop body2 count i s2 [ZMOD m] := by
  induction count generalizing i s1 s2 with
  | zero => exact hs
  | succ k ih => exact ih (i + 1) _ _ (hbody i s1 s2 hs)

theorem IndicesOffset.exactOffset_eq_sum (segms_size segm_dims : Int)
    (shape cur_ids_ptr : Int → Int) :
    IndicesOffset.exactOffset segms_size segm_dims shape cur_ids_ptr =
      segms_size * flattenSum (fun i => cur_ids_ptr i) shape segm_dims.toNat := by
  unfold IndicesOffset.exactOffset FOR_RANGE
  simp only [FOR_RANGE.loop_mul, FOR_RANGE.loop_add, sub_zero, zero_add]
  unfold flattenSum
  rw [Finset.mul_sum]
  refine Finset.sum_congr rfl (fun i hi => ?_)
  have hi' : i < segm_dims.toNat := Finset.mem_range.1 hi
  have hcount : (segm_dims - ((i : Int) + 1)).toNat = segm_dims.toNat - (i + 1) := by
    omega
  rw [hcount, Finset.prod_Ico_eq_prod_range]
  have : ∀ t : Nat, shape ((i : Int) + 1 + (t : Int)) = shape ((i + 1 + t : Nat) : Int) := by
    intro t
    rw [Nat.cast_add, Nat.cast_add, Nat.cast_one]
  simp only [this]
  ring

/-- What `IndicesOffset::Compute` returns in general: the exact value of the row-major
formula, over the tuple that line 40 points at, reduced to `int64_t`. -/
theorem IndicesOffset.Compute_eq_int64 (segms_size segm_dims : Int) (shape indices : Int → Int)
    (n : Int) (hs : 0 < segms_size) (hn : 0 ≤ n) :
    IndicesOffset.Compute segms_size segm_dims shape indices n =
      int64
        (segms_size *
          flattenSum (fun i => indices (int64 (n / segms_size * segm_dims) + i)) shape
            segm_dims.toNat +
        n % segms_size) := by
  rw [← IndicesOffset.exactOffset_eq_sum segms_size segm_dims shape
    (fun i => indices (int64 (n / segms_size * segm_dims) + i))]
  unfold IndicesOffset.Compute IndicesOffset.exactOffset FOR_RANGE
  simp only [Int.tdiv_eq_ediv hn hs.le, Int.tmod_eq_emod hn hs.le]
  refine int64_congr (Int.ModEq.add_right _ ?_)
  refine FOR_RANGE.loop_modEq _ _ _ ?_ _ _ _ _ (Int.ModEq.refl 0)
  intro i s1 s2 h12
  refine (int64_modEq _).trans (Int.ModEq.add h12 ((int64_modEq _).trans ?_))
  refine Int.ModEq.mul_left _ ?_
  refine FOR_RANGE.loop_modEq _ _ _ ?_ _ _ _ _ (Int.ModEq.refl segms_size)
  intro j t1 t2 ht
  exact (int64_modEq _).trans (Int.ModEq.mul_right _ ht)

theorem IndicesOffset.Compute_eq_sum (segms_size segm_dims : Int) (shape indices : Int → Int)
    (n : Int) (hs : 0 < segms_size) (hn : 0 ≤ n)
    (hbase : IsInt64 (n / segms_size * segm_dims))
    (hfit : IsInt64
      (segms_size *
          flattenSum (indexTuple segms_size segm_dims indices n) shape segm_dims.toNat +
        n % segms_size)) :
    IndicesOffset.Compute segms_size segm_dims shape indices n =
      segms_size *
        flattenSum (indexTuple segms_size segm_dims indices n) shape segm_dims.toNat +
      n % segms_size := by
  rw [IndicesOffset.Compute_eq_int64 _ _ _ _ _ hs hn, int64_of_isInt64 hbase]
  exact int64_of_isInt64 hfit

theorem flattenSum_congr (c : Nat → Int) (shape1 shape2 : Int → Int) (d : Nat)
    (h : ∀ j : Nat, 1 ≤ j → shape1 j = shape2 j) :
    flattenSum c shape1 d = flattenSum c shape2 d := by
  unfold flattenSum
  refine Finset.sum_congr rfl (fun i _ => ?_)
  congr 1
  refine Finset.prod_congr rfl (fun j hj => ?_)
  exact h j (by have := (Finset.mem_Ico.1 hj).1; omega)

theorem flattenHorner_bounds (c : Nat → Int) (shape : Int → Int) (d : Nat)
    (hc : ∀ i : Nat, i < d → 0 ≤ c i ∧ c i < shape i) :
    0 ≤ flattenHorner c shape d ∧
      flattenHorner c shape d < Finset.prod (Finset.range d) fun i => shape i := by
  induction d with
  | zero => simp [flattenHorner]
  | succ d ih =>
    obtain ⟨h0, h1⟩ := ih (fun i hi => hc i (Nat.lt_succ_of_lt hi))
    obtain ⟨hc0, hc1⟩ := hc d (Nat.lt_succ_self d)
    rw [flattenHorner, Finset.prod_range_succ]
    have hpos : 0 < shape d := lt_of_le_of_lt hc0 hc1
    constructor
    · positivity
    · nlinarith

theorem FOR_RANGE.loop_frame {T : Type} (func : T → T → T) (off : Int → Int) (sparse : Int → T)
    (count : Nat) (i : Int) (dense : Int → T) (p : Int)
    (hp : ∀ t : Nat, t < count → off (i + t) ≠ p) :
    FOR_RANGE.loop
      (fun i dense => Function.update dense (off i) (func (sparse i) (dense (off i))))
      count i dense p = dense p := by
  induction count generalizing i dense with
  | zero => rfl
  | succ k ih =>
    rw [FOR_RANGE.loop, ih]
    · have h0 := hp 0 (Nat.succ_pos k)
      simp only [Nat.cast_zero, add_zero] at h0
      exact Function.update_noteq (Ne.symm h0) _ _
    · intro t ht
      have := hp (t + 1) (Nat.succ_lt_succ ht)
      have e : i + 1 + (t : Int) = i + ((t + 1 : Nat) : Int) := by push_cast; ring
      rwa [e]

theorem FOR_RANGE.loop_last_write {T : Type} (off : Int → Int) (sparse : Int → T)
    (count : Nat) (i : Int) (dense : Int → T) (t : Nat) (ht : t < count)
    (hlast : ∀ u : Nat, t < u → u < count → off (i + u) ≠ off (i + t)) :
    FOR_RANGE.loop
      (fun i dense =>
        Function.update dense (off i) (ScatterNdUpdate.Invoke (sparse i) (dense (off i))))
      count i dense (off (i + t)) = sparse (i + t) := by
  induction count generalizing i dense t with
  | zero => omega
  | succ k ih =>
    rw [FOR_RANGE.loop]
    cases t with
    | zero =>
      simp only [Nat.cast_zero, add_zero] at hlast ⊢
      rw [FOR_RANGE.loop_frame]
      · simp [ScatterNdUpdate.Invoke]
      · intro u hu
        have := hlast (u + 1) (Nat.succ_pos u) (Nat.succ_lt_succ hu)
        have e : i + 1 + (u : Int) = i + ((u + 1 : Nat) : Int) := by push_cast; ring
        rwa [e]
    | succ t =>
      have e : i + ((t + 1 : Nat) : Int) = i + 1 + (t : Int) := by push_cast; ring
      rw [e]
      refine ih (i + 1) _ t (Nat.lt_of_succ_lt_succ ht) ?_
      intro u hu1 hu2
      have := hlast (u + 1) (Nat.succ_lt_succ hu1) (Nat.succ_lt_succ hu2)
      have e2 : i + ((u + 1 : Nat) : Int) = i + 1 + (u : Int) := by push_cast; ring
      rwa [e2, e] at this

/-- C16, as amended: for `segms_size > 0`, `segm_dims ≥ 0` and `n ≥ 0`, when
`(n / segms_size) * segm_dims` and the value `segms_size * F + n mod segms_size` are
representable in `int64_t`, `IndicesOffset::Compute` returns that value, where `F` is
the row-major flattening of the index tuple selected for `n`, as a sum and by
Horner's rule; the value stored at `shape[0]` does not enter the result. -/
theorem IndicesOffset_Compute_row_major (segms_size segm_dims : Int)
    (shape indices : Int → Int) (n : Int) (hs : 0 < segms_size) (hd : 0 ≤ segm_dims)
    (hn : 0 ≤ n) (hbase : IsInt64 (n / segms_size * segm_dims))
    (hfit : IsInt64
      (segms_size *
          (Finset.sum (Finset.range segm_dims.toNat) fun i =>
            indices (n / segms_size * segm_dims + i) *
              Finset.prod (Finset.Ico (i + 1) segm_dims.toNat) fun j => shape j) +
        n % segms_size)) :
    IndicesOffset.Compute segms_size segm_dims shape indices n =
      segms_size *
        (Finset.sum (Finset.range segm_dims.toNat) fun i =>
          indices (n / segms_size * segm_dims + i) *
            Finset.prod (Finset.Ico (i + 1) segm_dims.toNat) fun j => shape j) +
      n % segms_size ∧
    (Finset.sum (Finset.range segm_dims.toNat) fun i =>
        indices (n / segms_size * segm_dims + i) *
          Finset.prod (Finset.Ico (i + 1) segm_dims.toNat) fun j => shape j) =
      flattenHorner (indexTuple segms_size segm_dims indices n) shape segm_dims.toNat ∧
    (segm_dims.toNat : Int) = segm_dims ∧
    ∀ x : Int,
      IndicesOffset.Compute segms_size segm_dims (Function.update shape 0 x) indices n =
        IndicesOffset.Compute segms_size segm_dims shape indices n := by
  refine ⟨IndicesOffset.Compute_eq_sum _ _ _ _ _ hs hn hbase hfit,
    flattenSum_eq_horner (indexTuple segms_size segm_dims indices n) shape _,
    Int.toNat_of_nonneg hd, ?_⟩
  intro x
  rw [IndicesOffset.Compute_eq_int64 _ _ _ _ _ hs hn,
    IndicesOffset.Compute_eq_int64 _ _ _ _ _ hs hn,
    flattenSum_congr _ (Function.update shape 0 x) shape]
  intro j hj
  exact Function.update_noteq (by omega) _ _

/-- C17, as amended: for `segms_size > 0` and `n ≥ 0`, when `(n / segms_size) * segm_dims`
and the element count `segms_size * shape[0] * ... * shape[segm_dims - 1]` are
representable in `int64_t` and every component of the index tuple selected for
`n` lies in `[0, shape[i])`, the offset returned by `IndicesOffset::Compute` lies in
`[0, segms_size * shape[0] * ... * shape[segm_dims - 1])`, so the write at
`dense + offset` falls inside a buffer of that many elements. -/
theorem IndicesOffset_Compute_in_bounds (segms_size segm_dims : Int)
    (shape indices : Int → Int) (n : Int) (hs : 0 < segms_size) (hn : 0 ≤ n)
    (hbase : IsInt64 (n / segms_size * segm_dims))
    (hsize : IsInt64
      (segms_size * Finset.prod (Finset.range segm_dims.toNat) fun i => shape i))
    (hc : ∀ i : Nat, i < segm_dims.toNat →
      0 ≤ indices (n / segms_size * segm_dims + i) ∧
        indices (n / segms_size * segm_dims + i) < shape i) :
    0 ≤ IndicesOffset.Compute segms_size segm_dims shape indices n ∧
      IndicesOffset.Compute segms_size segm_dims shape indices n <
        segms_size * Finset.prod (Finset.range segm_dims.toNat) fun i => shape i := by
  obtain ⟨h0, h1⟩ :=
    flattenHorner_bounds (indexTuple segms_size segm_dims indices n) shape segm_dims.toNat hc
  have hr0 := Int.emod_nonneg n (ne_of_gt hs)
  have hr1 := Int.emod_lt_of_pos n hs
  have hlo : 0 ≤ segms_size *
      flattenHorner (indexTuple segms_size segm_dims indices n) shape segm_dims.toNat +
        n % segms_size := by positivity
  have hhi : segms_size *
      flattenHorner (indexTuple segms_size segm_dims indices n) shape segm_dims.toNat +
        n % segms_size <
      segms_size * Finset.prod (Finset.range segm_dims.toNat) fun i => shape i := by
    nlinarith
  have hfit : IsInt64
      (segms_size *
          flattenSum (indexTuple segms_size segm_dims indices n) shape segm_dims.toNat +
        n % segms_size) := by
    rw [flattenSum_eq_horner]
    unfold IsInt64 at hsize ⊢
    constructor
    · linarith
    · linarith [hsize.2]
  rw [IndicesOffset.Compute_eq_sum _ _ _ _ _ hs hn hbase hfit, flattenSum_eq_horner]
  exact ⟨hlo, hhi⟩

/-- C18: with `func = ScatterNdUpdate`, after `ScatterNdFunctor::Invoke` run as a sequential
loop, the dense position `off(i)` holds `sparse[i]` for every `i < elem_cnt` that
no later element maps to the same position, and every position that no
element maps to holds its old value. -/
theorem ScatterNdFunctor_Invoke_update {T : Type} (elem_cnt segms_size segm_dims : Int)
    (indices shape : Int → Int) (sparse dense : Int → T) :
    (∀ i : Int, 0 ≤ i → i < elem_cnt →
      (∀ i' : Int, i < i' → i' < elem_cnt →
        IndicesOffset.Compute segms_size segm_dims shape indices i' ≠
          IndicesOffset.Compute segms_size segm_dims shape indices i) →
      ScatterNdFunctor.Invoke ScatterNdUpdate.Invoke elem_cnt segms_size segm_dims indices
          shape sparse dense (IndicesOffset.Compute segms_size segm_dims shape indices i) =
        sparse i) ∧
    (∀ p : Int,
      (∀ i : Int, 0 ≤ i → i < elem_cnt →
        IndicesOffset.Compute segms_size segm_dims shape indices i ≠ p) →
      ScatterNdFunctor.Invoke ScatterNdUpdate.Invoke elem_cnt segms_size segm_dims indices
          shape sparse dense p = dense p) := by
  constructor
  · intro i hi0 hi1 hlast
    have h := FOR_RANGE.loop_last_write
      (fun k => IndicesOffset.Compute segms_size segm_dims shape indices k) sparse
      (elem_cnt - 0).toNat 0 dense i.toNat (by omega)
      (by
        intro u hu1 hu2
        have e1 : (0 : Int) + (u : Int) = (u : Int) := zero_add _
        have e2 : (0 : Int) + (i.toNat : Int) = i := by omega
        simp only [e1, e2]
        exact hlast u (by omega) (by omega))
    have e2 : (0 : Int) + (i.toNat : Int) = i := by omega
    rw [e2] at h
    exact h
  · intro p hp
    exact FOR_RANGE.loop_frame ScatterNdUpdate.Invoke
      (fun k => IndicesOffset.Compute segms_size segm_dims shape indices k) sparse
      (elem_cnt - 0).toNat 0 dense p
      (by
        intro t ht
        have e1 : (0 : Int) + (t : Int) = (t : Int) := zero_add _
        simp only [e1]
        exact hp t (by omega) (by omega))

/-- C19, the code at its failing input: for every indices shape, line 29 asks for the axis
`NumAxes()`, which is never a valid axis, so the read falls outside the vector of
dimensions; for the shape `(4, 2)` the axis asked for is 2, while the last
axis is 1 and holds the tuple length 2. -/
theorem ScatterNdApply_reads_past_last_axis :
    (∀ indices_shape : Shape,
      NdIndicesUtil.ScatterNdApply.segm_dims_axis indices_shape = indices_shape.NumAxes ∧
      NdIndicesUtil.ScatterNdApply.segm_dims_axis indices_shape ≠ indices_shape.NumAxes - 1 ∧
      NdIndicesUtil.ScatterNdApply.segm_dims indices_shape = none) ∧
    NdIndicesUtil.ScatterNdApply.segm_dims_axis { dim_vec := [4, 2] } = 2 ∧
    NdIndicesUtil.ScatterNdApply.segm_dims { dim_vec := [4, 2] } = none ∧
    Shape.At { dim_vec := [4, 2] } (Shape.NumAxes { dim_vec := [4, 2] } - 1) = some 2 := by
  refine ⟨fun s => ⟨rfl, ?_, ?_⟩, by decide, by decide, by decide⟩
  · unfold NdIndicesUtil.ScatterNdApply.segm_dims_axis
    omega
  · unfold NdIndicesUtil.ScatterNdApply.segm_dims NdIndicesUtil.ScatterNdApply.segm_dims_axis
      Shape.At
    simp

/-! ## Claims about the passes outside `compiler.cpp` -/

theorem Before.trans {l : List Nat} {a b c : Nat} (h1 : Before l a b) (h2 : Before l b c) :
    Before l a c :=
  ⟨h1.1, h2.2.1, lt_trans h1.2.2 h2.2.2⟩

theorem Before.asymm {l : List Nat} {a b : Nat} (h : Before l a b) : ¬ Before l b a :=
  fun h' => lt_asymm h.2.2 h'.2.2

/-- What holds of the visited tasks throughout the traversal: every task that has to
precede a visited task has been visited earlier. -/
theorem TaskGraphModel.loop_sound (g : TaskGraphModel) (fuel : Nat) (visited order : List Nat)
    (hinv : ∀ n ∈ visited, ∀ m ∈ g.nodes, g.mustPrecede m n = true → Before visited m n)
    (h : TaskGraphModel.MdUpdtDelayedTopoForEachNode.loop g fuel visited = some order) :
    (∀ n ∈ g.nodes, n ∈ order) ∧
      ∀ n ∈ order, ∀ m ∈ g.nodes, g.mustPrecede m n = true → Before order m n := by
  have hdone : ∀ visited order : List Nat,
      (∀ n ∈ visited, ∀ m ∈ g.nodes, g.mustPrecede m n = true → Before visited m n) →
      (if (g.nodes.all fun n => decide (n ∈ visited)) = true then some visited else none) =
        some order →
      (∀ n ∈ g.nodes, n ∈ order) ∧
        ∀ n ∈ order, ∀ m ∈ g.nodes, g.mustPrecede m n = true → Before order m n := by
    intro visited order hinv h
    split_ifs at h with hall
    simp only [Option.some.injEq] at h
    subst h
    simp only [List.all_eq_true, decide_eq_true_eq] at hall
    exact ⟨hall, hinv⟩
  induction fuel generalizing visited with
  | zero => exact hdone visited order hinv h
  | succ fuel ih =>
    unfold TaskGraphModel.MdUpdtDelayedTopoForEachNode.loop at h
    cases hf : g.nodes.find? (g.ready visited) with
    | none =>
      rw [hf] at h
      exact hdone visited order hinv h
    | some n =>
      rw [hf] at h
      refine ih (visited ++ [n]) ?_ h
      have hready := List.find?_some hf
      simp only [TaskGraphModel.ready, Bool.and_eq_true, decide_eq_true_eq, List.all_eq_true,
        Bool.or_eq_true, Bool.not_eq_true'] at hready
      obtain ⟨hnew, hpre⟩ := hready
      intro k hk m hm hmk
      rcases List.mem_append.1 hk with hk | hk
      · obtain ⟨h1, h2, h3⟩ := hinv k hk m hm hmk
        refine ⟨List.mem_append_left _ h1, List.mem_append_left _ h2, ?_⟩
        rwa [List.indexOf_append_of_mem h1, List.indexOf_append_of_mem h2]
      · simp only [List.mem_singleton] at hk
        subst hk
        have hmv : m ∈ visited := by
          rcases hpre m hm with h1 | h1
          · rw [h1] at hmk
            cases hmk
          · exact h1
        refine ⟨List.mem_append_left _ hmv, List.mem_append_right _ (List.mem_singleton_self _),
          ?_⟩
        rw [List.indexOf_append_of_mem hmv, List.indexOf_append_of_not_mem hnew]
        have := List.indexOf_lt_length.2 hmv
        omega

/-- C15: in the model of the build phase, when `MdUpdtDelayedTopoForEachNode` returns a
visiting order, the order holds every task, and every parameter-update task
comes strictly after each task that consumes from it. -/
theorem MdUpdtDelayedTopoForEachNode_update_after_readers (g : TaskGraphModel)
    (order : List Nat) (h : g.MdUpdtDelayedTopoForEachNode = some order) :
    (∀ n ∈ g.nodes, n ∈ order) ∧
    ∀ e ∈ g.edges, e.1 ∈ g.md_updt → e.1 ∈ g.nodes → e.2 ∈ g.nodes →
      Before order e.2 e.1 ∧ ¬ Before order e.1 e.2 := by
  obtain ⟨hall, hord⟩ := g.loop_sound g.nodes.length [] order (by simp) h
  refine ⟨hall, ?_⟩
  intro e he hupd h1 h2
  have hmp : g.mustPrecede e.2 e.1 = true := by
    simp only [TaskGraphModel.mustPrecede, List.any_eq_true]
    exact ⟨e, he, by simp [hupd]⟩
  have := hord e.1 (hall e.1 h1) e.2 h2 hmp
  exact ⟨this, this.asymm⟩

theorem TaskGraphModel.exists_ready (g : TaskGraphModel) (topo visited : List Nat)
    (htopo : ∀ m ∈ g.nodes, ∀ n ∈ g.nodes, g.mustPrecede m n = true → Before topo m n)
    (hleft : ∃ n ∈ g.nodes, n ∉ visited) : ∃ n ∈ g.nodes, g.ready visited n = true := by
  obtain ⟨n0, hn0, hn0v⟩ := hleft
  have hne : (g.nodes.filter fun n => decide (n ∉ visited)).toFinset.Nonempty :=
    ⟨n0, by simp [hn0, hn0v]⟩
  obtain ⟨n, hn, hmin⟩ := Finset.exists_min_image _ (fun n => topo.indexOf n) hne
  simp only [List.mem_toFinset, List.mem_filter, decide_eq_true_eq] at hn hmin
  refine ⟨n, hn.1, ?_⟩
  simp only [TaskGraphModel.ready, Bool.and_eq_true, decide_eq_true_eq, List.all_eq_true,
    Bool.or_eq_true, Bool.not_eq_true']
  refine ⟨hn.2, fun m hm => ?_⟩
  by_cases hmp : g.mustPrecede m n = true
  · right
    by_contra hmv
    have h1 := (htopo m hm n hn.1 hmp).2.2
    have h2 := hmin m ⟨hm, hmv⟩
    omega
  · left
    simpa using hmp

theorem subset_of_nodup_of_length_le (visited nodes : List Nat) (hnd : visited.Nodup)
    (hsub : ∀ n ∈ visited, n ∈ nodes) (hlen : nodes.length ≤ visited.length) :
    ∀ n ∈ nodes, n ∈ visited := by
  have hsubset : visited.toFinset ⊆ nodes.toFinset := by
    intro x hx
    simp only [List.mem_toFinset] at hx ⊢
    exact hsub x hx
  have hcard : nodes.toFinset.card ≤ visited.toFinset.card := by
    rw [List.toFinset_card_of_nodup hnd]
    exact le_trans (List.toFinset_card_le nodes) hlen
  have heq := Finset.eq_of_subset_of_card_le hsubset hcard
  intro n hn
  have : n ∈ nodes.toFinset := List.mem_toFinset.2 hn
  rw [← heq] at this
  exact List.mem_toFinset.1 this

theorem TaskGraphModel.loop_complete (g : TaskGraphModel) (topo : List Nat)
    (htopo : ∀ m ∈ g.nodes, ∀ n ∈ g.nodes, g.mustPrecede m n = true → Before topo m n)
    (fuel : Nat) (visited : List Nat) (hnd : visited.Nodup)
    (hsub : ∀ n ∈ visited, n ∈ g.nodes) (hlen : g.nodes.length ≤ fuel + visited.length) :
    ∃ order, TaskGraphModel.MdUpdtDelayedTopoForEachNode.loop g fuel visited = some order := by
  induction fuel generalizing visited with
  | zero =>
    have hall := subset_of_nodup_of_length_le visited g.nodes hnd hsub (by omega)
    refine ⟨visited, ?_⟩
    unfold TaskGraphModel.MdUpdtDelayedTopoForEachNode.loop
    rw [if_pos]
    simpa [List.all_eq_true] using hall
  | succ fuel ih =>
    unfold TaskGraphModel.MdUpdtDelayedTopoForEachNode.loop
    cases hf : g.nodes.find? (g.ready visited) with
    | none =>
      have hall : ∀ n ∈ g.nodes, n ∈ visited := by
        by_contra hcon
        push_neg at hcon
        obtain ⟨n, hn, hr⟩ := g.exists_ready topo visited htopo hcon
        have := List.find?_eq_none.1 hf n hn
        exact this hr
      refine ⟨visited, ?_⟩
      simp only
      rw [if_pos]
      simpa [List.all_eq_true] using hall
    | some n =>
      have hn : n ∈ g.nodes := List.mem_of_find?_eq_some hf
      have hready := List.find?_some hf
      simp only [TaskGraphModel.ready, Bool.and_eq_true, decide_eq_true_eq] at hready
      refine ih (visited ++ [n]) ?_ ?_ ?_
      · exact List.Nodup.append hnd (List.nodup_singleton n)
          (by simpa [List.disjoint_singleton] using hready.1)
      · intro k hk
        rcases List.mem_append.1 hk with hk | hk
        · exact hsub k hk
        · simp only [List.mem_singleton] at hk
          rw [hk]
          exact hn
      · simp only [List.length_append, List.length_singleton]
        omega

/-- The traversal of the build phase returns a visiting order whenever some order of
the tasks meets all the constraints, that is, whenever they have no cycle. -/
theorem TaskGraphModel.MdUpdtDelayedTopoForEachNode_returns (g : TaskGraphModel)
    (topo : List Nat)
    (htopo : ∀ m ∈ g.nodes, ∀ n ∈ g.nodes, g.mustPrecede m n = true → Before topo m n) :
    ∃ order, g.MdUpdtDelayedTopoForEachNode = some order :=
  g.loop_complete topo htopo g.nodes.length [] List.nodup_nil (by simp) (by simp)

/-! ## The later claims at concrete inputs -/

theorem exPlanFan_sameUpToOrder : SameUpToOrder exPlanFan.task exPlanFanShuffled.task := by
  refine ⟨[ { task_id := 4, machine_id := 3, produced_regst_desc := [] },
      { task_id := 2, machine_id := 2, produced_regst_desc := [] },
      { task_id := 1, machine_id := 3,
        produced_regst_desc :=
          [("a", { regst_desc_id := 10, consumer_task_id := [2, 3, 4] }),
           ("b", { regst_desc_id := 11, consumer_task_id := [3, 2] })] },
      { task_id := 3, machine_id := 1, produced_regst_desc := [] } ], by decide, ?_⟩
  refine List.Forall₂.cons ⟨rfl, rfl, [], List.Perm.refl _, List.Forall₂.nil⟩
    (List.Forall₂.cons ⟨rfl, rfl, [], List.Perm.refl _, List.Forall₂.nil⟩
      (List.Forall₂.cons ⟨rfl, rfl, ?_⟩
        (List.Forall₂.cons ⟨rfl, rfl, [], List.Perm.refl _, List.Forall₂.nil⟩
          List.Forall₂.nil)))
  refine ⟨[("b", { regst_desc_id := 11, consumer_task_id := [3, 2] }),
      ("a", { regst_desc_id := 10, consumer_task_id := [2, 3, 4] })], by decide, ?_⟩
  exact List.Forall₂.cons ⟨rfl, rfl, by decide⟩
    (List.Forall₂.cons ⟨rfl, rfl, by decide⟩ List.Forall₂.nil)

/-- The statement of C13 at the plan `exPlanFan` and a reordering of it. -/
theorem GenNetTopo_order_independent_witness :
    GenNetTopo exPlanFan = .ok exPlanFanOut ∧ UniqueProducers exPlanFan.task ∧
    SameUpToOrder exPlanFan.task exPlanFanShuffled.task ∧
    ∃ out2, GenNetTopo exPlanFanShuffled = .ok out2 ∧ out2.net_topo = exPlanFanOut.net_topo :=
  ⟨rfl, by unfold UniqueProducers; decide, exPlanFan_sameUpToOrder,
    GenNetTopo_order_independent exPlanFan exPlanFanShuffled exPlanFanOut rfl
      (by unfold UniqueProducers; decide) exPlanFan_sameUpToOrder⟩

/-- The statement of C20 at the plan `exPlanFan` and machine 3. -/
theorem GenNetTopo_key_iff_witness :
    GenNetTopo exPlanFan = .ok exPlanFanOut ∧ UniqueProducers exPlanFan.task ∧
    ((3 ∈ exPlanFanOut.net_topo.peer_machine_ids.map Prod.fst ↔
      ProducesConsumed exPlanFan.task 3 ∨ ConsumesSome exPlanFan.task 3) ∧
    ((ProducesConsumed exPlanFan.task 3 ∨ ConsumesSome exPlanFan.task 3) →
      (∀ b, b ≠ 3 → ¬ RegstJoins exPlanFan.task 3 b) →
      (3, { machine_id := [] }) ∈ exPlanFanOut.net_topo.peer_machine_ids) ∧
    (¬ ProducesConsumed exPlanFan.task 3 → ¬ ConsumesSome exPlanFan.task 3 →
      3 ∉ exPlanFanOut.net_topo.peer_machine_ids.map Prod.fst)) :=
  ⟨rfl, by unfold UniqueProducers; decide,
    GenNetTopo_key_iff exPlanFan exPlanFanOut rfl (by unfold UniqueProducers; decide) 3⟩

/-- C16 as stated fails. With `segms_size = 2^62`, one dimension and the index 4 the
formula gives `2^64`, and the `int64_t` product of line 44 gives 0. With
`segms_size = 1`, two dimensions and `n = 2^63 - 1` the product of line 40
overflows to `-2`, so the tuple read is the one before the pointer. -/
theorem IndicesOffset_Compute_row_major_counterexample :
    (((0 : Int) < 4611686018427387904 ∧ (0 : Int) ≤ 1 ∧ (0 : Int) ≤ 0) ∧
      IndicesOffset.Compute 4611686018427387904 1 exShape exIndicesFour 0 = 0 ∧
      4611686018427387904 *
          (Finset.sum (Finset.range (1 : Int).toNat) fun i =>
            exIndicesFour (0 / 4611686018427387904 * 1 + i) *
              Finset.prod (Finset.Ico (i + 1) (1 : Int).toNat) fun j => exShape j) +
        0 % 4611686018427387904 = 18446744073709551616) ∧
    (((0 : Int) < 1 ∧ (0 : Int) ≤ 2 ∧ (0 : Int) ≤ 9223372036854775807) ∧
      IndicesOffset.Compute 1 2 exShapeOne (exIndicesBelow 1) 9223372036854775807 = 2 ∧
      1 *
          (Finset.sum (Finset.range (2 : Int).toNat) fun i =>
            exIndicesBelow 1 (9223372036854775807 / 1 * 2 + i) *
              Finset.prod (Finset.Ico (i + 1) (2 : Int).toNat) fun j => exShapeOne j) +
        9223372036854775807 % 1 = 0) := by
  decide

/-- The statement of C16, as amended, at the shape `(3, 4)`, two index tuples,
`segms_size = 2` and `n = 3`: the tuple is `(0, 3)` and the offset is `2 * 3 + 1`. -/
theorem IndicesOffset_Compute_row_major_witness :
    ((0 : Int) < 2 ∧ (0 : Int) ≤ 2 ∧ (0 : Int) ≤ 3 ∧ IsInt64 (3 / 2 * 2) ∧
      IsInt64
        (2 *
            (Finset.sum (Finset.range (2 : Int).toNat) fun i =>
              exIndices (3 / 2 * 2 + i) *
                Finset.prod (Finset.Ico (i + 1) (2 : Int).toNat) fun j => exShape j) +
          3 % 2)) ∧
    IndicesOffset.Compute 2 2 exShape exIndices 3 = 7 ∧
    (IndicesOffset.Compute 2 2 exShape exIndices 3 =
      2 *
        (Finset.sum (Finset.range (2 : Int).toNat) fun i =>
          exIndices (3 / 2 * 2 + i) *
            Finset.prod (Finset.Ico (i + 1) (2 : Int).toNat) fun j => exShape j) +
      3 % 2 ∧
    (Finset.sum (Finset.range (2 : Int).toNat) fun i =>
        exIndices (3 / 2 * 2 + i) *
          Finset.prod (Finset.Ico (i + 1) (2 : Int).toNat) fun j => exShape j) =
      flattenHorner (indexTuple 2 2 exIndices 3) exShape (2 : Int).toNat ∧
    (((2 : Int).toNat : Nat) : Int) = 2 ∧
    ∀ x : Int,
      IndicesOffset.Compute 2 2 (Function.update exShape 0 x) exIndices 3 =
        IndicesOffset.Compute 2 2 exShape exIndices 3) :=
  ⟨⟨by decide, by decide, by decide, by unfold IsInt64; decide, by unfold IsInt64; decide⟩,
    by decide,
    IndicesOffset_Compute_row_major 2 2 exShape exIndices 3 (by decide) (by decide)
      (by decide) (by unfold IsInt64; decide) (by unfold IsInt64; decide)⟩

/-- C17 as stated fails. With the shape `(2^32, 2^32)` and the tuple
`(2^32 - 1, 2^32 - 1)` every component is in range and the `int64_t` product of
line 44 overflows: the offset returned is `-1`. With `segms_size = 1`, two
dimensions of size 1 and `n = 2^63 - 1` the tuple of the formula is `(0, 0)`,
in range, while line 40 overflows and the tuple read gives the offset 10. -/
theorem IndicesOffset_Compute_in_bounds_counterexample :
    (((0 : Int) < 1 ∧ (0 : Int) ≤ 0 ∧
        ∀ i : Nat, i < (2 : Int).toNat →
          0 ≤ exIndicesLast (0 / 1 * 2 + i) ∧ exIndicesLast (0 / 1 * 2 + i) < exShapeWide i) ∧
      IndicesOffset.Compute 1 2 exShapeWide exIndicesLast 0 = -1 ∧
      ¬ (0 ≤ IndicesOffset.Compute 1 2 exShapeWide exIndicesLast 0)) ∧
    (((0 : Int) < 1 ∧ (0 : Int) ≤ 9223372036854775807 ∧
        ∀ i : Nat, i < (2 : Int).toNat →
          0 ≤ exIndicesBelow 5 (9223372036854775807 / 1 * 2 + i) ∧
            exIndicesBelow 5 (9223372036854775807 / 1 * 2 + i) < exShapeOne i) ∧
      IndicesOffset.Compute 1 2 exShapeOne (exIndicesBelow 5) 9223372036854775807 = 10 ∧
      ¬ (IndicesOffset.Compute 1 2 exShapeOne (exIndicesBelow 5) 9223372036854775807 <
        1 * Finset.prod (Finset.range (2 : Int).toNat) fun i => exShapeOne i)) := by
  decide

/-- The statement of C17, as amended, at the same input as for C16: the offset 7 lies
in `[0, 2 * 3 * 4)`. -/
theorem IndicesOffset_Compute_in_bounds_witness :
    ((0 : Int) < 2 ∧ (0 : Int) ≤ 3 ∧ IsInt64 (3 / 2 * 2) ∧
      IsInt64 (2 * Finset.prod (Finset.range (2 : Int).toNat) fun i => exShape i) ∧
      ∀ i : Nat, i < (2 : Int).toNat →
        0 ≤ exIndices (3 / 2 * 2 + i) ∧ exIndices (3 / 2 * 2 + i) < exShape i) ∧
    (0 ≤ IndicesOffset.Compute 2 2 exShape exIndices 3 ∧
      IndicesOffset.Compute 2 2 exShape exIndices 3 <
        2 * Finset.prod (Finset.range (2 : Int).toNat) fun i => exShape i) :=
  ⟨⟨by decide, by decide, by unfold IsInt64; decide, by unfold IsInt64; decide, by decide⟩,
    IndicesOffset_Compute_in_bounds 2 2 exShape exIndices 3 (by decide) (by decide)
      (by unfold IsInt64; decide) (by unfold IsInt64; decide) (by decide)⟩

/-- The statement of C15 at a graph in which task 0 updates a parameter read by task
1: the visiting order is 1, 0, 2. -/
theorem MdUpdtDelayedTopoForEachNode_update_after_readers_witness :
    exTaskGraph.MdUpdtDelayedTopoForEachNode = some [1, 0, 2] ∧
    ((∀ n ∈ exTaskGraph.nodes, n ∈ [1, 0, 2]) ∧
    ∀ e ∈ exTaskGraph.edges, e.1 ∈ exTaskGraph.md_updt → e.1 ∈ exTaskGraph.nodes →
      e.2 ∈ exTaskGraph.nodes → Before [1, 0, 2] e.2 e.1 ∧ ¬ Before [1, 0, 2] e.1 e.2) :=
  ⟨by decide, MdUpdtDelayedTopoForEachNode_update_after_readers exTaskGraph [1, 0, 2]
    (by decide)⟩

/-- A run of `ScatterNdFunctor::Invoke` with `ScatterNdUpdate`: four elements in two
segments of size 2 are scattered to the rows `(1, 2)` and `(0, 3)` of a dense
buffer of zeros. -/
theorem ScatterNdFunctor_Invoke_concrete_run :
    (List.range 24).map
      (fun p : Nat =>
        ScatterNdFunctor.Invoke ScatterNdUpdate.Invoke 4 2 2 exIndices exShape
          (fun i => 10 + i) (fun _ => (0 : Int)) p) =
    [0, 0, 0, 0, 0, 0, 12, 13, 0, 0, 0, 0, 10, 11, 0, 0, 0, 0, 0, 0, 0, 0, 0, 0] := by
  decide

end oneflow
